import Mathlib

/-!
Formal model of the dowe-proxy metadata store and router core.

Shallow embedding of:
- the binary codec (src/db/core/encoder.ts, decoder.ts, types.ts),
- the CRC-32 checksum (src/db/utils/checksum.ts),
- the UUID utilities (src/db/utils/uuid.ts),
- the B-tree index (src/db/core/index.ts),
- the record storage (src/db/core/storage.ts),
- the domain loader (src/loaders/domainLoader.ts),
- the proxy router (src/renderers/proxyRouter.ts),
- the process manager (src/processors/processManager.ts).

Bytes are modelled as `Nat` values below 256; buffers as `List Nat`.
JavaScript machine arithmetic is made explicit with `% 2 ^ w` and
two's-complement conversions.
-/

set_option maxRecDepth 100000

namespace Dowe

/-! ## Byte-level primitives

`DataView` big-endian reads and writes.  A w-byte big-endian write of a
natural number `n < 2^(8*w)` is its base-256 digit list, most significant
first. -/

/-- Big-endian bytes of `n`, exactly `w` bytes (the JS `DataView.setUintN`). -/
def natToBytesBE : Nat → Nat → List Nat
  | 0, _ => []
  | w + 1, n => (n / 2 ^ (8 * w)) % 256 :: natToBytesBE w n

/-- Big-endian read of `w` bytes into a natural number (`DataView.getUintN`). -/
def bytesToNatBE : List Nat → Nat
  | [] => 0
  | b :: bs => b * 2 ^ (8 * bs.length) + bytesToNatBE bs

/-- Two's-complement image of an integer in `w` bytes
(JS `DataView.setIntN` converts via `ToIntN`, i.e. mod `2^(8w)`). -/
def intToTwos (w : Nat) (i : Int) : Nat :=
  (i % (2 ^ (8 * w) : Nat)).toNat

/-- Interpret a `w`-byte unsigned value as a signed two's-complement integer
(JS `DataView.getIntN`). -/
def twosToInt (w : Nat) (n : Nat) : Int :=
  if n < 2 ^ (8 * w - 1) then (n : Int) else (n : Int) - (2 ^ (8 * w) : Nat)

/-- `writeIntN`: signed big-endian write, `w` bytes. -/
def intToBytesBE (w : Nat) (i : Int) : List Nat :=
  natToBytesBE w (intToTwos w i)

/-- `readIntN`: signed big-endian read of `w` bytes. -/
def bytesToIntBE (w : Nat) (bs : List Nat) : Int :=
  twosToInt w (bytesToNatBE bs)

/-! ## Variable-length integers (encoder.writeVarint / decoder.readVarint)

1 byte for `≤ 0x7F`, 2 bytes (top bits `10`) for `≤ 0x3FFF`,
4 bytes (top bits `110`) for `≤ 0x1FFFFFFF`; larger values throw. -/

def MAX_VARINT_1 : Nat := 0x7f
def MAX_VARINT_2 : Nat := 0x3fff
def MAX_VARINT_4 : Nat := 0x1fffffff

/-- `BinaryEncoder.writeVarint`; `none` models the thrown
"Value too large for varint encoding".  The source packs with `|` and `>>`;
on these ranges the packed fields are disjoint, so `0x80 | (v >> 8)` is
`0x80 + v / 256` and so on, written arithmetically here. -/
def writeVarint (value : Nat) : Option (List Nat) :=
  if value ≤ MAX_VARINT_1 then
    some [value]
  else if value ≤ MAX_VARINT_2 then
    some [0x80 + value / 256, value % 256]
  else if value ≤ MAX_VARINT_4 then
    some [0xc0 + value / 2 ^ 24, value / 2 ^ 16 % 256, value / 256 % 256, value % 256]
  else
    none

/-- `BinaryDecoder.readVarint`: returns the value and the remaining bytes;
`none` models underflow or "Invalid varint encoding".  On bytes (< 256) the
source's mask tests `first & 0x80 = 0`, `first & 0xc0 = 0x80`,
`first & 0xe0 = 0xc0` are the range tests below, and the reassembly masks
are the `% 64` / `% 32` taken here. -/
def readVarint : List Nat → Option (Nat × List Nat)
  | [] => none
  | first :: rest =>
    if first % 256 < 0x80 then
      some (first % 256, rest)
    else if first % 256 < 0xc0 then
      match rest with
      | [] => none
      | second :: rest2 => some (first % 64 * 256 + second % 256, rest2)
    else if first % 256 < 0xe0 then
      match rest with
      | b1 :: b2 :: b3 :: rest3 =>
        some (first % 32 * 2 ^ 24 + b1 % 256 * 2 ^ 16 + b2 % 256 * 256 + b3 % 256, rest3)
      | _ => none
    else
      none

/-! ## CRC-32/IEEE (src/db/utils/checksum.ts) -/

/-- One table entry: eight rounds of the reflected 0xEDB88320 step on `i`. -/
def crc32TableEntry (i : Nat) : Nat :=
  (List.range 8).foldl
    (fun crc _ => if crc % 2 = 1 then 0xedb88320 ^^^ (crc >>> 1) else crc >>> 1) i

/-- The CRC-32 of a byte list, `crc32` of checksum.ts. -/
def crc32 (data : List Nat) : Nat :=
  (data.foldl
    (fun crc b => crc32TableEntry ((crc ^^^ b) &&& 0xff) ^^^ (crc >>> 8))
    0xffffffff) ^^^ 0xffffffff

/-! ## UUID utilities (src/db/utils/uuid.ts)

A UUID is 16 bytes.  `compareUUID` walks indices `0..15`, reading `a[i] ?? 0`,
and returns the first nonzero byte difference, else 0.  The structural
recursion below consumes one head per step, which is the same scan. -/

def UUID_SIZE : Nat := 16

/-- The scan of `compareUUID`, parameterised by the remaining index budget. -/
def cmpBytes : Nat → List Nat → List Nat → Int
  | 0, _, _ => 0
  | n + 1, a, b =>
    if (a.headD 0 : Nat) ≠ b.headD 0 then (a.headD 0 : Int) - (b.headD 0 : Int)
    else cmpBytes n a.tail b.tail

/-- `compareUUID`: lexicographic byte comparison over the first 16 positions. -/
def compareUUID (a b : List Nat) : Int := cmpBytes UUID_SIZE a b

/-- The character `HEX_CHARS[i]` of uuid.ts. -/
def hexChar (i : Nat) : Char := "0123456789abcdef".toList.getD i '0'

/-- The `HEX_LOOKUP` table: value of a hex character, 0 for anything else. -/
def hexVal (c : Char) : Nat :=
  if '0' ≤ c ∧ c ≤ '9' then c.toNat - '0'.toNat
  else if 'a' ≤ c ∧ c ≤ 'f' then c.toNat - 'a'.toNat + 10
  else if 'A' ≤ c ∧ c ≤ 'F' then c.toNat - 'A'.toNat + 10
  else 0

/-- Dash positions of the canonical form: before bytes 4, 6, 8 and 10. -/
def uuidCharsFrom : Nat → List Nat → List Char
  | _, [] => []
  | i, b :: bs =>
    (if i = 4 ∨ i = 6 ∨ i = 8 ∨ i = 10 then ['-'] else []) ++
      hexChar (b >>> 4) :: hexChar (b &&& 0x0f) :: uuidCharsFrom (i + 1) bs

/-- `uuidToString`: canonical 8-4-4-4-12 lowercase hex rendering. -/
def uuidToString (bytes : List Nat) : String :=
  String.mk (uuidCharsFrom 0 (bytes.take UUID_SIZE))

/-- The parse loop of `stringToUUID`: skip dashes, consume hex pairs, stop
after `fuel` bytes; missing low nibbles and missing bytes read as 0
(the `?? 0` fallbacks and the zero-initialised `Uint8Array`). -/
def parseHexBytes : List Char → Nat → List Nat
  | _, 0 => []
  | [], fuel => List.replicate fuel 0
  | '-' :: rest, fuel => parseHexBytes rest fuel
  | [c1], fuel + 1 => ((hexVal c1 <<< 4) ||| 0) :: List.replicate fuel 0
  | c1 :: c2 :: rest, fuel + 1 =>
    ((hexVal c1 <<< 4) ||| hexVal c2) :: parseHexBytes rest fuel

/-- `stringToUUID`: parse a canonical UUID string back to 16 bytes. -/
def stringToUUID (s : String) : List Nat :=
  parseHexBytes s.toList UUID_SIZE

/-! ## IEEE 754 doubles as bit patterns

A JavaScript number is an IEEE 754 binary64 value.  We model a double by
the partition the encoder observes: integer-valued (`Number.isInteger`),
non-integer but `Math.fround`-exact, or neither.  The latter two carry
their binary32 / binary64 bit pattern, which is exactly what
`DataView.setFloat32` / `setFloat64` serialise big-endian. -/

/-- The JS number domain as seen by `encodeNumber`. -/
inductive JsNumber where
  /-- An integer-valued double (`Number.isInteger(v)` is true); carries the
  exact integer value. -/
  | int (i : Int)
  /-- A non-integer double with `Math.fround(v) === v`; carries its binary32
  bit pattern. -/
  | f32 (bits : Nat)
  /-- A non-integer double with `Math.fround(v) !== v` (including NaN);
  carries its binary64 bit pattern. -/
  | f64 (bits : Nat)
deriving DecidableEq, Repr

/-- The canonical quiet-NaN binary64 pattern engines produce. -/
def nan64 : Nat := 0x7ff8000000000000

/-- Binary logarithm, fuelled so that it evaluates inside the kernel
(`n` itself is ample fuel: the recursion depth is `log₂ n`). -/
def log2F : Nat → Nat → Nat
  | 0, _ => 0
  | f + 1, n => if 2 ≤ n then log2F f (n / 2) + 1 else 0

/-- Floor of the binary logarithm: `2 ^ nlog2 n ≤ n < 2 ^ (nlog2 n + 1)`
for `1 ≤ n`. -/
def nlog2 (n : Nat) : Nat := log2F n n

/-- Integer value of a binary64 bit pattern, when its value is an integer
(so `Number.isInteger` holds of the double).  Field split: sign `b/2^63`,
biased exponent `(b/2^52) % 2^11`, mantissa `b % 2^52`. -/
def f64ToIntQ (b : Nat) : Option Int :=
  let s := b / 2 ^ 63
  let be := (b / 2 ^ 52) % 2 ^ 11
  let man := b % 2 ^ 52
  let sgn : Int := if s = 1 then -1 else 1
  if be = 2047 then none
  else if be = 0 then (if man = 0 then some 0 else none)
  else
    let m := 2 ^ 52 + man
    if 1075 ≤ be then some (sgn * Int.ofNat (m * 2 ^ (be - 1075)))
    else if m % 2 ^ (1075 - be) = 0 then some (sgn * Int.ofNat (m / 2 ^ (1075 - be)))
    else none

/-- Is the binary64 pattern a NaN? -/
def f64IsNaN (b : Nat) : Bool :=
  (b / 2 ^ 52) % 2 ^ 11 = 2047 && b % 2 ^ 52 ≠ 0

/-- Largest power of two dividing `n` (fuelled; `n` itself is ample fuel). -/
def twoAdicF : Nat → Nat → Nat
  | 0, _ => 0
  | fuel + 1, n => if n % 2 = 0 ∧ n ≠ 0 then twoAdicF fuel (n / 2) + 1 else 0

/-- Exponent of the largest power of two dividing `n`. -/
def twoAdic (n : Nat) : Nat := twoAdicF n n

/-- Does the (finite, nonzero) double `m * 2^(e - shift)` round-trip through
binary32?  True iff its odd part fits in 24 bits and its exponent reaches
the binary32 subnormal grid (non-integer inputs are far below the binary32
overflow threshold). -/
def fitsF32 (m : Nat) (eNum eDen : Nat) : Bool :=
  -- the value is m * 2^eNum / 2^eDen with m ≠ 0
  let k := twoAdic m
  let modd := m / 2 ^ k
  modd < 2 ^ 24 && eDen ≤ eNum + k + 149

/-- Is the value of a (non-NaN) binary64 pattern exactly representable in
binary32 (equivalently, `Math.fround(v) === v`)? -/
def f64F32Exact (b : Nat) : Bool :=
  let be := (b / 2 ^ 52) % 2 ^ 11
  let man := b % 2 ^ 52
  if be = 2047 then man = 0   -- infinities are fround-fixed, NaN is handled before
  else if be = 0 then (if man = 0 then true else fitsF32 man 0 1074)
  else fitsF32 (2 ^ 52 + man) be 1075

/-- Narrow an exactly-representable binary64 pattern to the binary32 pattern
of the same value (used only on `f64F32Exact` patterns). -/
def f64ToF32Bits (b : Nat) : Nat :=
  let s := b / 2 ^ 63
  let be : Nat := (b / 2 ^ 52) % 2 ^ 11
  let man := b % 2 ^ 52
  if be = 2047 then s * 2 ^ 31 + 255 * 2 ^ 23 + (if man = 0 then 0 else 2 ^ 22)
  else if be = 0 ∧ man = 0 then s * 2 ^ 31
  else
    -- value = m * 2^eNum / 2^eDen, m ≠ 0
    let m : Nat := if be = 0 then man else 2 ^ 52 + man
    let eNum : Nat := if be = 0 then 0 else be
    let eDen : Nat := 1075
    let k := twoAdic m
    let modd := m / 2 ^ k
    let t := nlog2 modd         -- 2^t ≤ modd < 2^(t+1)
    -- binary32 biased exponent of the value
    let be32 : Int := (eNum : Int) + (k : Int) + (t : Int) - (eDen : Int) + 127
    if 1 ≤ be32 then
      s * 2 ^ 31 + be32.toNat * 2 ^ 23 + (modd * 2 ^ (23 - t) - 2 ^ 23)
    else
      s * 2 ^ 31 + modd * 2 ^ ((eNum + k + 149) - eDen)

/-- Classify a binary64 pattern back into the `JsNumber` partition
(`DataView.getFloat64` returns the double with these bits; engines
canonicalise NaN). -/
def classify64 (b : Nat) : JsNumber :=
  match f64ToIntQ b with
  | some i => .int i
  | none =>
    if f64IsNaN b then .f64 nan64
    else if f64F32Exact b then .f32 (f64ToF32Bits b)
    else .f64 (b % 2 ^ 64)

/-- Integer value of a binary32 bit pattern, when integral. -/
def f32ToIntQ (b : Nat) : Option Int :=
  let s := b / 2 ^ 31
  let be := (b / 2 ^ 23) % 2 ^ 8
  let man := b % 2 ^ 23
  let sgn : Int := if s = 1 then -1 else 1
  if be = 255 then none
  else if be = 0 then (if man = 0 then some 0 else none)
  else
    let m := 2 ^ 23 + man
    if 150 ≤ be then some (sgn * Int.ofNat (m * 2 ^ (be - 150)))
    else if m % 2 ^ (150 - be) = 0 then some (sgn * Int.ofNat (m / 2 ^ (150 - be)))
    else none

/-- Is the binary32 pattern a NaN? -/
def f32IsNaN (b : Nat) : Bool :=
  (b / 2 ^ 23) % 2 ^ 8 = 255 && b % 2 ^ 23 ≠ 0

/-- Classify a binary32 pattern (`DataView.getFloat32` widens it losslessly
to a double; every finite binary32 value is fround-exact). -/
def classify32 (b : Nat) : JsNumber :=
  match f32ToIntQ b with
  | some i => .int i
  | none => if f32IsNaN b then .f64 nan64 else .f32 (b % 2 ^ 32)

/-- Can the integer `i` be held exactly by a binary64 (so that a JS number
whose value is `i` exists)?  True iff the odd part of `|i|` fits in 53 bits
and `|i| < 2^1024`. -/
def f64RepInt (i : Int) : Bool :=
  let n := i.natAbs
  if n < 2 ^ 53 then true
  else if n < 2 ^ 1024 then n % 2 ^ (nlog2 n - 52) = 0
  else false

/-- The binary64 bit pattern of the double whose value is the representable
integer `i` (the bytes `DataView.setFloat64` emits for it). -/
def intToF64bits (i : Int) : Nat :=
  if i = 0 then 0
  else
    let s := if i < 0 then 1 else 0
    let n := i.natAbs
    let t := nlog2 n           -- 2^t ≤ n < 2^(t+1)
    if t ≤ 52 then s * 2 ^ 63 + (t + 1023) * 2 ^ 52 + (n * 2 ^ (52 - t) - 2 ^ 52)
    else s * 2 ^ 63 + (t + 1023) * 2 ^ 52 + (n / 2 ^ (t - 52) - 2 ^ 52)

/-! ## UTF-8 (TextEncoder / TextDecoder)

Lean strings are sequences of Unicode scalar values, which is exactly the
image of well-formed JS strings; `TextEncoder` is standard UTF-8 on these. -/

/-- UTF-8 bytes of one scalar value. -/
def utf8EncodeChar (c : Char) : List Nat :=
  let n := c.toNat
  if n < 0x80 then [n]
  else if n < 0x800 then [0xc0 + n / 64, 0x80 + n % 64]
  else if n < 0x10000 then [0xe0 + n / 4096, 0x80 + n / 64 % 64, 0x80 + n % 64]
  else [0xf0 + n / 262144, 0x80 + n / 4096 % 64, 0x80 + n / 64 % 64, 0x80 + n % 64]

/-- `TextEncoder.encode`. -/
def utf8Encode (s : String) : List Nat := (s.data.map utf8EncodeChar).flatten

/-- Continuation byte? (`10xxxxxx`). -/
def isCont (b : Nat) : Bool := 0x80 ≤ b && b < 0xc0

/-- One decoded scalar, `none` for an invalid scalar value. -/
def charOfNat? (n : Nat) : Option Char :=
  if h : n < 0xd800 ∨ (0xdfff < n ∧ n < 0x110000) then
    some ⟨UInt32.ofNat n, by
      rcases h with h | h
      · exact Or.inl (by
          simp [UInt32.ofNat, Fin.ofNat, Nat.mod_eq_of_lt (by omega : n < 4294967296)]
          omega)
      · exact Or.inr (by
          simp [UInt32.ofNat, Fin.ofNat, Nat.mod_eq_of_lt (by omega : n < 4294967296)]
          omega)⟩
  else none

/-- The replacement character U+FFFD emitted by a non-fatal `TextDecoder`. -/
def replChar : Char := '�'

/-- `TextDecoder.decode` (non-fatal): decode UTF-8, emitting U+FFFD for
malformed input.  The fuel drops once per emitted character; each character
consumes at least one byte, so `bs.length` fuel is always enough.  Only the
well-formed path matters for round-trips. -/
def utf8DecodeF : Nat → List Nat → List Char
  | 0, _ => []
  | _ + 1, [] => []
  | f + 1, b :: rest =>
    if b < 0x80 then (charOfNat? b).getD replChar :: utf8DecodeF f rest
    else if b < 0xc0 then replChar :: utf8DecodeF f rest
    else if b < 0xe0 then
      match rest with
      | b1 :: rest1 =>
        if isCont b1 then
          (charOfNat? ((b - 0xc0) * 64 + (b1 - 0x80))).getD replChar :: utf8DecodeF f rest1
        else replChar :: utf8DecodeF f rest
      | [] => [replChar]
    else if b < 0xf0 then
      match rest with
      | b1 :: b2 :: rest2 =>
        if isCont b1 && isCont b2 then
          (charOfNat? ((b - 0xe0) * 4096 + (b1 - 0x80) * 64 + (b2 - 0x80))).getD replChar
            :: utf8DecodeF f rest2
        else replChar :: utf8DecodeF f rest
      | _ => [replChar]
    else if b < 0xf8 then
      match rest with
      | b1 :: b2 :: b3 :: rest3 =>
        if isCont b1 && isCont b2 && isCont b3 then
          (charOfNat? ((b - 0xf0) * 262144 + (b1 - 0x80) * 4096 + (b2 - 0x80) * 64 + (b3 - 0x80))).getD replChar
            :: utf8DecodeF f rest3
        else replChar :: utf8DecodeF f rest
      | _ => [replChar]
    else replChar :: utf8DecodeF f rest

/-- Decode a byte list to a string. -/
def utf8Decode (bs : List Nat) : String := String.mk (utf8DecodeF bs.length bs)

/-! ## The value domain of the codec

The codec's supported set (src/db/core/encoder.ts `encodeValue`): null,
undefined, booleans, numbers, bigints, strings, `Uint8Array`s, `Date`s,
arrays, and objects with string keys.  Arrays and object entry lists are
their own inductives so that all recursion stays structural. -/

mutual
inductive Value where
  | vnull : Value
  | vundef : Value
  | vbool (b : Bool) : Value
  | vnum (n : JsNumber) : Value
  | vbigint (i : Int) : Value
  | vstr (s : String) : Value
  | vbin (bytes : List Nat) : Value
  | vdate (ms : Int) : Value
  | varr (elems : ValueL) : Value
  | vobj (fields : ObjL) : Value
deriving DecidableEq, Repr

inductive ValueL where
  | nil : ValueL
  | cons (hd : Value) (tl : ValueL) : ValueL
deriving DecidableEq, Repr

inductive ObjL where
  | nil : ObjL
  | cons (key : String) (hd : Value) (tl : ObjL) : ObjL
deriving DecidableEq, Repr
end

/-- Number of entries of an array literal. -/
def ValueL.length : ValueL → Nat
  | .nil => 0
  | .cons _ tl => tl.length + 1

/-- Number of entries of an object literal (`Object.keys(value).length`;
JS object keys are distinct, which `valueWF` below records). -/
def ObjL.length : ObjL → Nat
  | .nil => 0
  | .cons _ _ tl => tl.length + 1

/-- Key list of an object literal (`Object.keys`). -/
def ObjL.keyList : ObjL → List String
  | .nil => []
  | .cons k _ tl => k :: tl.keyList

/-! ## Tags (src/db/core/types.ts `BinaryType`) -/

namespace BinaryType
def NULL : Nat := 0x00
def UNDEFINED : Nat := 0x01
def TRUE : Nat := 0x02
def FALSE : Nat := 0x03
def INT8 : Nat := 0x10
def INT16 : Nat := 0x11
def INT32 : Nat := 0x12
def INT64 : Nat := 0x13
def UINT8 : Nat := 0x14
def UINT16 : Nat := 0x15
def UINT32 : Nat := 0x16
def UINT64 : Nat := 0x17
def FLOAT32 : Nat := 0x20
def FLOAT64 : Nat := 0x21
def STRING : Nat := 0x30
def BINARY : Nat := 0x31
def ARRAY : Nat := 0x40
def OBJECT : Nat := 0x50
def DATE : Nat := 0x60
def UUID : Nat := 0x70
end BinaryType

/-! ## Encoder (src/db/core/encoder.ts) -/

/-- `BinaryEncoder.encodeNumber`: integers take the first of INT8/INT16/INT32
whose range contains them, all larger integers are written as FLOAT64;
non-integer reals take FLOAT32 exactly when `Math.fround` preserves them,
else FLOAT64. -/
def encodeNumber : JsNumber → List Nat
  | .int i =>
    if -128 ≤ i ∧ i ≤ 127 then BinaryType.INT8 :: intToBytesBE 1 i
    else if -32768 ≤ i ∧ i ≤ 32767 then BinaryType.INT16 :: intToBytesBE 2 i
    else if -2147483648 ≤ i ∧ i ≤ 2147483647 then BinaryType.INT32 :: intToBytesBE 4 i
    else BinaryType.FLOAT64 :: natToBytesBE 8 (intToF64bits i)
  | .f32 b => BinaryType.FLOAT32 :: natToBytesBE 4 b
  | .f64 b => BinaryType.FLOAT64 :: natToBytesBE 8 b

/-- `BinaryEncoder.encodeBigInt`: nonnegative as UINT64, negative as INT64;
`setBigUint64` / `setBigInt64` wrap modulo `2^64` (`ToBigUint64`/`ToBigInt64`). -/
def encodeBigInt (i : Int) : List Nat :=
  if 0 ≤ i then BinaryType.UINT64 :: natToBytesBE 8 (i % (2 ^ 64 : Nat)).toNat
  else BinaryType.INT64 :: intToBytesBE 8 i

/-- `BinaryEncoder.encodeString`: STRING tag, varint byte length, UTF-8 bytes. -/
def encodeString (s : String) : Option (List Nat) := do
  let lb ← writeVarint (utf8Encode s).length
  pure (BinaryType.STRING :: (lb ++ utf8Encode s))

mutual
/-- `BinaryEncoder.encodeValue`; `none` models a thrown varint overflow. -/
def encodeValue : Value → Option (List Nat)
  | .vnull => some [BinaryType.NULL]
  | .vundef => some [BinaryType.UNDEFINED]
  | .vbool b => some [if b then BinaryType.TRUE else BinaryType.FALSE]
  | .vnum n => some (encodeNumber n)
  | .vbigint i => some (encodeBigInt i)
  | .vstr s => encodeString s
  | .vbin bs => do
    let lb ← writeVarint bs.length
    pure (BinaryType.BINARY :: (lb ++ bs))
  | .vdate ms => some (BinaryType.DATE :: intToBytesBE 8 ms)
  | .varr vs => do
    let lb ← writeVarint vs.length
    let body ← encodeValueL vs
    pure (BinaryType.ARRAY :: (lb ++ body))
  | .vobj fs => do
    let lb ← writeVarint fs.length
    let body ← encodeObjL fs
    pure (BinaryType.OBJECT :: (lb ++ body))

/-- The element loop of `encodeArray`. -/
def encodeValueL : ValueL → Option (List Nat)
  | .nil => some []
  | .cons v tl => do
    let hd ← encodeValue v
    let rest ← encodeValueL tl
    pure (hd ++ rest)

/-- The entry loop of `encodeObject`: `encodeString(key)` then the value. -/
def encodeObjL : ObjL → Option (List Nat)
  | .nil => some []
  | .cons k v tl => do
    let kb ← encodeString k
    let vb ← encodeValue v
    let rest ← encodeObjL tl
    pure (kb ++ vb ++ rest)
end

/-- `encode(value)`: run the encoder from scratch. -/
def encode (v : Value) : Option (List Nat) := encodeValue v

/-! ## Decoder (src/db/core/decoder.ts)

The decoder is given fuel that drops on every recursive entry; `decode`
supplies one unit per input byte plus one, which the round-trip proof shows
is always enough.  `none` models any thrown decode error (underflow,
unknown tag, invalid varint, non-string object key). -/

/-- `decodeString`: varint length, that many bytes, UTF-8 decode. -/
def decodeStringB : List Nat → Option (String × List Nat)
  | bs => do
    let (len, r) ← readVarint bs
    if len ≤ r.length then
      pure (utf8Decode (r.take len), r.drop len)
    else none

mutual
/-- `BinaryDecoder.decodeValue`. -/
def decodeValueF : Nat → List Nat → Option (Value × List Nat)
  | 0, _ => none
  | _ + 1, [] => none
  | f + 1, t :: rest =>
    if t = BinaryType.NULL then some (.vnull, rest)
    else if t = BinaryType.UNDEFINED then some (.vundef, rest)
    else if t = BinaryType.TRUE then some (.vbool true, rest)
    else if t = BinaryType.FALSE then some (.vbool false, rest)
    else if t = BinaryType.INT8 then
      match rest with
      | b :: r => some (.vnum (.int (twosToInt 1 (bytesToNatBE [b]))), r)
      | _ => none
    else if t = BinaryType.INT16 then
      if 2 ≤ rest.length then
        some (.vnum (.int (twosToInt 2 (bytesToNatBE (rest.take 2)))), rest.drop 2)
      else none
    else if t = BinaryType.INT32 then
      if 4 ≤ rest.length then
        some (.vnum (.int (twosToInt 4 (bytesToNatBE (rest.take 4)))), rest.drop 4)
      else none
    else if t = BinaryType.INT64 then
      if 8 ≤ rest.length then
        some (.vbigint (twosToInt 8 (bytesToNatBE (rest.take 8))), rest.drop 8)
      else none
    else if t = BinaryType.UINT8 then
      match rest with
      | b :: r => some (.vnum (.int (b % 256)), r)
      | _ => none
    else if t = BinaryType.UINT16 then
      if 2 ≤ rest.length then
        some (.vnum (.int (bytesToNatBE (rest.take 2))), rest.drop 2)
      else none
    else if t = BinaryType.UINT32 then
      if 4 ≤ rest.length then
        some (.vnum (.int (bytesToNatBE (rest.take 4))), rest.drop 4)
      else none
    else if t = BinaryType.UINT64 then
      if 8 ≤ rest.length then
        some (.vbigint (bytesToNatBE (rest.take 8)), rest.drop 8)
      else none
    else if t = BinaryType.FLOAT32 then
      if 4 ≤ rest.length then
        some (.vnum (classify32 (bytesToNatBE (rest.take 4))), rest.drop 4)
      else none
    else if t = BinaryType.FLOAT64 then
      if 8 ≤ rest.length then
        some (.vnum (classify64 (bytesToNatBE (rest.take 8))), rest.drop 8)
      else none
    else if t = BinaryType.STRING then do
      let (s, r) ← decodeStringB rest
      pure (.vstr s, r)
    else if t = BinaryType.BINARY then do
      let (len, r) ← readVarint rest
      if len ≤ r.length then pure (.vbin (r.take len), r.drop len) else none
    else if t = BinaryType.ARRAY then do
      let (len, r) ← readVarint rest
      let (vs, r2) ← decodeValueLF f len r
      pure (.varr vs, r2)
    else if t = BinaryType.OBJECT then do
      let (len, r) ← readVarint rest
      let (fs, r2) ← decodeObjLF f len r
      pure (.vobj fs, r2)
    else if t = BinaryType.DATE then
      -- `new Date(Number(readInt64()))`; exact on the JS Date range
      if 8 ≤ rest.length then
        some (.vdate (twosToInt 8 (bytesToNatBE (rest.take 8))), rest.drop 8)
      else none
    else if t = BinaryType.UUID then
      if 16 ≤ rest.length then some (.vbin (rest.take 16), rest.drop 16) else none
    else none

/-- The element loop of `decodeArray`. -/
def decodeValueLF : Nat → Nat → List Nat → Option (ValueL × List Nat)
  | _, 0, bs => some (.nil, bs)
  | 0, _ + 1, _ => none
  | f + 1, count + 1, bs => do
    let (v, r) ← decodeValueF f bs
    let (tl, r2) ← decodeValueLF f count r
    pure (.cons v tl, r2)

/-- The entry loop of `decodeObject`: the key tag must be STRING. -/
def decodeObjLF : Nat → Nat → List Nat → Option (ObjL × List Nat)
  | _, 0, bs => some (.nil, bs)
  | 0, _ + 1, _ => none
  | f + 1, count + 1, bs =>
    match bs with
    | [] => none
    | kt :: krest =>
      if kt = BinaryType.STRING then do
        let (k, r) ← decodeStringB krest
        let (v, r2) ← decodeValueF f r
        let (tl, r3) ← decodeObjLF f count r2
        pure (.cons k v tl, r3)
      else none
end

/-- `decode(buffer)`: decode one value from the front of the buffer. -/
def decode (bs : List Nat) : Option (Value × List Nat) :=
  decodeValueF (bs.length + 1) bs

/-! ## Well-formedness: which model values denote actual JS values

`valueWF` states the representation invariants of the embedding: `.int`
carries an integer a double can hold, `.f32`/`.f64` patterns classify to
themselves (i.e. really are non-integer, fround-exact / fround-inexact
doubles), bigints fit the 64-bit encodings (larger ones silently wrap —
see the C1 counterexample), binary blobs are bytes, dates are in the JS
`Date` range, and object keys are distinct (JS objects cannot repeat a
key). -/

mutual
def valueWF : Value → Bool
  | .vnull => true
  | .vundef => true
  | .vbool _ => true
  | .vnum (.int i) => f64RepInt i
  | .vnum (.f32 b) => decide (b < 2 ^ 32) && classify32 b == .f32 b
  | .vnum (.f64 b) => decide (b < 2 ^ 64) && classify64 b == .f64 b
  | .vbigint i => if 0 ≤ i then decide (i < 2 ^ 64) else decide (-(2 ^ 63) ≤ i)
  | .vstr _ => true
  | .vbin bs => bs.all (· < 256)
  | .vdate ms => decide (ms.natAbs ≤ 8640000000000000)
  | .varr vs => valueLWF vs
  | .vobj fs => objLWF fs && (fs.keyList.Nodup : Bool)

def valueLWF : ValueL → Bool
  | .nil => true
  | .cons v tl => valueWF v && valueLWF tl

def objLWF : ObjL → Bool
  | .nil => true
  | .cons _ v tl => valueWF v && objLWF tl
end

/-! ## B-tree index (src/db/core/index.ts)

`IndexNode<T>` has `keys`, `values` and `children: IndexNode<T>[] | null`;
`children === null` is the `leaf` constructor below.  Children are their own
inductive list so that every operation is structural.  The scan
`while i < keys.length … if compareUUID(key, keys[i]) <= 0 break` followed by
index accesses / `splice` at `i` is rendered as simultaneous structural
recursion over `keys`, `values` and `children`.  Catch-all branches mirror
the source's `undefined` guards (or its unreachable throws) and never fire
on well-formed trees. -/

/-- Keys are 16-byte UUIDs. -/
abbrev Key := List Nat

mutual
inductive BNode (T : Type) where
  | leaf (keys : List Key) (values : List T) : BNode T
  | internal (keys : List Key) (values : List T) (children : BNodes T) : BNode T
deriving DecidableEq

inductive BNodes (T : Type) where
  | nil : BNodes T
  | cons (hd : BNode T) (tl : BNodes T) : BNodes T
deriving DecidableEq
end

namespace BNodes

def length {T : Type} : BNodes T → Nat
  | .nil => 0
  | .cons _ tl => tl.length + 1

def take {T : Type} : Nat → BNodes T → BNodes T
  | 0, _ => .nil
  | _, .nil => .nil
  | n + 1, .cons c tl => .cons c (take n tl)

def drop {T : Type} : Nat → BNodes T → BNodes T
  | 0, cs => cs
  | _, .nil => .nil
  | n + 1, .cons _ tl => drop n tl

def toList {T : Type} : BNodes T → List (BNode T)
  | .nil => []
  | .cons c tl => c :: toList tl

end BNodes

/-- The leaf part of `searchNode`: first index `i` with `key ≤ keys[i]`;
equal → `values[i]`, otherwise (`children === null`) not found. -/
def searchLeafGo {T : Type} (k : Key) : List Key → List T → Option T
  | k0 :: ks, v0 :: vs =>
    if compareUUID k k0 ≤ 0 then
      (if compareUUID k k0 = 0 then some v0 else none)
    else searchLeafGo k ks vs
  | _, _ => none

mutual
/-- `BTreeIndex.searchNode`. -/
def searchNode {T : Type} (k : Key) : BNode T → Option T
  | .leaf ks vs => searchLeafGo k ks vs
  | .internal ks vs cs => searchIntGo k ks vs cs

/-- The internal-node part of `searchNode`: stop at the scan index, report an
equal key's value, otherwise descend into `children[i]`. -/
def searchIntGo {T : Type} (k : Key) : List Key → List T → BNodes T → Option T
  | k0 :: ks, v0 :: vs, .cons c0 cs =>
    if compareUUID k k0 ≤ 0 then
      (if compareUUID k k0 = 0 then some v0 else searchNode k c0)
    else searchIntGo k ks vs cs
  | [], _, .cons c0 _ => searchNode k c0
  | _, _, _ => none

end

/-- The leaf part of `insertNode`: splice `(k, v)` in at the scan index, or
overwrite the value at an equal key (third component: "replaced"). -/
def insertLeafGo {T : Type} (k : Key) (v : T) :
    List Key → List T → List Key × List T × Bool
  | k0 :: ks, v0 :: vs =>
    if compareUUID k k0 ≤ 0 then
      if compareUUID k k0 = 0 then (k0 :: ks, v :: vs, true)
      else (k :: k0 :: ks, v :: v0 :: vs, false)
    else
      match insertLeafGo k v ks vs with
      | (ks', vs', rep) => (k0 :: ks', v0 :: vs', rep)
  | [], _ => ([k], [v], false)
  | ks, [] => (ks, [], false)   -- length mismatch: unreachable on well-formed trees

/-- `BTreeIndex.splitLeaf`: left keeps `keys[0..mid)`, right takes
`keys[mid..)`, and the first key/value of the right half is promoted
(remaining in the right half — the source copies, not moves).  `none` models
the "Split produced empty node" throw, unreachable for order ≥ 2. -/
def splitLeaf {T : Type} (ks : List Key) (vs : List T) :
    Option (BNode T × Key × T × BNode T) :=
  let mid := ks.length / 2
  match ks.drop mid, vs.drop mid with
  | pk :: _, pv :: _ =>
    some (.leaf (ks.take mid) (vs.take mid), pk, pv, .leaf (ks.drop mid) (vs.drop mid))
  | _, _ => none

/-- `BTreeIndex.splitInternal`: the middle key/value is promoted and removed
(`splice(mid+1)` then `pop`), the right sibling takes keys, values and
children strictly after the middle. -/
def splitInternal {T : Type} (ks : List Key) (vs : List T) (cs : BNodes T) :
    Option (BNode T × Key × T × BNode T) :=
  let mid := ks.length / 2
  match ks.get? mid, vs.get? mid with
  | some pk, some pv =>
    some (.internal (ks.take mid) (vs.take mid) (cs.take (mid + 1)), pk, pv,
          .internal (ks.drop (mid + 1)) (vs.drop (mid + 1)) (cs.drop (mid + 1)))
  | _, _ => none

mutual
/-- `BTreeIndex.insertNode`: returns the updated node, the promoted
`(key, value, right)` if the node split, and whether an existing key's value
was overwritten (the source's `this.size--`). -/
def insertNode {T : Type} (order : Nat) (k : Key) (v : T) :
    BNode T → BNode T × Option (Key × T × BNode T) × Bool
  | .leaf ks vs =>
    match insertLeafGo k v ks vs with
    | (ks', vs', rep) =>
      if order ≤ ks'.length then
        match splitLeaf ks' vs' with
        | some (left, pk, pv, right) => (left, some (pk, pv, right), rep)
        | none => (.leaf ks' vs', none, rep)
      else (.leaf ks' vs', none, rep)
  | .internal ks vs cs =>
    match insertIntGo order k v ks vs cs with
    | (ks', vs', cs', rep) =>
      if order ≤ ks'.length then
        match splitInternal ks' vs' cs' with
        | some (left, pk, pv, right) => (left, some (pk, pv, right), rep)
        | none => (.internal ks' vs' cs', none, rep)
      else (.internal ks' vs' cs', none, rep)

/-- The internal-node scan of `insertNode`: overwrite at an equal key,
otherwise recurse into `children[i]` and splice a returned promotion in at
`i` (keys/values) and `i+1` (children). -/
def insertIntGo {T : Type} (order : Nat) (k : Key) (v : T) :
    List Key → List T → BNodes T → List Key × List T × BNodes T × Bool
  | k0 :: ks, v0 :: vs, .cons c0 cs =>
    if compareUUID k k0 ≤ 0 then
      if compareUUID k k0 = 0 then (k0 :: ks, v :: vs, .cons c0 cs, true)
      else
        match insertNode order k v c0 with
        | (c0', none, rep) => (k0 :: ks, v0 :: vs, .cons c0' cs, rep)
        | (c0', some (pk, pv, r), rep) =>
          (pk :: k0 :: ks, pv :: v0 :: vs, .cons c0' (.cons r cs), rep)
    else
      match insertIntGo order k v ks vs cs with
      | (ks', vs', cs', rep) => (k0 :: ks', v0 :: vs', .cons c0 cs', rep)
  | [], vs, .cons c0 cs =>
    (match insertNode order k v c0 with
     | (c0', none, rep) => ([], vs, .cons c0' cs, rep)
     | (c0', some (pk, pv, r), rep) => ([pk], [pv], .cons c0' (.cons r cs), rep))
  | ks, vs, .nil => (ks, vs, .nil, false)      -- `children[i] === undefined`: return null
  | ks, vs, cs => (ks, vs, cs, false)          -- length mismatch: unreachable

end

mutual
/-- `BTreeIndex.findMax`: rightmost entry of the subtree; `none` models the
"Empty node in findMax" / "Empty children array" throws. -/
def findMax {T : Type} : BNode T → Option (Key × T)
  | .leaf ks vs =>
    match ks.getLast?, vs.getLast? with
    | some k, some v => some (k, v)
    | _, _ => none
  | .internal _ _ cs => findMaxL cs

/-- Last child of a children list, then its maximum. -/
def findMaxL {T : Type} : BNodes T → Option (Key × T)
  | .nil => none
  | .cons c .nil => findMax c
  | .cons _ (.cons c cs) => findMaxL (.cons c cs)

end

/-- The leaf part of `deleteNode`: remove the scanned equal key, report
whether one was found. -/
def deleteLeafGo {T : Type} (k : Key) : List Key → List T → List Key × List T × Bool
  | k0 :: ks, v0 :: vs =>
    if compareUUID k k0 ≤ 0 then
      if compareUUID k k0 = 0 then (ks, vs, true)
      else (k0 :: ks, v0 :: vs, false)
    else
      match deleteLeafGo k ks vs with
      | (ks', vs', found) => (k0 :: ks', v0 :: vs', found)
  | ks, vs => (ks, vs, false)

mutual
/-- `BTreeIndex.deleteNode`: in a leaf, splice the key out; at an equal key
of an internal node, overwrite the slot with the in-order predecessor from
`children[i]` and delete that predecessor there; otherwise recurse. -/
def deleteNode {T : Type} (k : Key) : BNode T → BNode T × Bool
  | .leaf ks vs =>
    match deleteLeafGo k ks vs with
    | (ks', vs', found) => (.leaf ks' vs', found)
  | .internal ks vs cs =>
    match deleteIntGo k ks vs cs with
    | (ks', vs', cs', found) => (.internal ks' vs' cs', found)

/-- The internal-node scan of `deleteNode`. -/
def deleteIntGo {T : Type} (k : Key) :
    List Key → List T → BNodes T → List Key × List T × BNodes T × Bool
  | k0 :: ks, v0 :: vs, .cons c0 cs =>
    if compareUUID k k0 ≤ 0 then
      if compareUUID k k0 = 0 then
        match findMax c0 with
        | some (pk, pv) =>
          match deleteNode pk c0 with
          | (c0', found) => (pk :: ks, pv :: vs, .cons c0' cs, found)
        | none => (k0 :: ks, v0 :: vs, .cons c0 cs, false)  -- findMax throw: unreachable
      else
        match deleteNode k c0 with
        | (c0', found) => (k0 :: ks, v0 :: vs, .cons c0' cs, found)
    else
      match deleteIntGo k ks vs cs with
      | (ks', vs', cs', found) => (k0 :: ks', v0 :: vs', .cons c0 cs', found)
  | [], vs, .cons c0 cs =>
    (match deleteNode k c0 with
     | (c0', found) => ([], vs, .cons c0' cs, found))
  | ks, vs, .nil => (ks, vs, .nil, false)      -- `children[i] === undefined`: return false
  | ks, vs, cs => (ks, vs, cs, false)          -- length mismatch: unreachable

end

mutual
/-- `BTreeIndex.iterateNode` (the `entries()` generator): for each key
position, first the child at that index, then the key/value pair; finally
the trailing child. -/
def flattenNode {T : Type} : BNode T → List (Key × T)
  | .leaf ks vs => ks.zip vs
  | .internal ks vs cs => flattenGo ks vs cs

/-- The interleaving loop of `iterateNode`. -/
def flattenGo {T : Type} : List Key → List T → BNodes T → List (Key × T)
  | k0 :: ks, v0 :: vs, .cons c0 cs => flattenNode c0 ++ (k0, v0) :: flattenGo ks vs cs
  | [], _, .cons c0 _ => flattenNode c0
  | _, _, _ => []

end

/-- Default order of `BTreeIndex`. -/
def DEFAULT_ORDER : Nat := 64

/-- The `BTreeIndex` object: root node, order, and the `size` counter.
The counter is an `Int`: nothing in the source keeps it nonnegative. -/
structure BTree (T : Type) where
  root : BNode T
  order : Nat
  counter : Int

namespace BTree

/-- The constructor: an empty leaf root. -/
def empty {T : Type} (order : Nat := DEFAULT_ORDER) : BTree T :=
  ⟨.leaf [] [], order, 0⟩

/-- `BTreeIndex.get`. -/
def get {T : Type} (t : BTree T) (k : Key) : Option T :=
  searchNode k t.root

/-- `BTreeIndex.set`: insert or overwrite; a promotion from the root grows a
new root; `size` gains one, minus one if an existing key was overwritten. -/
def set {T : Type} (t : BTree T) (k : Key) (v : T) : BTree T :=
  match insertNode t.order k v t.root with
  | (root', none, rep) =>
    ⟨root', t.order, t.counter + 1 - (if rep then 1 else 0)⟩
  | (root', some (pk, pv, r), rep) =>
    ⟨.internal [pk] [pv] (.cons root' (.cons r .nil)), t.order,
      t.counter + 1 - (if rep then 1 else 0)⟩

/-- `BTreeIndex.delete`: delete, collapse an emptied root onto its first
child, decrement `size` when something was found. -/
def delete {T : Type} (t : BTree T) (k : Key) : BTree T × Bool :=
  match deleteNode k t.root with
  | (root', found) =>
    let root2 :=
      if found then
        match root' with
        | .internal [] _ (.cons c0 _) => c0
        | r => r
      else root'
    (⟨root2, t.order, t.counter - (if found then 1 else 0)⟩, found)

/-- `BTreeIndex.entries`. -/
def entries {T : Type} (t : BTree T) : List (Key × T) :=
  flattenNode t.root

/-- `BTreeIndex.getSize`. -/
def getSize {T : Type} (t : BTree T) : Int := t.counter

end BTree

/-! ## Search-tree invariants and reference model

Executable well-formedness of a node: keys are 16 in-range bytes, strictly
sorted within a node, all inside the half-open window `[lo, hi)` (a key
promoted by a leaf split is *copied* into the parent, so it also remains as
the first key of the right subtree — hence the left-closed window), node
key counts stay below the order, and an internal node has exactly one more
child than keys, each child bounded by the neighbouring keys. -/

/-- Valid 16-byte key. -/
def keyBytesOK (k : Key) : Bool := k.length = 16 && k.all (· < 256)

/-- Lower bound check: `lo ≤ k` (`none` is `-∞`). -/
def keyLE (lo : Option Key) (k : Key) : Bool :=
  match lo with
  | none => true
  | some l => compareUUID l k ≤ 0

/-- Upper bound check: `k < hi` (`none` is `+∞`). -/
def keyLT (k : Key) (hi : Option Key) : Bool :=
  match hi with
  | none => true
  | some h => compareUUID k h < 0

/-- Strictly ascending key list. -/
def sortedStrictB : List Key → Bool
  | [] => true
  | [_] => true
  | a :: b :: tl => compareUUID a b < 0 && sortedStrictB (b :: tl)

/-- Key side conditions within a window. -/
def keysOK (lo hi : Option Key) (ks : List Key) : Bool :=
  sortedStrictB ks && ks.all fun k => keyBytesOK k && keyLE lo k && keyLT k hi

mutual
/-- Well-formedness of a subtree within the window `[lo, hi)`. -/
def nodeWFB {T : Type} (order : Nat) : Option Key → Option Key → BNode T → Bool
  | lo, hi, .leaf ks vs =>
    decide (ks.length = vs.length) && decide (ks.length + 1 ≤ order) && keysOK lo hi ks
  | lo, hi, .internal ks vs cs =>
    decide (ks.length = vs.length) && decide (ks.length + 1 ≤ order) &&
      keysOK lo hi ks && childrenWFB order lo ks cs hi

/-- Children between consecutive separators: `children[i]` lives in
`[keys[i-1], keys[i])`. -/
def childrenWFB {T : Type} (order : Nat) :
    Option Key → List Key → BNodes T → Option Key → Bool
  | lo, [], .cons c .nil, hi => nodeWFB order lo hi c
  | lo, k0 :: ks, .cons c cs, hi =>
    nodeWFB order lo (some k0) c && childrenWFB order (some k0) ks cs hi
  | _, _, _, _ => false
end

/-- Association lookup by key equality on an entry list. -/
def alookup {T : Type} (g : List (Key × T)) (k : Key) : Option T :=
  (g.find? fun e => decide (e.1 = k)).map (·.2)

/-! ## Reference model for B-tree operation sequences (no-split regime)

A strictly sorted association list with ordered insert / update / remove,
used to state what the tree computes while it remains a single leaf. -/

/-- Ordered insert-or-update by `compareUUID`. -/
def specSet {T : Type} (k : Key) (v : T) : List (Key × T) → List (Key × T)
  | [] => [(k, v)]
  | (k0, v0) :: tl =>
    if compareUUID k k0 ≤ 0 then
      if compareUUID k k0 = 0 then (k0, v) :: tl
      else (k, v) :: (k0, v0) :: tl
    else (k0, v0) :: specSet k v tl

/-- Ordered remove by `compareUUID` (on a sorted list the scan may stop at
the first key not below `k`, like the node scan does). -/
def specDel {T : Type} (k : Key) : List (Key × T) → List (Key × T)
  | [] => []
  | (k0, v0) :: tl =>
    if compareUUID k k0 ≤ 0 then
      if compareUUID k k0 = 0 then tl else (k0, v0) :: tl
    else (k0, v0) :: specDel k tl

/-- Ordered lookup by `compareUUID` (stopping at the first key not below
`k`, which on a sorted list is the association lookup). -/
def specGet {T : Type} (k : Key) : List (Key × T) → Option T
  | [] => none
  | (k0, v0) :: tl =>
    if compareUUID k k0 ≤ 0 then
      if compareUUID k k0 = 0 then some v0 else none
    else specGet k tl

/-- One `BTreeIndex` call. -/
inductive TreeOp (T : Type) where
  | set (k : Key) (v : T)
  | del (k : Key)

/-- Run a call sequence against the tree. -/
def runOps {T : Type} (t : BTree T) : List (TreeOp T) → BTree T
  | [] => t
  | .set k v :: rest => runOps (t.set k v) rest
  | .del k :: rest => runOps (t.delete k).1 rest

/-- Run a call sequence against the reference association list. -/
def specRun {T : Type} (g : List (Key × T)) : List (TreeOp T) → List (Key × T)
  | [] => g
  | .set k v :: rest => specRun (specSet k v g) rest
  | .del k :: rest => specRun (specDel k g) rest

/-- Does the whole sequence stay below the split threshold (fewer than
`order` live keys after every step)? -/
def belowOrder {T : Type} (order : Nat) (g : List (Key × T)) : List (TreeOp T) → Bool
  | [] => true
  | .set k v :: rest =>
    decide ((specSet k v g).length + 1 ≤ order) && belowOrder order (specSet k v g) rest
  | .del k :: rest => belowOrder order (specDel k g) rest

/-! ## Record storage (src/db/core/storage.ts)

The file at `this.path` is a byte list; `Bun.file` slices are list slices.
`generateUUID` draws fresh randomness, modelled by explicit id parameters /
id supplies.  Failure (`throw`) is `none` / `Except.error`. -/

/-- `RecordLocation` (src/db/core/index.ts). -/
structure RecordLocation where
  offset : Nat
  size : Nat
  checksum : Nat
deriving DecidableEq, Repr

/-- The in-memory state of a `Storage` plus the bytes of its file. -/
structure StorageState where
  file : List Nat
  tree : BTree RecordLocation
  hIndexOffset : Nat
  hDataOffset : Nat
  hRecordCount : Int
  dataOffset : Nat

def HEADER_SIZE : Nat := 32

/-- The UTF-8 bytes of the magic "DOWE". -/
def MAGIC : List Nat := [0x44, 0x4f, 0x57, 0x45]

/-- Pad (or cut) a byte list to exactly `n` bytes; mirrors copying the first
`n` bytes of the old file into a zero-initialised `Uint8Array`. -/
def padTo (l : List Nat) (n : Nat) : List Nat :=
  l.take n ++ List.replicate (n - l.length) 0

/-- `serializeHeader`: magic, versions 1.0, flags 0, index offset, data
offset, record count, all big-endian (the count is a bigint stored with
`setBigUint64`, hence the wrap). -/
def serializeHeader (indexOffset dataOffset : Nat) (recordCount : Int) : List Nat :=
  MAGIC ++ [1, 0] ++ natToBytesBE 2 0 ++ natToBytesBE 8 indexOffset ++
    natToBytesBE 8 dataOffset ++ natToBytesBE 8 ((recordCount % ((2 : Int) ^ 64)).toNat)

/-- The state of a freshly constructed `Storage` (before `open`). -/
def initialStorage : StorageState :=
  { file := []
    tree := BTree.empty DEFAULT_ORDER
    hIndexOffset := 0
    hDataOffset := HEADER_SIZE
    hRecordCount := 0
    dataOffset := HEADER_SIZE }

/-- `createDatabase`: write a fresh header to the file. -/
def createDatabase (s : StorageState) : StorageState :=
  { s with file := serializeHeader s.hIndexOffset s.hDataOffset s.hRecordCount,
           dataOffset := HEADER_SIZE }

/-- The `while (decoder.hasMore())` loop of `loadIndex`: 32-byte entries of
16-byte id, 8-byte offset, 4-byte size, 4-byte CRC-32.  `none` is the
underflow throw on a trailing fragment.  The fuel drops once per entry, so
the byte length is ample. -/
def parseIndexEntriesF : Nat → List Nat → Option (List (Key × RecordLocation))
  | _, [] => some []
  | 0, _ :: _ => none
  | f + 1, bs =>
    if 32 ≤ bs.length then do
      let id := bs.take 16
      let offset := bytesToNatBE ((bs.drop 16).take 8)
      let size := bytesToNatBE ((bs.drop 24).take 4)
      let checksum := bytesToNatBE ((bs.drop 28).take 4)
      let rest ← parseIndexEntriesF f (bs.drop 32)
      pure ((id, ⟨offset, size, checksum⟩) :: rest)
    else none   -- readBytes underflow throw

/-- All trailing index entries of an index block. -/
def parseIndexEntries (bs : List Nat) : Option (List (Key × RecordLocation)) :=
  parseIndexEntriesF bs.length bs

/-- `loadIndex` + `loadDatabase`: verify the magic, read the header fields,
and when `indexOffset > 0` read the trailing entries into the *existing*
index (`setRecord` on the current `IndexManager`, which `compact` never
cleared).  `none` is the "Invalid database file" / underflow throw. -/
def loadDatabase (s : StorageState) : Option StorageState := do
  if s.file.take 4 = MAGIC then
    let indexOffset := bytesToNatBE ((s.file.drop 8).take 8)
    let dataOffset := bytesToNatBE ((s.file.drop 16).take 8)
    let recordCount := bytesToNatBE ((s.file.drop 24).take 8)
    let tree ←
      if 0 < indexOffset then do
        let entries ← parseIndexEntries (s.file.drop indexOffset)
        pure (entries.foldl (fun t e => t.set e.1 e.2) s.tree)
      else pure s.tree
    pure { s with tree := tree
                  hIndexOffset := indexOffset
                  hDataOffset := dataOffset
                  hRecordCount := (recordCount : Int)
                  dataOffset := dataOffset }
  else none

/-- `Storage.open`: load an existing file, else (`create` allowed) create it. -/
def openStorage (s : StorageState) (fileExists : Bool) (create : Bool) :
    Option StorageState :=
  if fileExists then loadDatabase s
  else if create then some (createDatabase s)
  else none

/-- `Storage.write`: encode, checksum, append `[id ∥ size ∥ payload]` at
`dataOffset` into a buffer of exactly that length (truncating anything
after `dataOffset`, e.g. a previously flushed index block), insert the
location, advance `dataOffset`, bump the record count.  The 16 id bytes
come from `generateUUID`, passed in here.  Returns the new state with the
record's offset and size; `none` is an encoder throw. -/
def writeRecord (s : StorageState) (id : Key) (data : Value) :
    Option (StorageState × Nat × Nat) := do
  let encoded ← encodeValue data
  let checksum := crc32 encoded
  let offset := s.dataOffset
  let size := encoded.length
  let recordBuffer := id ++ natToBytesBE 4 size ++ encoded
  let newContent := padTo s.file offset ++ recordBuffer
  pure
    ({ file := newContent
       tree := s.tree.set id ⟨offset, size, checksum⟩
       hIndexOffset := s.hIndexOffset
       hDataOffset := offset + recordBuffer.length
       hRecordCount := s.hRecordCount + 1
       dataOffset := offset + recordBuffer.length },
     offset, size)

/-- Read errors surfaced by `Storage.read`. -/
inductive ReadError where
  | corruption   -- "Checksum mismatch - data corruption detected"
  | malformed    -- a decoder throw
deriving DecidableEq, Repr

/-- `Storage.read(id)`: `null` when the id is not indexed; otherwise slice
`size` bytes from `offset + 20`, recompute the CRC-32, fail `corruption` on
mismatch, else decode. -/
def readRecord (s : StorageState) (idStr : String) : Except ReadError (Option Value) :=
  let idBytes := stringToUUID idStr
  match s.tree.get idBytes with
  | none => .ok none
  | some loc =>
    let recordStart := loc.offset + UUID_SIZE + 4
    let recordBuffer := (s.file.drop recordStart).take loc.size
    if crc32 recordBuffer ≠ loc.checksum then .error .corruption
    else
      match decode recordBuffer with
      | some (v, _) => .ok (some v)
      | none => .error .malformed

/-- `Storage.delete(id)`: drop from the index, decrement the count if found. -/
def deleteRecord (s : StorageState) (idStr : String) : StorageState × Bool :=
  match s.tree.delete (stringToUUID idStr) with
  | (tree', found) =>
    ({ s with tree := tree',
              hRecordCount := s.hRecordCount - (if found then 1 else 0) }, found)

/-- One flushed index entry: 16-byte id, 8-byte offset, 4-byte size, 4-byte
CRC-32, no framing. -/
def indexEntryBytes (e : Key × RecordLocation) : List Nat :=
  padTo e.1 16 ++ natToBytesBE 8 e.2.offset ++ natToBytesBE 4 e.2.size ++
    natToBytesBE 4 e.2.checksum

/-- `persistIndex`: set `header.indexOffset := dataOffset` and write the
concatenated entries there (truncating beyond). -/
def persistIndex (s : StorageState) : StorageState :=
  let indexBuffer := (s.tree.entries.map indexEntryBytes).flatten
  { s with hIndexOffset := s.dataOffset
           file := padTo s.file s.dataOffset ++ indexBuffer }

/-- `persistHeader`: rewrite bytes `[0, 32)`. -/
def persistHeader (s : StorageState) : StorageState :=
  { s with file :=
      serializeHeader s.hIndexOffset s.hDataOffset s.hRecordCount ++ s.file.drop HEADER_SIZE }

/-- `Storage.flush`. -/
def flushStorage (s : StorageState) : StorageState :=
  persistHeader (persistIndex s)

/-- `Storage.close`: flush, then clear the in-memory index. -/
def closeStorage (s : StorageState) : StorageState :=
  let s1 := flushStorage s
  { s1 with tree := ⟨.leaf [] [], s1.tree.order, 0⟩ }

/-- The record-copy loop of `compact`: slice each live payload from the old
file, decode it, and write it to the fresh storage under a fresh id. -/
def compactCopy (oldFile : List Nat) : List (Key × RecordLocation) → List Key →
    StorageState → Option StorageState
  | [], _, acc => some acc
  | (_, loc) :: rest, ids, acc => do
    let recordStart := loc.offset + UUID_SIZE + 4
    let recordBuffer := (oldFile.drop recordStart).take loc.size
    let (v, _) ← decode recordBuffer
    match ids with
    | [] => none   -- ran out of modelled randomness; never with enough ids
    | id :: ids' => do
      let (acc', _, _) ← writeRecord acc id v
      compactCopy oldFile rest ids' acc'

/-- `Storage.compact`: build a fresh `.tmp` storage, re-write every indexed
payload under a newly generated id, flush and close it, rename it over the
original, and re-`open` — which runs `loadDatabase` on top of the *current*
in-memory index, without clearing it. -/
def compactStorage (s : StorageState) (freshIds : List Key) : Option StorageState := do
  let entries := s.tree.entries
  let tmp := createDatabase initialStorage
  let tmp1 ← compactCopy s.file entries freshIds tmp
  let tmp2 := closeStorage tmp1
  -- fs.rename(tempPath, this.path): the original path now holds tmp2's bytes
  let renamed := { s with file := tmp2.file }
  openStorage renamed true true

/-- A sequence of `Storage.write` calls; each element supplies the id drawn
by `generateUUID` inside `write` together with the payload. -/
def writeSeq : StorageState → List (Key × Value) → Option StorageState
  | s, [] => some s
  | s, (id, v) :: rest => do
    let (s', _, _) ← writeRecord s id v
    writeSeq s' rest

/-- Close the storage and re-open the same file with a fresh `Storage`
object (what a process restart does). -/
def reopened (s : StorageState) : Option StorageState :=
  openStorage { initialStorage with file := (closeStorage s).file } true false

/-- Executable well-formedness of a storage state: a well-formed index tree
of order at least 2 whose data region starts past the header. -/
def storageWFB (s : StorageState) : Bool :=
  2 ≤ s.tree.order && nodeWFB s.tree.order none none s.tree.root &&
    HEADER_SIZE ≤ s.dataOffset

/-! ## Domain collection (src/loaders/domainLoader.ts)

In-memory maps are JS `Map`s: `set` overwrites in place or appends,
`delete` removes, iteration is in insertion order. -/

/-- `Map.set`. -/
def mapSet {α : Type} : List (String × α) → String → α → List (String × α)
  | [], k, v => [(k, v)]
  | (k0, v0) :: tl, k, v =>
    if k0 = k then (k0, v) :: tl else (k0, v0) :: mapSet tl k v

/-- `Map.get`. -/
def mapGet {α : Type} : List (String × α) → String → Option α
  | [], _ => none
  | (k0, v0) :: tl, k => if k0 = k then some v0 else mapGet tl k

/-- `Map.delete`. -/
def mapDel {α : Type} : List (String × α) → String → List (String × α)
  | [], _ => []
  | (k0, v0) :: tl, k => if k0 = k then tl else (k0, v0) :: mapDel tl k

/-- A `Domain` record (src/types.ts). -/
structure Domain where
  id : String
  hostname : String
  projectId : String
  sslEnabled : Bool
  createdAt : Int
  updatedAt : Int
deriving DecidableEq, Repr

/-- The object literal persisted by `createDomain` / `updateDomain`, fields
in source order. -/
def Domain.toValue (d : Domain) : Value :=
  .vobj (.cons "id" (.vstr d.id)
    (.cons "hostname" (.vstr d.hostname)
      (.cons "projectId" (.vstr d.projectId)
        (.cons "sslEnabled" (.vbool d.sslEnabled)
          (.cons "createdAt" (.vnum (.int d.createdAt))
            (.cons "updatedAt" (.vnum (.int d.updatedAt)) .nil))))))

/-- Field access on a decoded object. -/
def objField : ObjL → String → Option Value
  | .nil, _ => none
  | .cons k v tl, name => if k = name then some v else objField tl name

/-- Reading a stored record back as a `Domain` (`as Domain` in the source:
the loader trusts the shape; `none` marks a shape that would break it). -/
def Domain.ofValue : Value → Option Domain
  | .vobj fs => do
    let .vstr id ← objField fs "id" | none
    let .vstr hostname ← objField fs "hostname" | none
    let .vstr projectId ← objField fs "projectId" | none
    let .vbool ssl ← objField fs "sslEnabled" | none
    let .vnum (.int c) ← objField fs "createdAt" | none
    let .vnum (.int u) ← objField fs "updatedAt" | none
    pure ⟨id, hostname, projectId, ssl, c, u⟩
  | _ => none

/-- The module state of domainLoader: the storage plus the two maps. -/
structure DomainStore where
  storage : StorageState
  domains : List (String × Domain)
  byHostname : List (String × Domain)

/-- The read loop of `loadAllDomains`: iterate the primary index, read each
record, and populate both maps keyed on the *record's* `id` and `hostname`
fields. -/
def loadDomainsGo : List (Key × RecordLocation) → DomainStore → Option DomainStore
  | [], st => some st
  | (idBytes, _) :: rest, st =>
    match readRecord st.storage (uuidToString idBytes) with
    | .error _ => none                       -- a read throw propagates out of init
    | .ok none => loadDomainsGo rest st      -- `if (domain)` skips nulls
    | .ok (some v) =>
      match Domain.ofValue v with
      | none => none                         -- shape the loader cannot use
      | some d =>
        loadDomainsGo rest
          { st with domains := mapSet st.domains d.id d,
                    byHostname := mapSet st.byHostname d.hostname d }

/-- `initDomainStorage`: open (or create) the db file, then load every
indexed record into the maps. -/
def initDomainStorage (file : Option (List Nat)) : Option DomainStore := do
  let base := { initialStorage with file := file.getD [] }
  let storage ← openStorage base file.isSome true
  loadDomainsGo storage.tree.entries ⟨storage, [], []⟩

/-- `createDomain`: refuse duplicate hostnames, persist the new record
(`storage.write` mints its own 16-byte storage id — the returned handle is
discarded), flush, then update both maps.  `domainId` models
`uuidToString(generateUUID())`, `storageId` the id drawn inside
`Storage.write`. -/
def createDomain (st : DomainStore) (hostname projectId : String)
    (domainId : String) (storageId : Key) (now : Int) : Option DomainStore :=
  if (mapGet st.byHostname hostname).isSome then none   -- "Domain already exists"
  else do
    let d : Domain :=
      { id := domainId, hostname := hostname, projectId := projectId,
        sslEnabled := false, createdAt := now, updatedAt := now }
    let (storage1, _, _) ← writeRecord st.storage storageId d.toValue
    let storage2 := flushStorage storage1
    pure { storage := storage2,
           domains := mapSet st.domains d.id d,
           byHostname := mapSet st.byHostname d.hostname d }

/-- `deleteDomain`: look the external id up in the map; call
`storage.delete(id)` — with the *domain-record id string*, though storage
records are keyed by the ids minted inside `Storage.write` — flush, and
remove from both maps. -/
def deleteDomain (st : DomainStore) (id : String) : DomainStore × Bool :=
  match mapGet st.domains id with
  | none => (st, false)
  | some existing =>
    let (storage1, _) := deleteRecord st.storage id
    let storage2 := flushStorage storage1
    ({ storage := storage2,
       domains := mapDel st.domains id,
       byHostname := mapDel st.byHostname existing.hostname }, true)

/-- The update input of `updateDomain` (all fields optional). -/
structure DomainUpdate where
  hostname : Option String := none
  projectId : Option String := none
  sslEnabled : Option Bool := none

/-- `updateDomain`: spread the input over the existing record, bump
`updatedAt`, `storage.delete(id)` (same external-id mismatch as above),
write the updated record under a fresh storage id, flush, update maps. -/
def updateDomain (st : DomainStore) (id : String) (input : DomainUpdate)
    (newStorageId : Key) (now : Int) : Option (DomainStore × Domain) :=
  match mapGet st.domains id with
  | none => none                              -- "Domain not found" throw
  | some existing =>
    let hostChanged := input.hostname.isSome ∧ input.hostname ≠ some existing.hostname
    if hostChanged ∧ (input.hostname.bind (mapGet st.byHostname)).isSome then none
    else do
      let updated : Domain :=
        { id := existing.id,
          hostname := input.hostname.getD existing.hostname,
          projectId := input.projectId.getD existing.projectId,
          sslEnabled := input.sslEnabled.getD existing.sslEnabled,
          createdAt := existing.createdAt,
          updatedAt := now }
      let byHost1 := if hostChanged then mapDel st.byHostname existing.hostname
                     else st.byHostname
      let (storage1, _) := deleteRecord st.storage id
      let (storage2, _, _) ← writeRecord storage1 newStorageId updated.toValue
      let storage3 := flushStorage storage2
      pure ({ storage := storage3,
              domains := mapSet st.domains updated.id updated,
              byHostname := mapSet byHost1 updated.hostname updated }, updated)

/-! ## Request forwarding (the proxy router, src/renderers)

Inbound requests carry the URL scheme, the URL host (with port), and
headers, whose names are case-insensitive; keys are lowercased here.  The
runtime also knows the TCP peer of the connection; the source never reads
it, which `forwardedForHeader` keeps explicit. -/

structure ProxyRequest where
  scheme : String                       -- `new URL(request.url).protocol` minus ":"
  host : String                         -- `new URL(request.url).host`
  headers : List (String × String)
deriving DecidableEq, Repr

/-- `Headers.get` (keys stored lowercase). -/
def headersGet (hs : List (String × String)) (name : String) : Option String :=
  mapGet hs name

/-- Characters before the first comma: `ff.split(",")[0]`. -/
def beforeComma : List Char → List Char
  | [] => []
  | c :: tl => if c = ',' then [] else c :: beforeComma tl

/-- An ASCII whitespace character (`String.prototype.trim` also strips
further Unicode space; the inputs here are IP lists). -/
def isWSp (c : Char) : Bool :=
  c = ' ' || c = '\t' || c = '\n' || c = '\r' || c = '\x0b' || c = '\x0c'

/-- `.trim()`: strip whitespace from both ends. -/
def jsTrim (s : String) : String :=
  String.mk (((s.data.dropWhile isWSp).reverse.dropWhile isWSp).reverse)

/-- `getClientIP`: the leftmost entry of a non-empty inbound
`x-forwarded-for`, trimmed; otherwise the literal "unknown".  (An absent
header is `null`, an empty one falsy: both take the fallback.) -/
def getClientIP (req : ProxyRequest) : String :=
  match headersGet req.headers "x-forwarded-for" with
  | some ff => if ff ≠ "" then jsTrim (String.mk (beforeComma ff.data)) else "unknown"
  | none => "unknown"

/-- The `X-Forwarded-For` value the router forwards.  `peerAddr` is the
socket peer the runtime would expose; the source computes the client IP
from headers alone, so it is unused. -/
def forwardedForHeader (req : ProxyRequest) (_peerAddr : Option String) : String :=
  getClientIP req

/-- The header rewriting of `forwardToUnixSocket`: copy the inbound headers
and overwrite the three `X-Forwarded-*` entries. -/
def forwardHeaders (req : ProxyRequest) (peerAddr : Option String) :
    List (String × String) :=
  mapSet
    (mapSet
      (mapSet req.headers "x-forwarded-for" (forwardedForHeader req peerAddr))
      "x-forwarded-proto" req.scheme)
    "x-forwarded-host" req.host

/-! ## Process supervisor (src/processors/processManager.ts) -/

inductive ProjectStatus where
  | stopped | starting | running | error
deriving DecidableEq, Repr

/-- The poll loop of `waitForSocket`: try `access(socketPath)` once per
100ms tick while `elapsed < maxWait`.  `socketUp i` tells whether the
socket file exists at the i-th poll (the filesystem oracle). -/
def waitPolls (socketUp : Nat → Bool) : Nat → Nat → Bool
  | _, 0 => false
  | i, remaining + 1 => if socketUp i then true else waitPolls socketUp (i + 1) remaining

/-- `waitForSocket`: at most `⌈maxWait / 100⌉` polls. -/
def waitForSocket (socketUp : Nat → Bool) (maxWait : Nat) : Bool :=
  waitPolls socketUp 0 ((maxWait + 99) / 100)

/-- The observable outcome of `startProject`: every `updateProjectStatus`
call in order (status, pid), whether a handle was recorded in the process
map, and whether the socket-timeout warning fired. -/
structure StartOutcome where
  statusUpdates : List (ProjectStatus × Option Nat)
  handleRecorded : Bool
  warned : Bool
deriving DecidableEq, Repr

/-- `startProject`: fail on a missing or already-running project; set
`starting`; spawn and record the handle; poll for the socket; warn if it
never appeared; then set `running` with the child pid — unconditionally. -/
def startProject (projectFound : Bool) (alreadyRunning : Bool) (pid : Nat)
    (socketUp : Nat → Bool) (maxWait : Nat) : Except String StartOutcome :=
  if ¬projectFound then .error "Project not found"
  else if alreadyRunning then .error "Project already running"
  else
    let socketReady := waitForSocket socketUp maxWait
    .ok { statusUpdates := [(.starting, none), (.running, some pid)],
          handleRecorded := true,
          warned := ¬socketReady }

/-! ## Concrete data for the C4 failing input

`c4payload` is `encodeValue` of the domain record created below (checked by
`decide` in the C4 proof), split into chunks so its CRC-32 can be evaluated
stepwise; `c4file` is the storage file after create + delete + flush;
`c4open` is the state `Storage.open` reconstructs from that file. -/

def c4chunk1 : List Nat :=
  [80, 6, 48, 2, 105, 100, 48, 36, 49, 49, 49, 49, 49, 49, 49, 49, 45, 49,
   49, 49, 49, 45, 52, 49, 49, 49, 45, 56, 49, 49]

def c4chunk2 : List Nat :=
  [49, 45, 49, 49, 49, 49, 49, 49, 49, 49, 49, 49, 49, 49, 48, 8, 104, 111,
   115, 116, 110, 97, 109, 101, 48, 6, 97, 46, 116, 101]

def c4chunk3 : List Nat :=
  [115, 116, 48, 9, 112, 114, 111, 106, 101, 99, 116, 73, 100, 48, 2, 112,
   49, 48, 10, 115, 115, 108, 69, 110, 97, 98, 108, 101, 100, 3]

def c4chunk4 : List Nat :=
  [48, 9, 99, 114, 101, 97, 116, 101, 100, 65, 116, 17, 3, 232, 48, 9, 117,
   112, 100, 97, 116, 101, 100, 65, 116, 17, 3, 232]

def c4payload : List Nat := c4chunk1 ++ (c4chunk2 ++ (c4chunk3 ++ c4chunk4))

def c4domain : Domain :=
  ⟨"11111111-1111-4111-8111-111111111111", "a.test", "p1", false, 1000, 1000⟩

def c4key : Key := [170, 1, 2, 3, 4, 5, 74, 7, 138, 9, 10, 11, 12, 13, 14, 15]

def c4file : List Nat :=
  [68, 79, 87, 69, 1, 0, 0, 0, 0, 0, 0, 0, 0, 0, 0, 170, 0, 0, 0, 0, 0, 0, 0,
   170, 0, 0, 0, 0, 0, 0, 0, 1, 170, 1, 2, 3, 4, 5, 74, 7, 138, 9, 10, 11, 12,
   13, 14, 15, 0, 0, 0, 118, 80, 6, 48, 2, 105, 100, 48, 36, 49, 49, 49, 49,
   49, 49, 49, 49, 45, 49, 49, 49, 49, 45, 52, 49, 49, 49, 45, 56, 49, 49, 49,
   45, 49, 49, 49, 49, 49, 49, 49, 49, 49, 49, 49, 49, 48, 8, 104, 111, 115,
   116, 110, 97, 109, 101, 48, 6, 97, 46, 116, 101, 115, 116, 48, 9, 112, 114,
   111, 106, 101, 99, 116, 73, 100, 48, 2, 112, 49, 48, 10, 115, 115, 108, 69,
   110, 97, 98, 108, 101, 100, 3, 48, 9, 99, 114, 101, 97, 116, 101, 100, 65,
   116, 17, 3, 232, 48, 9, 117, 112, 100, 97, 116, 101, 100, 65, 116, 17, 3,
   232, 170, 1, 2, 3, 4, 5, 74, 7, 138, 9, 10, 11, 12, 13, 14, 15, 0, 0, 0, 0,
   0, 0, 0, 32, 0, 0, 0, 118, 21, 239, 107, 79]

def c4open : StorageState :=
  { file := c4file
    tree := (BTree.empty DEFAULT_ORDER).set c4key ⟨32, 118, 368012111⟩
    hIndexOffset := 170
    hDataOffset := 170
    hRecordCount := 1
    dataOffset := 170 }

/-- The byte loop of `crc32`, as an explicit recursion: running it on an
appended list factors through the intermediate CRC state, which lets a long
payload's checksum be computed chunk by chunk. -/
def crc32Go : Nat → List Nat → Nat
  | crc, [] => crc
  | crc, b :: tl => crc32Go (crc32TableEntry ((crc ^^^ b) &&& 0xff) ^^^ (crc >>> 8)) tl

/-! ## Concrete data for the C6 compaction pipeline -/

def c6idA : Key := [170, 1, 2, 3, 4, 5, 74, 7, 138, 9, 10, 11, 12, 13, 14, 15]
def c6idB : Key := [187, 1, 2, 3, 4, 5, 74, 7, 138, 9, 10, 11, 12, 13, 14, 15]
def c6idC : Key := [204, 1, 2, 3, 4, 5, 74, 7, 138, 9, 10, 11, 12, 13, 14, 15]

def c6pre : StorageState :=
  ((writeSeq (createDatabase initialStorage)
      [(c6idA, .vnull), (c6idB, .vbool true)]).map
    (fun s1 => (deleteRecord s1 (uuidToString c6idA)).1)).getD initialStorage

def c6result : StorageState :=
  (compactStorage c6pre [c6idC]).getD initialStorage


/-! ## C2 infrastructure: window bound, write log, storage invariant

`loLT` is the strict lower-bound check used for promoted keys; `locFind`
looks a storage id up in the log of completed writes; `storageInv` is the
invariant the write loop maintains between the in-memory index, the file
bytes and that log. -/

/-- Strictly-above-lower-bound check (`none` is `-∞`). -/
def loLT (lo : Option Key) (k : Key) : Bool :=
  match lo with
  | none => true
  | some l => compareUUID l k < 0

/-- First location/value logged under a storage id. -/
def locFind (log : List (Key × RecordLocation × Value)) (k : Key) :
    Option (RecordLocation × Value) :=
  (log.find? fun d => decide (d.1 = k)).map (fun d => d.2)

/-- Invariant tying a storage state to the log of its completed writes. -/
def storageInv (log : List (Key × RecordLocation × Value)) (s : StorageState) : Prop :=
  2 ≤ s.tree.order ∧
  nodeWFB s.tree.order none none s.tree.root = true ∧
  HEADER_SIZE ≤ s.dataOffset ∧
  s.file.length = s.dataOffset ∧
  s.hDataOffset = s.dataOffset ∧
  (log.map (fun d => d.1)).Nodup ∧
  (∀ e ∈ s.tree.entries, ∃ v, locFind log e.1 = some (e.2, v)) ∧
  (∀ d ∈ log, d.1 ∈ (s.tree.entries).map Prod.fst) ∧
  (∀ d ∈ log, keyBytesOK d.1 = true ∧ ∃ enc,
     encodeValue d.2.2 = some enc ∧ d.2.1.size = enc.length ∧
     d.2.1.checksum = crc32 enc ∧ HEADER_SIZE ≤ d.2.1.offset ∧
     d.2.1.offset + 20 + d.2.1.size ≤ s.dataOffset ∧
     (s.file.drop (d.2.1.offset + 20)).take d.2.1.size = enc)

/-! # Theorems -/

/-! ## Big-endian byte strings -/

theorem natToBytesBE_length (w n : Nat) : (natToBytesBE w n).length = w := by
  induction w generalizing n with
  | zero => rfl
  | succ w ih => simp [natToBytesBE, ih]

theorem natToBytesBE_lt (w n : Nat) : ∀ b ∈ natToBytesBE w n, b < 256 := by
  induction w generalizing n with
  | zero => intro b hb; simp [natToBytesBE] at hb
  | succ w ih =>
    intro b hb
    simp only [natToBytesBE, List.mem_cons] at hb
    rcases hb with h | h
    · omega
    · exact ih n b h

theorem bytesToNatBE_natToBytesBE (w n : Nat) :
    bytesToNatBE (natToBytesBE w n) = n % 2 ^ (8 * w) := by
  induction w generalizing n with
  | zero => simp [natToBytesBE, bytesToNatBE, Nat.mod_one]
  | succ w ih =>
    have hlen : (natToBytesBE w n).length = w := natToBytesBE_length w n
    have hpow : (2 : Nat) ^ (8 * (w + 1)) = 2 ^ (8 * w) * 256 := by
      rw [show 8 * (w + 1) = 8 * w + 8 by ring, pow_add]; norm_num
    simp only [natToBytesBE, bytesToNatBE, hlen, ih, hpow, Nat.mod_mul]
    ring

theorem bytesToNatBE_lt (bs : List Nat) (h : ∀ b ∈ bs, b < 256) :
    bytesToNatBE bs < 2 ^ (8 * bs.length) := by
  induction bs with
  | nil => simp [bytesToNatBE]
  | cons b tl ih =>
    have hb : b < 256 := h b (by simp)
    have htl := ih fun x hx => h x (by simp [hx])
    simp only [bytesToNatBE, List.length_cons]
    have : (2 : Nat) ^ (8 * (tl.length + 1)) = 2 ^ (8 * tl.length) * 256 := by
      rw [show 8 * (tl.length + 1) = 8 * tl.length + 8 by ring, pow_add]; norm_num
    rw [this]
    nlinarith [htl, hb]

/-! ## Two's-complement round-trip -/

theorem twosToInt_intToTwos (w : Nat) (i : Int) (hw : 1 ≤ w)
    (h1 : -(2 ^ (8 * w - 1)) ≤ i) (h2 : i < 2 ^ (8 * w - 1)) :
    twosToInt w (intToTwos w i) = i := by
  have hMN : ((2 ^ (8 * w) : Nat) : Int) = 2 ^ (8 * w) := by push_cast; rfl
  have hEN : ((2 ^ (8 * w - 1) : Nat) : Int) = 2 ^ (8 * w - 1) := by push_cast; rfl
  have hsplit : (2 : Int) ^ (8 * w) = 2 * 2 ^ (8 * w - 1) := by
    rw [← pow_succ']
    congr 1
    omega
  have hMpos : (0 : Int) < 2 ^ (8 * w) := by positivity
  have hm : (intToTwos w i : Int) = i % 2 ^ (8 * w) := by
    unfold intToTwos
    rw [Int.toNat_of_nonneg (Int.emod_nonneg i (by rw [hMN]; exact hMpos.ne'))]
    rw [hMN]
  have hor : (intToTwos w i : Int) = i ∨ (intToTwos w i : Int) = i + 2 ^ (8 * w) := by
    rcases le_or_lt 0 i with hpos | hneg
    · left
      rw [hm, Int.emod_eq_of_lt hpos (by omega)]
    · right
      rw [hm]
      have hsh : (i + 2 ^ (8 * w) * 1) % (2 : Int) ^ (8 * w) = i % 2 ^ (8 * w) :=
        Int.add_mul_emod_self_left i (2 ^ (8 * w)) 1
      have hval : (i + 2 ^ (8 * w)) % (2 : Int) ^ (8 * w) = i + 2 ^ (8 * w) :=
        Int.emod_eq_of_lt (by omega) (by omega)
      rw [mul_one] at hsh
      omega
  unfold twosToInt
  split
  · next hlt =>
    have hlt' : ((intToTwos w i : Nat) : Int) < 2 ^ (8 * w - 1) := by
      rw [← hEN]
      exact_mod_cast hlt
    omega
  · next hge =>
    have hge' : ¬ (((intToTwos w i : Nat) : Int) < 2 ^ (8 * w - 1)) := by
      rw [← hEN]
      exact_mod_cast hge
    rw [hMN]
    omega

theorem bytesToIntBE_intToBytesBE (w : Nat) (i : Int) (hw : 1 ≤ w)
    (h1 : -(2 ^ (8 * w - 1)) ≤ i) (h2 : i < 2 ^ (8 * w - 1)) :
    bytesToIntBE w (intToBytesBE w i) = i := by
  unfold bytesToIntBE intToBytesBE
  rw [bytesToNatBE_natToBytesBE]
  have hfit : intToTwos w i < 2 ^ (8 * w) := by
    unfold intToTwos
    have hMN : ((2 ^ (8 * w) : Nat) : Int) = 2 ^ (8 * w) := by push_cast; rfl
    have hMpos : (0 : Int) < 2 ^ (8 * w) := by positivity
    have hnn : 0 ≤ i % ((2 ^ (8 * w) : Nat) : Int) :=
      Int.emod_nonneg i (by rw [hMN]; exact hMpos.ne')
    have hlt : i % ((2 ^ (8 * w) : Nat) : Int) < ((2 ^ (8 * w) : Nat) : Int) :=
      Int.emod_lt_of_pos i (by rw [hMN]; exact hMpos)
    omega
  rw [Nat.mod_eq_of_lt hfit]
  exact twosToInt_intToTwos w i hw h1 h2

/-! ## Varint round-trip -/

theorem readVarint_writeVarint (n : Nat) (lb rest : List Nat)
    (h : writeVarint n = some lb) : readVarint (lb ++ rest) = some (n, rest) := by
  unfold writeVarint at h
  split at h
  · next hle =>
    cases h
    unfold MAX_VARINT_1 at hle
    simp only [List.cons_append, List.nil_append, readVarint]
    rw [if_pos (by omega)]
    congr 1
    rw [Nat.mod_eq_of_lt (by omega)]
  · split at h
    · next h1 h2 =>
      cases h
      unfold MAX_VARINT_1 at h1
      unfold MAX_VARINT_2 at h2
      simp only [List.cons_append, List.nil_append, readVarint]
      rw [if_neg (by omega), if_pos (by omega)]
      congr 2
      omega
    · split at h
      · next h1 h2 h3 =>
        cases h
        unfold MAX_VARINT_1 at h1
        unfold MAX_VARINT_2 at h2
        unfold MAX_VARINT_4 at h3
        simp only [List.cons_append, List.nil_append, readVarint]
        rw [if_neg (by omega), if_neg (by omega), if_pos (by omega)]
        congr 2
        omega
      · exact absurd h (by simp)

theorem writeVarint_lt (n : Nat) (lb : List Nat) (h : writeVarint n = some lb) :
    ∀ b ∈ lb, b < 256 := by
  unfold writeVarint at h
  split at h
  · next hle => cases h; intro b hb; unfold MAX_VARINT_1 at hle; simp at hb; omega
  · split at h
    · next h1 h2 =>
      cases h
      intro b hb
      unfold MAX_VARINT_2 at h2
      simp at hb
      rcases hb with hb | hb <;> omega
    · split at h
      · next h1 h2 h3 =>
        cases h
        intro b hb
        unfold MAX_VARINT_4 at h3
        simp at hb
        rcases hb with hb | hb | hb | hb <;> omega
      · exact absurd h (by simp)

/-! ## C1 — the codec round-trip -/


theorem log2F_spec : ∀ (f n : Nat), 1 ≤ n → n ≤ f →
    2 ^ log2F f n ≤ n ∧ n < 2 ^ (log2F f n + 1) := by
  intro f
  induction f with
  | zero => intro n h1 h2; omega
  | succ f ih =>
    intro n h1 h2
    rw [log2F]
    by_cases h : 2 ≤ n
    · rw [if_pos h]
      have hrec := ih (n / 2) (by omega) (by omega)
      rcases hrec with ⟨hlo, hhi⟩
      constructor
      · calc 2 ^ (log2F f (n / 2) + 1) = 2 ^ log2F f (n / 2) * 2 := by ring
          _ ≤ n / 2 * 2 := by omega
          _ ≤ n := by omega
      · calc n ≤ n / 2 * 2 + 1 := by omega
          _ < 2 ^ (log2F f (n / 2) + 1) * 2 := by omega
          _ = 2 ^ (log2F f (n / 2) + 1 + 1) := by ring
    · rw [if_neg h]
      simp
      omega

theorem nlog2_spec (n : Nat) (h : 1 ≤ n) :
    2 ^ nlog2 n ≤ n ∧ n < 2 ^ (nlog2 n + 1) :=
  log2F_spec n n h le_rfl

theorem bitfield64 (s e man : Nat) (hs : s ≤ 1) (he : e < 2 ^ 11) (hm : man < 2 ^ 52) :
    (s * 2 ^ 63 + e * 2 ^ 52 + man) / 2 ^ 63 = s ∧
    ((s * 2 ^ 63 + e * 2 ^ 52 + man) / 2 ^ 52) % 2 ^ 11 = e ∧
    (s * 2 ^ 63 + e * 2 ^ 52 + man) % 2 ^ 52 = man := by
  omega

theorem f64RepInt_bounds (i : Int) (h : f64RepInt i = true) :
    i.natAbs < 2 ^ 1024 ∧ (2 ^ 53 ≤ i.natAbs → i.natAbs % 2 ^ (nlog2 i.natAbs - 52) = 0) := by
  unfold f64RepInt at h
  simp only at h
  split at h
  · next hlt => exact ⟨by omega, by omega⟩
  · split at h
    · next h1 h2 => exact ⟨h2, fun _ => by simpa using h⟩
    · simp at h

theorem sgn_mul_natAbs (i : Int) (n : Nat) (hn : n = i.natAbs) :
    (if (if i < 0 then 1 else 0) = (1 : Nat) then (-1 : Int) else 1)
      * Int.ofNat n = i := by
  subst hn
  rcases lt_or_le i 0 with hs | hs
  · rw [if_pos (by simp [hs]), Int.ofNat_eq_natCast]
    omega
  · have hnot : ¬ i < 0 := by omega
    rw [if_neg (by simp [hnot]), Int.ofNat_eq_natCast]
    omega

theorem f64ToIntQ_small (i : Int) (n t : Nat) (hn : n = i.natAbs)
    (hlo : 2 ^ t ≤ n) (hhi : n < 2 ^ (t + 1)) (ht : t ≤ 52) :
    f64ToIntQ ((if i < 0 then 1 else 0) * 2 ^ 63 + (t + 1023) * 2 ^ 52 +
      (n * 2 ^ (52 - t) - 2 ^ 52)) = some i := by
  have hpow : 2 ^ t * 2 ^ (52 - t) = 2 ^ 52 := by
    rw [← pow_add]
    congr 1
    omega
  have hpow53 : 2 ^ (t + 1) * 2 ^ (52 - t) = 2 ^ 53 := by
    rw [← pow_add]
    congr 1
    omega
  have hmlo : 2 ^ 52 ≤ n * 2 ^ (52 - t) := by
    calc 2 ^ 52 = 2 ^ t * 2 ^ (52 - t) := hpow.symm
      _ ≤ n * 2 ^ (52 - t) := Nat.mul_le_mul_right _ hlo
  have hmhi : n * 2 ^ (52 - t) < 2 ^ 53 := by
    calc n * 2 ^ (52 - t) < 2 ^ (t + 1) * 2 ^ (52 - t) :=
          (Nat.mul_lt_mul_right (Nat.pos_pow_of_pos _ (by omega))).mpr hhi
      _ = 2 ^ 53 := hpow53
  obtain ⟨hd1, hd2, hd3⟩ := bitfield64 (if i < 0 then 1 else 0) (t + 1023)
    (n * 2 ^ (52 - t) - 2 ^ 52) (by split <;> omega) (by omega) (by omega)
  simp only [f64ToIntQ, hd1, hd2, hd3]
  rw [if_neg (show ¬ t + 1023 = 2047 from by omega),
    if_neg (show ¬ t + 1023 = 0 from by omega)]
  have hm : 2 ^ 52 + (n * 2 ^ (52 - t) - 2 ^ 52) = n * 2 ^ (52 - t) := by omega
  rw [hm]
  split
  next hc =>
    have harg : n * 2 ^ (52 - t) * 2 ^ (t + 1023 - 1075) = n := by
      have ht52 : t = 52 := by omega
      rw [ht52]
      norm_num
    exact (congrArg
      (fun x : Nat => some ((if (if i < 0 then 1 else 0) = (1 : Nat) then (-1 : Int) else 1)
        * Int.ofNat x)) harg).trans (congrArg some (sgn_mul_natAbs i n hn))
  next hc =>
    rw [show 1075 - (t + 1023) = 52 - t from by omega]
    split
    next hz2 =>
      have harg : n * 2 ^ (52 - t) / 2 ^ (52 - t) = n :=
        Nat.mul_div_cancel _ (Nat.pos_pow_of_pos _ (by omega))
      exact (congrArg
      (fun x : Nat => some ((if (if i < 0 then 1 else 0) = (1 : Nat) then (-1 : Int) else 1)
        * Int.ofNat x)) harg).trans (congrArg some (sgn_mul_natAbs i n hn))
    next hz2 => exact absurd (Nat.mul_mod_left n (2 ^ (52 - t))) hz2

theorem f64ToIntQ_large (i : Int) (n t : Nat) (hn : n = i.natAbs)
    (hlo : 2 ^ t ≤ n) (hhi : n < 2 ^ (t + 1)) (ht : 53 ≤ t) (ht2 : t ≤ 1023)
    (hdvd : n % 2 ^ (t - 52) = 0) :
    f64ToIntQ ((if i < 0 then 1 else 0) * 2 ^ 63 + (t + 1023) * 2 ^ 52 +
      (n / 2 ^ (t - 52) - 2 ^ 52)) = some i := by
  have hddvd : 2 ^ (t - 52) ∣ n := Nat.dvd_of_mod_eq_zero hdvd
  have hpos : 0 < 2 ^ (t - 52) := Nat.pos_pow_of_pos _ (by omega)
  have hpow : 2 ^ (t - 52) * 2 ^ 52 = 2 ^ t := by
    rw [← pow_add]
    congr 1
    omega
  have hpow53 : 2 ^ (t - 52) * 2 ^ 53 = 2 ^ (t + 1) := by
    rw [← pow_add]
    congr 1
    omega
  have hmlo : 2 ^ 52 ≤ n / 2 ^ (t - 52) := by
    rw [Nat.le_div_iff_mul_le hpos]
    calc 2 ^ 52 * 2 ^ (t - 52) = 2 ^ (t - 52) * 2 ^ 52 := by ring
      _ = 2 ^ t := hpow
      _ ≤ n := hlo
  have hmhi : n / 2 ^ (t - 52) < 2 ^ 53 := by
    rw [Nat.div_lt_iff_lt_mul hpos]
    calc n < 2 ^ (t + 1) := hhi
      _ = 2 ^ (t - 52) * 2 ^ 53 := hpow53.symm
      _ = 2 ^ 53 * 2 ^ (t - 52) := by ring
  obtain ⟨hd1, hd2, hd3⟩ := bitfield64 (if i < 0 then 1 else 0) (t + 1023)
    (n / 2 ^ (t - 52) - 2 ^ 52) (by split <;> omega) (by omega) (by omega)
  simp only [f64ToIntQ, hd1, hd2, hd3]
  rw [if_neg (show ¬ t + 1023 = 2047 from by omega),
    if_neg (show ¬ t + 1023 = 0 from by omega)]
  have hm : 2 ^ 52 + (n / 2 ^ (t - 52) - 2 ^ 52) = n / 2 ^ (t - 52) := by omega
  rw [hm]
  split
  next hc =>
    have harg : n / 2 ^ (t - 52) * 2 ^ (t + 1023 - 1075) = n := by
      rw [show t + 1023 - 1075 = t - 52 from by omega]
      exact Nat.div_mul_cancel hddvd
    exact (congrArg
      (fun x : Nat => some ((if (if i < 0 then 1 else 0) = (1 : Nat) then (-1 : Int) else 1)
        * Int.ofNat x)) harg).trans (congrArg some (sgn_mul_natAbs i n hn))
  next hc => omega

theorem f64ToIntQ_intToF64bits (i : Int) (h : f64RepInt i = true) :
    f64ToIntQ (intToF64bits i) = some i := by
  by_cases hz : i = 0
  · subst hz
    decide
  · have hn1 : 1 ≤ i.natAbs := by
      have := Int.natAbs_pos.mpr hz
      omega
    obtain ⟨hlo, hhi⟩ := nlog2_spec i.natAbs hn1
    obtain ⟨h1024, hdvd⟩ := f64RepInt_bounds i h
    have ht1023 : nlog2 i.natAbs ≤ 1023 := by
      by_contra hc
      have : 2 ^ 1024 ≤ 2 ^ nlog2 i.natAbs := Nat.pow_le_pow_right (by omega) (by omega)
      omega
    by_cases ht : nlog2 i.natAbs ≤ 52
    · have hbits : intToF64bits i =
          (if i < 0 then 1 else 0) * 2 ^ 63 + (nlog2 i.natAbs + 1023) * 2 ^ 52 +
            (i.natAbs * 2 ^ (52 - nlog2 i.natAbs) - 2 ^ 52) := by
        simp only [intToF64bits]
        rw [if_neg hz, if_pos ht]
      rw [hbits]
      exact f64ToIntQ_small i i.natAbs (nlog2 i.natAbs) rfl hlo hhi ht
    · have h53 : 2 ^ 53 ≤ i.natAbs := by
        calc (2 : Nat) ^ 53 ≤ 2 ^ nlog2 i.natAbs := Nat.pow_le_pow_right (by omega) (by omega)
          _ ≤ i.natAbs := hlo
      have hbits : intToF64bits i =
          (if i < 0 then 1 else 0) * 2 ^ 63 + (nlog2 i.natAbs + 1023) * 2 ^ 52 +
            (i.natAbs / 2 ^ (nlog2 i.natAbs - 52) - 2 ^ 52) := by
        simp only [intToF64bits]
        rw [if_neg hz, if_neg ht]
      rw [hbits]
      exact f64ToIntQ_large i i.natAbs (nlog2 i.natAbs) rfl hlo hhi (by omega) ht1023
        (hdvd h53)

theorem classify64_intToF64bits (i : Int) (h : f64RepInt i = true) :
    classify64 (intToF64bits i) = .int i := by
  unfold classify64
  rw [f64ToIntQ_intToF64bits i h]


theorem charOfNat_toNat (c : Char) : charOfNat? c.toNat = some c := by
  have hct : c.toNat = c.val.toNat := rfl
  have hv : c.toNat < 55296 ∨ 57343 < c.toNat ∧ c.toNat < 1114112 := by
    have := c.valid
    rw [UInt32.isValidChar, Nat.isValidChar] at this
    omega
  unfold charOfNat?
  rw [dif_pos hv]
  congr 1
  apply Char.ext
  show UInt32.ofNat c.toNat = c.val
  simp only [Char.toNat, UInt32.ofNat, UInt32.toNat, Fin.ofNat]
  congr 1
  simp

theorem utf8EncodeChar_pos (c : Char) : 1 ≤ (utf8EncodeChar c).length := by
  simp only [utf8EncodeChar]
  repeat' split
  all_goals norm_num

theorem isCont_add (x : Nat) (h : x < 64) : isCont (128 + x) = true := by
  unfold isCont
  simp
  omega

theorem utf8DecodeF_roundtrip : ∀ (cs : List Char) (f : Nat), cs.length ≤ f →
    utf8DecodeF f ((cs.map utf8EncodeChar).flatten) = cs := by
  intro cs
  induction cs with
  | nil =>
    intro f _
    cases f <;> rfl
  | cons c cs ih =>
    intro f hf
    simp only [List.map_cons, List.flatten_cons, List.length_cons] at *
    obtain ⟨f, rfl⟩ : ∃ g, f = g + 1 := ⟨f - 1, by omega⟩
    have hf2 : cs.length ≤ f := by omega
    have hct : c.toNat = c.val.toNat := rfl
    have hn2 : c.toNat < 1114112 := by
      have := c.valid
      rw [UInt32.isValidChar, Nat.isValidChar] at this
      omega
    simp only [utf8EncodeChar]
    by_cases h1 : c.toNat < 0x80
    · rw [if_pos h1]
      simp only [List.cons_append, List.nil_append, List.append_eq, utf8DecodeF]
      rw [if_pos h1, charOfNat_toNat c, Option.getD_some, ih f hf2]
    · rw [if_neg h1]
      by_cases h2 : c.toNat < 0x800
      · rw [if_pos h2]
        simp only [List.cons_append, List.nil_append, List.append_eq, utf8DecodeF]
        rw [if_neg (by omega), if_neg (by omega), if_pos (by omega)]
        rw [isCont_add (c.toNat % 64) (by omega), if_pos rfl]
        rw [show (192 + c.toNat / 64 - 192) * 64 + (128 + c.toNat % 64 - 128) = c.toNat
          from by omega]
        rw [charOfNat_toNat c, Option.getD_some, ih f hf2]
      · rw [if_neg h2]
        by_cases h3 : c.toNat < 0x10000
        · rw [if_pos h3]
          simp only [List.cons_append, List.nil_append, List.append_eq, utf8DecodeF]
          rw [if_neg (by omega), if_neg (by omega), if_neg (by omega), if_pos (by omega)]
          rw [if_pos (show (isCont (128 + c.toNat / 64 % 64) && isCont (128 + c.toNat % 64))
            = true from by
              rw [isCont_add (c.toNat / 64 % 64) (by omega), isCont_add (c.toNat % 64) (by omega)]
              rfl)]
          rw [show (224 + c.toNat / 4096 - 224) * 4096 + (128 + c.toNat / 64 % 64 - 128) * 64
            + (128 + c.toNat % 64 - 128) = c.toNat from by omega]
          rw [charOfNat_toNat c, Option.getD_some, ih f hf2]
        · rw [if_neg h3]
          simp only [List.cons_append, List.nil_append, List.append_eq, utf8DecodeF]
          rw [if_neg (by omega), if_neg (by omega), if_neg (by omega), if_neg (by omega),
            if_pos (by omega)]
          rw [if_pos (show (isCont (128 + c.toNat / 4096 % 64) && isCont (128 + c.toNat / 64 % 64)
            && isCont (128 + c.toNat % 64)) = true from by
              rw [isCont_add (c.toNat / 4096 % 64) (by omega),
                isCont_add (c.toNat / 64 % 64) (by omega), isCont_add (c.toNat % 64) (by omega)]
              rfl)]
          rw [show (240 + c.toNat / 262144 - 240) * 262144 + (128 + c.toNat / 4096 % 64 - 128) * 4096
            + (128 + c.toNat / 64 % 64 - 128) * 64 + (128 + c.toNat % 64 - 128) = c.toNat
            from by omega]
          rw [charOfNat_toNat c, Option.getD_some, ih f hf2]

theorem length_le_flatten_utf8 (cs : List Char) :
    cs.length ≤ ((cs.map utf8EncodeChar).flatten).length := by
  induction cs with
  | nil => simp
  | cons c cs ih =>
    simp only [List.map_cons, List.flatten_cons, List.length_append, List.length_cons]
    have := utf8EncodeChar_pos c
    omega

theorem utf8Decode_utf8Encode (s : String) : utf8Decode (utf8Encode s) = s := by
  unfold utf8Decode utf8Encode
  rw [utf8DecodeF_roundtrip s.data _ (length_le_flatten_utf8 s.data)]


theorem decodeValueF_NULL (f : Nat) (rest : List Nat) :
    decodeValueF (f + 1) (BinaryType.NULL :: rest) =
      (some (.vnull, rest)) := by
  simp [decodeValueF, BinaryType.NULL, BinaryType.UNDEFINED, BinaryType.TRUE,
    BinaryType.FALSE, BinaryType.INT8, BinaryType.INT16, BinaryType.INT32, BinaryType.INT64,
    BinaryType.UINT8, BinaryType.UINT16, BinaryType.UINT32, BinaryType.UINT64,
    BinaryType.FLOAT32, BinaryType.FLOAT64, BinaryType.STRING, BinaryType.BINARY,
    BinaryType.ARRAY, BinaryType.OBJECT, BinaryType.DATE, BinaryType.UUID]

theorem decodeValueF_UNDEF (f : Nat) (rest : List Nat) :
    decodeValueF (f + 1) (BinaryType.UNDEFINED :: rest) =
      (some (.vundef, rest)) := by
  simp [decodeValueF, BinaryType.NULL, BinaryType.UNDEFINED, BinaryType.TRUE,
    BinaryType.FALSE, BinaryType.INT8, BinaryType.INT16, BinaryType.INT32, BinaryType.INT64,
    BinaryType.UINT8, BinaryType.UINT16, BinaryType.UINT32, BinaryType.UINT64,
    BinaryType.FLOAT32, BinaryType.FLOAT64, BinaryType.STRING, BinaryType.BINARY,
    BinaryType.ARRAY, BinaryType.OBJECT, BinaryType.DATE, BinaryType.UUID]

theorem decodeValueF_TRUE (f : Nat) (rest : List Nat) :
    decodeValueF (f + 1) (BinaryType.TRUE :: rest) =
      (some (.vbool true, rest)) := by
  simp [decodeValueF, BinaryType.NULL, BinaryType.UNDEFINED, BinaryType.TRUE,
    BinaryType.FALSE, BinaryType.INT8, BinaryType.INT16, BinaryType.INT32, BinaryType.INT64,
    BinaryType.UINT8, BinaryType.UINT16, BinaryType.UINT32, BinaryType.UINT64,
    BinaryType.FLOAT32, BinaryType.FLOAT64, BinaryType.STRING, BinaryType.BINARY,
    BinaryType.ARRAY, BinaryType.OBJECT, BinaryType.DATE, BinaryType.UUID]

theorem decodeValueF_FALSE (f : Nat) (rest : List Nat) :
    decodeValueF (f + 1) (BinaryType.FALSE :: rest) =
      (some (.vbool false, rest)) := by
  simp [decodeValueF, BinaryType.NULL, BinaryType.UNDEFINED, BinaryType.TRUE,
    BinaryType.FALSE, BinaryType.INT8, BinaryType.INT16, BinaryType.INT32, BinaryType.INT64,
    BinaryType.UINT8, BinaryType.UINT16, BinaryType.UINT32, BinaryType.UINT64,
    BinaryType.FLOAT32, BinaryType.FLOAT64, BinaryType.STRING, BinaryType.BINARY,
    BinaryType.ARRAY, BinaryType.OBJECT, BinaryType.DATE, BinaryType.UUID]

theorem decodeValueF_INT16 (f : Nat) (rest : List Nat) :
    decodeValueF (f + 1) (BinaryType.INT16 :: rest) =
      (if 2 ≤ rest.length then
        some (.vnum (.int (twosToInt 2 (bytesToNatBE (rest.take 2)))), rest.drop 2)
      else none) := by
  simp [decodeValueF, BinaryType.NULL, BinaryType.UNDEFINED, BinaryType.TRUE,
    BinaryType.FALSE, BinaryType.INT8, BinaryType.INT16, BinaryType.INT32, BinaryType.INT64,
    BinaryType.UINT8, BinaryType.UINT16, BinaryType.UINT32, BinaryType.UINT64,
    BinaryType.FLOAT32, BinaryType.FLOAT64, BinaryType.STRING, BinaryType.BINARY,
    BinaryType.ARRAY, BinaryType.OBJECT, BinaryType.DATE, BinaryType.UUID]

theorem decodeValueF_INT32 (f : Nat) (rest : List Nat) :
    decodeValueF (f + 1) (BinaryType.INT32 :: rest) =
      (if 4 ≤ rest.length then
        some (.vnum (.int (twosToInt 4 (bytesToNatBE (rest.take 4)))), rest.drop 4)
      else none) := by
  simp [decodeValueF, BinaryType.NULL, BinaryType.UNDEFINED, BinaryType.TRUE,
    BinaryType.FALSE, BinaryType.INT8, BinaryType.INT16, BinaryType.INT32, BinaryType.INT64,
    BinaryType.UINT8, BinaryType.UINT16, BinaryType.UINT32, BinaryType.UINT64,
    BinaryType.FLOAT32, BinaryType.FLOAT64, BinaryType.STRING, BinaryType.BINARY,
    BinaryType.ARRAY, BinaryType.OBJECT, BinaryType.DATE, BinaryType.UUID]

theorem decodeValueF_INT64 (f : Nat) (rest : List Nat) :
    decodeValueF (f + 1) (BinaryType.INT64 :: rest) =
      (if 8 ≤ rest.length then
        some (.vbigint (twosToInt 8 (bytesToNatBE (rest.take 8))), rest.drop 8)
      else none) := by
  simp [decodeValueF, BinaryType.NULL, BinaryType.UNDEFINED, BinaryType.TRUE,
    BinaryType.FALSE, BinaryType.INT8, BinaryType.INT16, BinaryType.INT32, BinaryType.INT64,
    BinaryType.UINT8, BinaryType.UINT16, BinaryType.UINT32, BinaryType.UINT64,
    BinaryType.FLOAT32, BinaryType.FLOAT64, BinaryType.STRING, BinaryType.BINARY,
    BinaryType.ARRAY, BinaryType.OBJECT, BinaryType.DATE, BinaryType.UUID]

theorem decodeValueF_UINT64 (f : Nat) (rest : List Nat) :
    decodeValueF (f + 1) (BinaryType.UINT64 :: rest) =
      (if 8 ≤ rest.length then
        some (.vbigint (bytesToNatBE (rest.take 8)), rest.drop 8)
      else none) := by
  simp [decodeValueF, BinaryType.NULL, BinaryType.UNDEFINED, BinaryType.TRUE,
    BinaryType.FALSE, BinaryType.INT8, BinaryType.INT16, BinaryType.INT32, BinaryType.INT64,
    BinaryType.UINT8, BinaryType.UINT16, BinaryType.UINT32, BinaryType.UINT64,
    BinaryType.FLOAT32, BinaryType.FLOAT64, BinaryType.STRING, BinaryType.BINARY,
    BinaryType.ARRAY, BinaryType.OBJECT, BinaryType.DATE, BinaryType.UUID]

theorem decodeValueF_FLOAT32 (f : Nat) (rest : List Nat) :
    decodeValueF (f + 1) (BinaryType.FLOAT32 :: rest) =
      (if 4 ≤ rest.length then
        some (.vnum (classify32 (bytesToNatBE (rest.take 4))), rest.drop 4)
      else none) := by
  simp [decodeValueF, BinaryType.NULL, BinaryType.UNDEFINED, BinaryType.TRUE,
    BinaryType.FALSE, BinaryType.INT8, BinaryType.INT16, BinaryType.INT32, BinaryType.INT64,
    BinaryType.UINT8, BinaryType.UINT16, BinaryType.UINT32, BinaryType.UINT64,
    BinaryType.FLOAT32, BinaryType.FLOAT64, BinaryType.STRING, BinaryType.BINARY,
    BinaryType.ARRAY, BinaryType.OBJECT, BinaryType.DATE, BinaryType.UUID]

theorem decodeValueF_FLOAT64 (f : Nat) (rest : List Nat) :
    decodeValueF (f + 1) (BinaryType.FLOAT64 :: rest) =
      (if 8 ≤ rest.length then
        some (.vnum (classify64 (bytesToNatBE (rest.take 8))), rest.drop 8)
      else none) := by
  simp [decodeValueF, BinaryType.NULL, BinaryType.UNDEFINED, BinaryType.TRUE,
    BinaryType.FALSE, BinaryType.INT8, BinaryType.INT16, BinaryType.INT32, BinaryType.INT64,
    BinaryType.UINT8, BinaryType.UINT16, BinaryType.UINT32, BinaryType.UINT64,
    BinaryType.FLOAT32, BinaryType.FLOAT64, BinaryType.STRING, BinaryType.BINARY,
    BinaryType.ARRAY, BinaryType.OBJECT, BinaryType.DATE, BinaryType.UUID]

theorem decodeValueF_DATE (f : Nat) (rest : List Nat) :
    decodeValueF (f + 1) (BinaryType.DATE :: rest) =
      (if 8 ≤ rest.length then
        some (.vdate (twosToInt 8 (bytesToNatBE (rest.take 8))), rest.drop 8)
      else none) := by
  simp [decodeValueF, BinaryType.NULL, BinaryType.UNDEFINED, BinaryType.TRUE,
    BinaryType.FALSE, BinaryType.INT8, BinaryType.INT16, BinaryType.INT32, BinaryType.INT64,
    BinaryType.UINT8, BinaryType.UINT16, BinaryType.UINT32, BinaryType.UINT64,
    BinaryType.FLOAT32, BinaryType.FLOAT64, BinaryType.STRING, BinaryType.BINARY,
    BinaryType.ARRAY, BinaryType.OBJECT, BinaryType.DATE, BinaryType.UUID]

theorem decodeValueF_STRING (f : Nat) (rest : List Nat) :
    decodeValueF (f + 1) (BinaryType.STRING :: rest) =
      ((decodeStringB rest).bind fun p => some (.vstr p.1, p.2)) := by
  simp [decodeValueF, BinaryType.NULL, BinaryType.UNDEFINED, BinaryType.TRUE,
    BinaryType.FALSE, BinaryType.INT8, BinaryType.INT16, BinaryType.INT32, BinaryType.INT64,
    BinaryType.UINT8, BinaryType.UINT16, BinaryType.UINT32, BinaryType.UINT64,
    BinaryType.FLOAT32, BinaryType.FLOAT64, BinaryType.STRING, BinaryType.BINARY,
    BinaryType.ARRAY, BinaryType.OBJECT, BinaryType.DATE, BinaryType.UUID]

theorem decodeValueF_BINARY (f : Nat) (rest : List Nat) :
    decodeValueF (f + 1) (BinaryType.BINARY :: rest) =
      ((readVarint rest).bind fun p =>
        if p.1 ≤ p.2.length then some (.vbin (p.2.take p.1), p.2.drop p.1) else none) := by
  simp [decodeValueF, BinaryType.NULL, BinaryType.UNDEFINED, BinaryType.TRUE,
    BinaryType.FALSE, BinaryType.INT8, BinaryType.INT16, BinaryType.INT32, BinaryType.INT64,
    BinaryType.UINT8, BinaryType.UINT16, BinaryType.UINT32, BinaryType.UINT64,
    BinaryType.FLOAT32, BinaryType.FLOAT64, BinaryType.STRING, BinaryType.BINARY,
    BinaryType.ARRAY, BinaryType.OBJECT, BinaryType.DATE, BinaryType.UUID]

theorem decodeValueF_ARRAY (f : Nat) (rest : List Nat) :
    decodeValueF (f + 1) (BinaryType.ARRAY :: rest) =
      ((readVarint rest).bind fun p =>
        (decodeValueLF f p.1 p.2).bind fun q => some (.varr q.1, q.2)) := by
  simp [decodeValueF, BinaryType.NULL, BinaryType.UNDEFINED, BinaryType.TRUE,
    BinaryType.FALSE, BinaryType.INT8, BinaryType.INT16, BinaryType.INT32, BinaryType.INT64,
    BinaryType.UINT8, BinaryType.UINT16, BinaryType.UINT32, BinaryType.UINT64,
    BinaryType.FLOAT32, BinaryType.FLOAT64, BinaryType.STRING, BinaryType.BINARY,
    BinaryType.ARRAY, BinaryType.OBJECT, BinaryType.DATE, BinaryType.UUID]

theorem decodeValueF_OBJECT (f : Nat) (rest : List Nat) :
    decodeValueF (f + 1) (BinaryType.OBJECT :: rest) =
      ((readVarint rest).bind fun p =>
        (decodeObjLF f p.1 p.2).bind fun q => some (.vobj q.1, q.2)) := by
  simp [decodeValueF, BinaryType.NULL, BinaryType.UNDEFINED, BinaryType.TRUE,
    BinaryType.FALSE, BinaryType.INT8, BinaryType.INT16, BinaryType.INT32, BinaryType.INT64,
    BinaryType.UINT8, BinaryType.UINT16, BinaryType.UINT32, BinaryType.UINT64,
    BinaryType.FLOAT32, BinaryType.FLOAT64, BinaryType.STRING, BinaryType.BINARY,
    BinaryType.ARRAY, BinaryType.OBJECT, BinaryType.DATE, BinaryType.UUID]

theorem decodeValueF_INT8 (f b : Nat) (r : List Nat) :
    decodeValueF (f + 1) (BinaryType.INT8 :: b :: r) =
      some (.vnum (.int (twosToInt 1 (bytesToNatBE [b]))), r) := by
  simp [decodeValueF, BinaryType.NULL, BinaryType.UNDEFINED, BinaryType.TRUE,
    BinaryType.FALSE, BinaryType.INT8, BinaryType.INT16, BinaryType.INT32, BinaryType.INT64,
    BinaryType.UINT8, BinaryType.UINT16, BinaryType.UINT32, BinaryType.UINT64,
    BinaryType.FLOAT32, BinaryType.FLOAT64, BinaryType.STRING, BinaryType.BINARY,
    BinaryType.ARRAY, BinaryType.OBJECT, BinaryType.DATE, BinaryType.UUID]


theorem intToTwos_lt (w : Nat) (i : Int) : intToTwos w i < 2 ^ (8 * w) := by
  unfold intToTwos
  have hMN : ((2 ^ (8 * w) : Nat) : Int) = 2 ^ (8 * w) := by push_cast; rfl
  have hMpos : (0 : Int) < 2 ^ (8 * w) := by positivity
  have hnn : 0 ≤ i % ((2 ^ (8 * w) : Nat) : Int) :=
    Int.emod_nonneg i (by rw [hMN]; exact hMpos.ne')
  have hlt : i % ((2 ^ (8 * w) : Nat) : Int) < ((2 ^ (8 * w) : Nat) : Int) :=
    Int.emod_lt_of_pos i (by rw [hMN]; exact hMpos)
  omega

theorem writeVarint_pos (n : Nat) (lb : List Nat) (h : writeVarint n = some lb) :
    1 ≤ lb.length := by
  unfold writeVarint at h
  split at h
  · cases h; simp
  · split at h
    · cases h; simp
    · split at h
      · cases h; simp
      · exact absurd h (by simp)

theorem natToBytesBE_one (x : Nat) : natToBytesBE 1 x = [x % 256] := by
  simp [natToBytesBE]

theorem bytesToNatBE_one (x : Nat) : bytesToNatBE [x] = x := by
  simp [bytesToNatBE]

theorem intToF64bits_lt (i : Int) (h : f64RepInt i = true) : intToF64bits i < 2 ^ 64 := by
  by_cases hz : i = 0
  · subst hz
    decide
  · have hn1 : 1 ≤ i.natAbs := by
      have := Int.natAbs_pos.mpr hz
      omega
    obtain ⟨hlo, hhi⟩ := nlog2_spec i.natAbs hn1
    obtain ⟨h1024, _⟩ := f64RepInt_bounds i h
    have ht1023 : nlog2 i.natAbs ≤ 1023 := by
      by_contra hc
      have : 2 ^ 1024 ≤ 2 ^ nlog2 i.natAbs := Nat.pow_le_pow_right (by omega) (by omega)
      omega
    unfold intToF64bits
    rw [if_neg hz]
    by_cases ht : nlog2 i.natAbs ≤ 52
    · rw [if_pos ht]
      have hpow53 : 2 ^ (nlog2 i.natAbs + 1) * 2 ^ (52 - nlog2 i.natAbs) = 2 ^ 53 := by
        rw [← pow_add]
        congr 1
        omega
      have hmhi : i.natAbs * 2 ^ (52 - nlog2 i.natAbs) < 2 ^ 53 := by
        calc i.natAbs * 2 ^ (52 - nlog2 i.natAbs)
            < 2 ^ (nlog2 i.natAbs + 1) * 2 ^ (52 - nlog2 i.natAbs) :=
              (Nat.mul_lt_mul_right (Nat.pos_pow_of_pos _ (by omega))).mpr hhi
          _ = 2 ^ 53 := hpow53
      have hs : (if i < 0 then 1 else 0) ≤ 1 := by split <;> omega
      omega
    · rw [if_neg ht]
      have hpos : 0 < 2 ^ (nlog2 i.natAbs - 52) := Nat.pos_pow_of_pos _ (by omega)
      have hpow53 : 2 ^ (nlog2 i.natAbs - 52) * 2 ^ 53 = 2 ^ (nlog2 i.natAbs + 1) := by
        rw [← pow_add]
        congr 1
        omega
      have hmhi : i.natAbs / 2 ^ (nlog2 i.natAbs - 52) < 2 ^ 53 := by
        rw [Nat.div_lt_iff_lt_mul hpos]
        calc i.natAbs < 2 ^ (nlog2 i.natAbs + 1) := hhi
          _ = 2 ^ (nlog2 i.natAbs - 52) * 2 ^ 53 := hpow53.symm
          _ = 2 ^ 53 * 2 ^ (nlog2 i.natAbs - 52) := by ring
      have hs : (if i < 0 then 1 else 0) ≤ 1 := by split <;> omega
      omega

theorem decodeStringB_spec (s : String) (lb rest : List Nat)
    (hlb : writeVarint (utf8Encode s).length = some lb) :
    decodeStringB (lb ++ (utf8Encode s ++ rest)) = some (s, rest) := by
  simp only [decodeStringB]
  rw [readVarint_writeVarint _ _ _ hlb]
  simp only [Option.bind_eq_bind, Option.some_bind]
  rw [if_pos (by simp)]
  rw [List.take_left' rfl, List.drop_left' rfl]
  rw [utf8Decode_utf8Encode]
  rfl



theorem encodeValue_pos : ∀ (v : Value) (bs : List Nat),
    encodeValue v = some bs → 1 ≤ bs.length := by
  intro v bs h
  cases v with
  | vnull => simp only [encodeValue] at h; obtain rfl := Option.some.inj h; simp
  | vundef => simp only [encodeValue] at h; obtain rfl := Option.some.inj h; simp
  | vbool b => simp only [encodeValue] at h; obtain rfl := Option.some.inj h; simp
  | vnum n =>
    simp only [encodeValue] at h
    obtain rfl := Option.some.inj h
    cases n with
    | int i =>
      simp only [encodeNumber]
      repeat' split
      all_goals simp
    | f32 b => simp [encodeNumber]
    | f64 b => simp [encodeNumber]
  | vbigint i =>
    simp only [encodeValue] at h
    obtain rfl := Option.some.inj h
    simp only [encodeBigInt]
    split <;> simp
  | vstr s =>
    simp only [encodeValue, encodeString] at h
    rcases hw : writeVarint (utf8Encode s).length with _ | lb
    · rw [hw] at h; exact absurd h (by simp)
    · rw [hw] at h
      simp only [Option.bind_eq_bind, Option.some_bind] at h
      obtain rfl := Option.some.inj h
      simp
  | vbin bv =>
    simp only [encodeValue] at h
    rcases hw : writeVarint bv.length with _ | lb
    · rw [hw] at h; exact absurd h (by simp)
    · rw [hw] at h
      simp only [Option.bind_eq_bind, Option.some_bind] at h
      obtain rfl := Option.some.inj h
      simp
  | vdate ms =>
    simp only [encodeValue] at h
    obtain rfl := Option.some.inj h
    simp
  | varr vs =>
    simp only [encodeValue] at h
    rcases hw : writeVarint vs.length with _ | lb
    · rw [hw] at h; exact absurd h (by simp)
    · rw [hw] at h
      rcases hb : encodeValueL vs with _ | body
      · rw [hb] at h; exact absurd h (by simp)
      · rw [hb] at h
        simp only [Option.bind_eq_bind, Option.some_bind] at h
        obtain rfl := Option.some.inj h
        simp
  | vobj fs =>
    simp only [encodeValue] at h
    rcases hw : writeVarint fs.length with _ | lb
    · rw [hw] at h; exact absurd h (by simp)
    · rw [hw] at h
      rcases hb : encodeObjL fs with _ | body
      · rw [hb] at h; exact absurd h (by simp)
      · rw [hb] at h
        simp only [Option.bind_eq_bind, Option.some_bind] at h
        obtain rfl := Option.some.inj h
        simp


theorem decodeValueLF_succ (f count : Nat) (bs : List Nat) :
    decodeValueLF (f + 1) (count + 1) bs =
      (decodeValueF f bs).bind fun p =>
        (decodeValueLF f count p.2).bind fun q => some (.cons p.1 q.1, q.2) := by
  rfl
theorem decodeObjLF_succ (f count : Nat) (bs : List Nat) :
    decodeObjLF (f + 1) (count + 1) bs =
      (match bs with
       | [] => none
       | kt :: krest =>
         if kt = BinaryType.STRING then
           (decodeStringB krest).bind fun p =>
             (decodeValueF f p.2).bind fun q =>
               (decodeObjLF f count q.2).bind fun r => some (.cons p.1 q.1 r.1, r.2)
         else none) := by
  rfl

mutual
theorem encodeValue_roundtrip : ∀ (v : Value) (f : Nat) (bs rest : List Nat),
    valueWF v = true → encodeValue v = some bs → bs.length ≤ f →
    decodeValueF f (bs ++ rest) = some (v, rest)
  | .vnull, f, bs, rest, hwf, henc, hlen => by
    simp only [encodeValue] at henc
    obtain rfl := Option.some.inj henc
    obtain ⟨f, rfl⟩ : ∃ g, f = g + 1 := ⟨f - 1, by simp only [List.length_cons] at hlen; omega⟩
    simp only [List.cons_append, List.nil_append]
    exact decodeValueF_NULL f rest
  | .vundef, f, bs, rest, hwf, henc, hlen => by
    simp only [encodeValue] at henc
    obtain rfl := Option.some.inj henc
    obtain ⟨f, rfl⟩ : ∃ g, f = g + 1 := ⟨f - 1, by simp only [List.length_cons] at hlen; omega⟩
    simp only [List.cons_append, List.nil_append]
    exact decodeValueF_UNDEF f rest
  | .vbool b, f, bs, rest, hwf, henc, hlen => by
    simp only [encodeValue] at henc
    obtain rfl := Option.some.inj henc
    obtain ⟨f, rfl⟩ : ∃ g, f = g + 1 := ⟨f - 1, by
      cases b <;> simp at hlen <;> omega⟩
    cases b
    · simp only [Bool.false_eq_true, if_false, List.cons_append, List.nil_append]
      exact decodeValueF_FALSE f rest
    · simp only [if_true, List.cons_append, List.nil_append]
      exact decodeValueF_TRUE f rest
  | .vdate ms, f, bs, rest, hwf, henc, hlen => by
    simp only [encodeValue] at henc
    obtain rfl := Option.some.inj henc
    obtain ⟨f, rfl⟩ : ∃ g, f = g + 1 := ⟨f - 1, by simp only [List.length_cons] at hlen; omega⟩
    simp only [List.cons_append]
    rw [decodeValueF_DATE]
    rw [if_pos (by simp [intToBytesBE, natToBytesBE_length])]
    rw [List.take_left' (by simp [intToBytesBE, natToBytesBE_length]),
      List.drop_left' (by simp [intToBytesBE, natToBytesBE_length])]
    have hb : ms.natAbs ≤ 8640000000000000 := of_decide_eq_true hwf
    rw [show twosToInt 8 (bytesToNatBE (intToBytesBE 8 ms)) = ms from
      bytesToIntBE_intToBytesBE 8 ms (by norm_num) (by norm_num; omega) (by norm_num; omega)]
  | .vnum n, f, bs, rest, hwf, henc, hlen => by
    simp only [encodeValue] at henc
    obtain rfl := Option.some.inj henc
    cases n with
    | int i =>
      simp only [encodeNumber] at hlen ⊢
      by_cases h8 : -128 ≤ i ∧ i ≤ 127
      · rw [if_pos h8] at hlen ⊢
        obtain ⟨f, rfl⟩ : ∃ g, f = g + 1 := ⟨f - 1, by simp only [List.length_cons] at hlen; omega⟩
        have hb1 : intToBytesBE 1 i = [intToTwos 1 i] := by
          rw [intToBytesBE, natToBytesBE_one,
            Nat.mod_eq_of_lt (by have := intToTwos_lt 1 i; norm_num at this ⊢; omega)]
        rw [hb1]
        simp only [List.cons_append, List.nil_append]
        rw [decodeValueF_INT8, bytesToNatBE_one,
          twosToInt_intToTwos 1 i (by norm_num) (by norm_num; omega) (by norm_num; omega)]
      · rw [if_neg h8] at hlen ⊢
        by_cases h16 : -32768 ≤ i ∧ i ≤ 32767
        · rw [if_pos h16] at hlen ⊢
          obtain ⟨f, rfl⟩ : ∃ g, f = g + 1 := ⟨f - 1, by simp only [List.length_cons] at hlen; omega⟩
          simp only [List.cons_append]
          rw [decodeValueF_INT16]
          rw [if_pos (by simp [intToBytesBE, natToBytesBE_length])]
          rw [List.take_left' (by simp [intToBytesBE, natToBytesBE_length]),
            List.drop_left' (by simp [intToBytesBE, natToBytesBE_length])]
          rw [show twosToInt 2 (bytesToNatBE (intToBytesBE 2 i)) = i from
            bytesToIntBE_intToBytesBE 2 i (by norm_num) (by norm_num; omega)
              (by norm_num; omega)]
        · rw [if_neg h16] at hlen ⊢
          by_cases h32 : -2147483648 ≤ i ∧ i ≤ 2147483647
          · rw [if_pos h32] at hlen ⊢
            obtain ⟨f, rfl⟩ : ∃ g, f = g + 1 := ⟨f - 1, by simp only [List.length_cons] at hlen; omega⟩
            simp only [List.cons_append]
            rw [decodeValueF_INT32]
            rw [if_pos (by simp [intToBytesBE, natToBytesBE_length])]
            rw [List.take_left' (by simp [intToBytesBE, natToBytesBE_length]),
              List.drop_left' (by simp [intToBytesBE, natToBytesBE_length])]
            rw [show twosToInt 4 (bytesToNatBE (intToBytesBE 4 i)) = i from
              bytesToIntBE_intToBytesBE 4 i (by norm_num) (by norm_num; omega)
                (by norm_num; omega)]
          · rw [if_neg h32] at hlen ⊢
            obtain ⟨f, rfl⟩ : ∃ g, f = g + 1 := ⟨f - 1, by simp only [List.length_cons] at hlen; omega⟩
            simp only [List.cons_append]
            rw [decodeValueF_FLOAT64]
            rw [if_pos (by simp [natToBytesBE_length])]
            rw [List.take_left' (natToBytesBE_length _ _),
              List.drop_left' (natToBytesBE_length _ _)]
            rw [bytesToNatBE_natToBytesBE,
              Nat.mod_eq_of_lt (intToF64bits_lt i hwf),
              classify64_intToF64bits i hwf]
    | f32 b =>
      have hwf2 := hwf
      simp only [valueWF, Bool.and_eq_true] at hwf2
      obtain ⟨hb32, hcl⟩ := hwf2
      have hb32' : b < 2 ^ 32 := of_decide_eq_true hb32
      have hcl' : classify32 b = .f32 b := by simpa using hcl
      simp only [encodeNumber] at hlen ⊢
      obtain ⟨f, rfl⟩ : ∃ g, f = g + 1 := ⟨f - 1, by simp only [List.length_cons] at hlen; omega⟩
      simp only [List.cons_append]
      rw [decodeValueF_FLOAT32]
      rw [if_pos (by simp [natToBytesBE_length])]
      rw [List.take_left' (natToBytesBE_length _ _), List.drop_left' (natToBytesBE_length _ _)]
      rw [bytesToNatBE_natToBytesBE, Nat.mod_eq_of_lt hb32', hcl']
    | f64 b =>
      have hwf2 := hwf
      simp only [valueWF, Bool.and_eq_true] at hwf2
      obtain ⟨hb64, hcl⟩ := hwf2
      have hb64' : b < 2 ^ 64 := of_decide_eq_true hb64
      have hcl' : classify64 b = .f64 b := by simpa using hcl
      simp only [encodeNumber] at hlen ⊢
      obtain ⟨f, rfl⟩ : ∃ g, f = g + 1 := ⟨f - 1, by simp only [List.length_cons] at hlen; omega⟩
      simp only [List.cons_append]
      rw [decodeValueF_FLOAT64]
      rw [if_pos (by simp [natToBytesBE_length])]
      rw [List.take_left' (natToBytesBE_length _ _), List.drop_left' (natToBytesBE_length _ _)]
      rw [bytesToNatBE_natToBytesBE, Nat.mod_eq_of_lt hb64', hcl']
  | .vbigint i, f, bs, rest, hwf, henc, hlen => by
    simp only [encodeValue, encodeBigInt] at henc
    by_cases hpos : 0 ≤ i
    · rw [if_pos hpos] at henc
      obtain rfl := Option.some.inj henc
      have hlt : i < 2 ^ 64 := of_decide_eq_true (by
        have := hwf
        simp only [valueWF] at this
        rw [if_pos hpos] at this
        exact this)
      obtain ⟨f, rfl⟩ : ∃ g, f = g + 1 := ⟨f - 1, by simp only [List.length_cons] at hlen; omega⟩
      simp only [List.cons_append]
      rw [decodeValueF_UINT64]
      rw [if_pos (by simp [natToBytesBE_length])]
      rw [List.take_left' (natToBytesBE_length _ _), List.drop_left' (natToBytesBE_length _ _)]
      rw [bytesToNatBE_natToBytesBE]
      have hval : ((((i % ((2 ^ 64 : Nat) : Int)).toNat % 2 ^ 64 : Nat)) : Int) = i := by
        have h64 : ((2 ^ 64 : Nat) : Int) = 2 ^ 64 := by norm_num
        omega
      rw [hval]
    · rw [if_neg hpos] at henc
      obtain rfl := Option.some.inj henc
      have hge : -(2 ^ 63) ≤ i := of_decide_eq_true (by
        have := hwf
        simp only [valueWF] at this
        rw [if_neg hpos] at this
        exact this)
      obtain ⟨f, rfl⟩ : ∃ g, f = g + 1 := ⟨f - 1, by simp only [List.length_cons] at hlen; omega⟩
      simp only [List.cons_append]
      rw [decodeValueF_INT64]
      rw [if_pos (by simp [intToBytesBE, natToBytesBE_length])]
      rw [List.take_left' (by simp [intToBytesBE, natToBytesBE_length]),
        List.drop_left' (by simp [intToBytesBE, natToBytesBE_length])]
      rw [show twosToInt 8 (bytesToNatBE (intToBytesBE 8 i)) = i from
        bytesToIntBE_intToBytesBE 8 i (by norm_num) (by norm_num; omega) (by norm_num; omega)]
  | .vstr s, f, bs, rest, hwf, henc, hlen => by
    simp only [encodeValue, encodeString] at henc
    rcases hw : writeVarint (utf8Encode s).length with _ | lb
    · rw [hw] at henc; exact absurd henc (by simp)
    rw [hw] at henc
    simp only [Option.bind_eq_bind, Option.some_bind] at henc
    obtain rfl := Option.some.inj henc
    obtain ⟨f, rfl⟩ : ∃ g, f = g + 1 := ⟨f - 1, by simp only [List.length_cons] at hlen; omega⟩
    simp only [List.cons_append, List.append_assoc]
    rw [decodeValueF_STRING, decodeStringB_spec s lb rest hw]
    rfl
  | .vbin bv, f, bs, rest, hwf, henc, hlen => by
    simp only [encodeValue] at henc
    rcases hw : writeVarint bv.length with _ | lb
    · rw [hw] at henc; exact absurd henc (by simp)
    rw [hw] at henc
    simp only [Option.bind_eq_bind, Option.some_bind] at henc
    obtain rfl := Option.some.inj henc
    obtain ⟨f, rfl⟩ : ∃ g, f = g + 1 := ⟨f - 1, by simp only [List.length_cons] at hlen; omega⟩
    simp only [List.cons_append, List.append_assoc]
    rw [decodeValueF_BINARY, readVarint_writeVarint _ _ _ hw]
    simp only [Option.some_bind]
    rw [if_pos (by simp)]
    rw [List.take_left' rfl, List.drop_left' rfl]
  | .varr vs, f, bs, rest, hwf, henc, hlen => by
    simp only [encodeValue] at henc
    rcases hw : writeVarint vs.length with _ | lb
    · rw [hw] at henc; exact absurd henc (by simp)
    rw [hw] at henc
    rcases hb : encodeValueL vs with _ | body
    · rw [hb] at henc; exact absurd henc (by simp)
    rw [hb] at henc
    simp only [Option.bind_eq_bind, Option.some_bind] at henc
    obtain rfl := Option.some.inj henc
    obtain ⟨f, rfl⟩ : ∃ g, f = g + 1 := ⟨f - 1, by simp only [List.length_cons] at hlen; omega⟩
    have hlb1 : 1 ≤ lb.length := writeVarint_pos _ _ hw
    simp only [List.cons_append, List.append_assoc]
    rw [decodeValueF_ARRAY, readVarint_writeVarint _ _ _ hw]
    simp only [Option.some_bind]
    rw [encodeValueL_roundtrip vs f body rest hwf hb (by simp at hlen; omega)]
    rfl
  | .vobj fs, f, bs, rest, hwf, henc, hlen => by
    have hwf2 : objLWF fs = true := by
      have := hwf
      simp only [valueWF, Bool.and_eq_true] at this
      exact this.1
    simp only [encodeValue] at henc
    rcases hw : writeVarint fs.length with _ | lb
    · rw [hw] at henc; exact absurd henc (by simp)
    rw [hw] at henc
    rcases hb : encodeObjL fs with _ | body
    · rw [hb] at henc; exact absurd henc (by simp)
    rw [hb] at henc
    simp only [Option.bind_eq_bind, Option.some_bind] at henc
    obtain rfl := Option.some.inj henc
    obtain ⟨f, rfl⟩ : ∃ g, f = g + 1 := ⟨f - 1, by simp only [List.length_cons] at hlen; omega⟩
    have hlb1 : 1 ≤ lb.length := writeVarint_pos _ _ hw
    simp only [List.cons_append, List.append_assoc]
    rw [decodeValueF_OBJECT, readVarint_writeVarint _ _ _ hw]
    simp only [Option.some_bind]
    rw [encodeObjL_roundtrip fs f body rest hwf2 hb (by simp at hlen; omega)]
    rfl

theorem encodeValueL_roundtrip : ∀ (vs : ValueL) (f : Nat) (body rest : List Nat),
    valueLWF vs = true → encodeValueL vs = some body → body.length < f →
    decodeValueLF f vs.length (body ++ rest) = some (vs, rest)
  | .nil, f, body, rest, hwf, henc, hlen => by
    simp only [encodeValueL] at henc
    obtain rfl := Option.some.inj henc
    simp only [ValueL.length, List.nil_append]
    cases f <;> rfl
  | .cons v tl, f, body, rest, hwf, henc, hlen => by
    simp only [valueLWF, Bool.and_eq_true] at hwf
    obtain ⟨hwf1, hwf2⟩ := hwf
    simp only [encodeValueL] at henc
    rcases hhd : encodeValue v with _ | hd
    · rw [hhd] at henc; exact absurd henc (by simp)
    rw [hhd] at henc
    rcases htl : encodeValueL tl with _ | tlb
    · rw [htl] at henc; exact absurd henc (by simp)
    rw [htl] at henc
    simp only [Option.bind_eq_bind, Option.some_bind] at henc
    obtain rfl := Option.some.inj henc
    have hpos := encodeValue_pos v hd hhd
    obtain ⟨f, rfl⟩ : ∃ g, f = g + 1 := ⟨f - 1, by omega⟩
    simp only [ValueL.length, List.append_assoc]
    simp only [decodeValueLF_succ]
    rw [encodeValue_roundtrip v f hd (tlb ++ rest) hwf1 hhd (by simp at hlen; omega)]
    simp only [Option.bind_eq_bind, Option.some_bind]
    rw [encodeValueL_roundtrip tl f tlb rest hwf2 htl (by simp at hlen; omega)]
    rfl

theorem encodeObjL_roundtrip : ∀ (fs : ObjL) (f : Nat) (body rest : List Nat),
    objLWF fs = true → encodeObjL fs = some body → body.length < f →
    decodeObjLF f fs.length (body ++ rest) = some (fs, rest)
  | .nil, f, body, rest, hwf, henc, hlen => by
    simp only [encodeObjL] at henc
    obtain rfl := Option.some.inj henc
    simp only [ObjL.length, List.nil_append]
    cases f <;> rfl
  | .cons k v tl, f, body, rest, hwf, henc, hlen => by
    simp only [objLWF, Bool.and_eq_true] at hwf
    obtain ⟨hwf1, hwf2⟩ := hwf
    simp only [encodeObjL] at henc
    rcases hkb : encodeString k with _ | kb
    · rw [hkb] at henc; exact absurd henc (by simp)
    rw [hkb] at henc
    rcases hvb : encodeValue v with _ | vb
    · rw [hvb] at henc; exact absurd henc (by simp)
    rw [hvb] at henc
    rcases htl : encodeObjL tl with _ | tlb
    · rw [htl] at henc; exact absurd henc (by simp)
    rw [htl] at henc
    simp only [Option.bind_eq_bind, Option.some_bind] at henc
    obtain rfl := Option.some.inj henc
    simp only [encodeString] at hkb
    rcases hklb : writeVarint (utf8Encode k).length with _ | klb
    · rw [hklb] at hkb; exact absurd hkb (by simp)
    rw [hklb] at hkb
    simp only [Option.bind_eq_bind, Option.some_bind] at hkb
    obtain rfl := (Option.some.inj hkb).symm
    have hklb1 : 1 ≤ klb.length := writeVarint_pos _ _ hklb
    obtain ⟨f, rfl⟩ : ∃ g, f = g + 1 := ⟨f - 1, by omega⟩
    simp only [ObjL.length, List.cons_append, List.append_assoc]
    simp only [decodeObjLF_succ]
    rw [if_pos trivial]
    rw [decodeStringB_spec k klb _ hklb]
    simp only [Option.bind_eq_bind, Option.some_bind]
    rw [encodeValue_roundtrip v f vb (tlb ++ rest) hwf1 hvb (by simp at hlen; omega)]
    simp only [Option.some_bind]
    rw [encodeObjL_roundtrip tl f tlb rest hwf2 htl (by simp at hlen; omega)]
    rfl
end


/-- Claim C1 (counterexample): a bigint just past the unsigned 64-bit range
round-trips to 0, not to itself — `setBigUint64` wraps modulo `2^64`. -/
theorem c1_counterexample_bigint_wrap :
    encode (.vbigint (2 ^ 64)) = some [23, 0, 0, 0, 0, 0, 0, 0, 0] ∧
    (encode (.vbigint (2 ^ 64))).bind decode = some (.vbigint 0, []) ∧
    (Value.vbigint (2 ^ 64)) ≠ .vbigint 0 := by
  refine ⟨by decide, by decide, by decide⟩

/-- Claim C1 (amended): for every representable value — numbers that are
actual doubles, bigints within the 64-bit encodings, byte-valued binary
blobs, dates in the JS range, objects with distinct keys — decoding the
encoding yields exactly the original value and consumes the whole buffer.
Bigints outside `[-(2^63), 2^64)` wrap (see the counterexample). -/
theorem c1_roundtrip_wf (v : Value) (bs : List Nat)
    (hwf : valueWF v = true) (henc : encode v = some bs) :
    decode bs = some (v, []) := by
  have h := encodeValue_roundtrip v (bs.length + 1) bs [] hwf henc (by omega)
  rw [List.append_nil] at h
  exact h

/-- Witness for C1 (amended): a composite object with a number, a non-ASCII
string, a boolean, a negative bigint, a date and a binary blob. -/
theorem c1_roundtrip_wf_witness :
    decode [80, 5, 48, 1, 97, 17, 1, 44, 48, 1, 98, 64, 2, 48, 3, 104, 195, 169, 2,
      48, 1, 99, 19, 255, 255, 255, 255, 255, 255, 255, 253, 48, 1, 100, 96, 0, 0,
      0, 0, 0, 0, 3, 232, 48, 1, 101, 49, 3, 1, 2, 3]
      = some (.vobj (.cons "a" (.vnum (.int 300))
          (.cons "b" (.varr (.cons (.vstr "hé") (.cons (.vbool true) .nil)))
            (.cons "c" (.vbigint (-3))
              (.cons "d" (.vdate 1000)
                (.cons "e" (.vbin [1, 2, 3]) .nil))))), []) :=
  c1_roundtrip_wf
    (.vobj (.cons "a" (.vnum (.int 300))
      (.cons "b" (.varr (.cons (.vstr "hé") (.cons (.vbool true) .nil)))
        (.cons "c" (.vbigint (-3))
          (.cons "d" (.vdate 1000)
            (.cons "e" (.vbin [1, 2, 3]) .nil))))))
    [80, 5, 48, 1, 97, 17, 1, 44, 48, 1, 98, 64, 2, 48, 3, 104, 195, 169, 2,
      48, 1, 99, 19, 255, 255, 255, 255, 255, 255, 255, 253, 48, 1, 100, 96, 0, 0,
      0, 0, 0, 0, 3, 232, 48, 1, 101, 49, 3, 1, 2, 3]
    (by decide) (by decide)


/-! ## C5 — numeric type selection on encode -/

/-- Claim C5 (counterexample): the first integer just past the INT32 range is
not given the 64-bit signed *integer* tag INT64 — nor any integer tag at
all — but FLOAT64. -/
theorem c5_counterexample_int64_tag :
    (encodeNumber (.int 2147483648)).headD 0 = BinaryType.FLOAT64 ∧
    (encodeNumber (.int 2147483648)).headD 0 ≠ BinaryType.INT64 ∧
    (encodeNumber (.int 2147483648)).headD 0 ∉
      [BinaryType.INT8, BinaryType.INT16, BinaryType.INT32, BinaryType.INT64,
       BinaryType.UINT8, BinaryType.UINT16, BinaryType.UINT32, BinaryType.UINT64] := by
  decide

/-- Claim C5 (amended): integer-valued numbers take the first of
INT8/INT16/INT32 whose range holds them; integers beyond the INT32 range
are emitted as FLOAT64 (tag 0x21, an 8-byte IEEE binary64 payload).
Non-integer reals take FLOAT32 (4-byte payload) exactly when
`Math.fround` preserves them — the `.f32` constructor — and FLOAT64
otherwise. -/
theorem c5_number_tag_selection (i : Int) (b32 b64 : Nat) :
    ((-128 ≤ i ∧ i ≤ 127) →
      (encodeNumber (.int i)).headD 0 = BinaryType.INT8 ∧
        (encodeNumber (.int i)).length = 2) ∧
    ((-32768 ≤ i ∧ i ≤ 32767) ∧ ¬(-128 ≤ i ∧ i ≤ 127) →
      (encodeNumber (.int i)).headD 0 = BinaryType.INT16 ∧
        (encodeNumber (.int i)).length = 3) ∧
    ((-2147483648 ≤ i ∧ i ≤ 2147483647) ∧ ¬(-32768 ≤ i ∧ i ≤ 32767) →
      (encodeNumber (.int i)).headD 0 = BinaryType.INT32 ∧
        (encodeNumber (.int i)).length = 5) ∧
    (¬(-2147483648 ≤ i ∧ i ≤ 2147483647) →
      (encodeNumber (.int i)).headD 0 = BinaryType.FLOAT64 ∧
        (encodeNumber (.int i)).length = 9) ∧
    ((encodeNumber (.f32 b32)).headD 0 = BinaryType.FLOAT32 ∧
      (encodeNumber (.f32 b32)).length = 5) ∧
    ((encodeNumber (.f64 b64)).headD 0 = BinaryType.FLOAT64 ∧
      (encodeNumber (.f64 b64)).length = 9) := by
  refine ⟨?_, ?_, ?_, ?_, ?_, ?_⟩
  · intro h
    simp [encodeNumber, if_pos h, intToBytesBE, natToBytesBE_length]
  · intro ⟨h2, h1⟩
    simp [encodeNumber, if_neg h1, if_pos h2, intToBytesBE, natToBytesBE_length]
  · intro ⟨h3, h2⟩
    have h1 : ¬(-128 ≤ i ∧ i ≤ 127) := by omega
    simp [encodeNumber, if_neg h1, if_neg h2, if_pos h3, intToBytesBE, natToBytesBE_length]
  · intro h3
    have h1 : ¬(-128 ≤ i ∧ i ≤ 127) := by omega
    have h2 : ¬(-32768 ≤ i ∧ i ≤ 32767) := by omega
    simp [encodeNumber, if_neg h1, if_neg h2, if_neg h3, natToBytesBE_length]
  · simp [encodeNumber, natToBytesBE_length]
  · simp [encodeNumber, natToBytesBE_length]

/-- Witness for C5 at concrete inputs from three branches. -/
theorem c5_number_tag_selection_witness :
    ((-32768 ≤ (300 : Int) ∧ (300 : Int) ≤ 32767) ∧ ¬(-128 ≤ (300 : Int) ∧ (300 : Int) ≤ 127)) ∧
    ((encodeNumber (.int 300)).headD 0 = BinaryType.INT16 ∧
      (encodeNumber (.int 300)).length = 3) ∧
    ((encodeNumber (.int 2147483648)).headD 0 = BinaryType.FLOAT64 ∧
      (encodeNumber (.int 2147483648)).length = 9) :=
  ⟨by decide, (c5_number_tag_selection 300 0 0).2.1 ⟨by decide, by decide⟩,
    (c5_number_tag_selection 2147483648 0 0).2.2.2.1 (by decide)⟩

/-! ## C9 — start never leaves the status at `starting` -/

/-- Claim C9 (counterexample): with a socket that never appears within the
timeout, `startProject` still finishes by setting the status to `running`
(with the child pid), not leaving it `starting`. -/
theorem c9_counterexample_running_without_socket :
    startProject true false 123 (fun _ => false) 10000 =
      .ok ⟨[(.starting, none), (.running, some 123)], true, true⟩ ∧
    waitForSocket (fun _ => false) 10000 = false ∧
    (ProjectStatus.running ≠ ProjectStatus.starting) :=
  ⟨rfl, by decide, by decide⟩

/-- Claim C9 (amended): when the project exists and is not already running,
`startProject` records the handle and always ends with
`updateProjectStatus(id, "running", pid)`, whether or not the socket was
observed; the only effect of the poll timing out is the warning.  Missing
or already-running projects fail up front. -/
theorem c9_start_outcome (pid maxWait : Nat) (socketUp : Nat → Bool) :
    startProject true false pid socketUp maxWait =
      .ok { statusUpdates := [(.starting, none), (.running, some pid)],
            handleRecorded := true,
            warned := ¬ waitForSocket socketUp maxWait } ∧
    startProject false false pid socketUp maxWait = .error "Project not found" ∧
    startProject true true pid socketUp maxWait = .error "Project already running" :=
  ⟨rfl, rfl, rfl⟩

/-! ## C8 — forwarded headers -/

theorem mapGet_mapSet_self {α : Type} (h : List (String × α)) (k : String) (v : α) :
    mapGet (mapSet h k v) k = some v := by
  induction h with
  | nil => simp [mapSet, mapGet]
  | cons e tl ih =>
    by_cases he : e.1 = k
    · simp [mapSet, mapGet, he]
    · simp [mapSet, mapGet, he, ih]

theorem mapGet_mapSet_ne {α : Type} (h : List (String × α)) (k k' : String) (v : α)
    (hne : k' ≠ k) : mapGet (mapSet h k v) k' = mapGet h k' := by
  induction h with
  | nil =>
    simp only [mapSet, mapGet]
    rw [if_neg (Ne.symm hne)]
  | cons e tl ih =>
    by_cases he : e.1 = k
    · simp [mapSet, mapGet, he, Ne.symm hne, hne]
    · by_cases he' : e.1 = k' <;> simp [mapSet, mapGet, he, he', ih, hne]

/-- Claim C8 (counterexample): a request with no inbound `X-Forwarded-For`
but a known socket peer is forwarded with `X-Forwarded-For: unknown` — the
peer address is never consulted. -/
theorem c8_counterexample_peer_ignored :
    forwardedForHeader ⟨"https", "a.test", [("host", "a.test")]⟩ (some "203.0.113.9")
      = "unknown" ∧
    "unknown" ≠ "203.0.113.9" := by
  exact ⟨rfl, by decide⟩

/-- Claim C8 (amended): `X-Forwarded-For` is the trimmed leftmost entry of a
present non-empty inbound `X-Forwarded-For`, else the literal "unknown"
(the socket peer plays no part); `X-Forwarded-Host` is the inbound host and
`X-Forwarded-Proto` the inbound scheme, all three overwritten on the
forwarded header set. -/
theorem c8_forwarded_headers (req : ProxyRequest) (peer : Option String) :
    (headersGet req.headers "x-forwarded-for" = none →
      forwardedForHeader req peer = "unknown") ∧
    (headersGet req.headers "x-forwarded-for" = some "" →
      forwardedForHeader req peer = "unknown") ∧
    (∀ ff, headersGet req.headers "x-forwarded-for" = some ff → ff ≠ "" →
      forwardedForHeader req peer = jsTrim (String.mk (beforeComma ff.data))) ∧
    headersGet (forwardHeaders req peer) "x-forwarded-host" = some req.host ∧
    headersGet (forwardHeaders req peer) "x-forwarded-proto" = some req.scheme ∧
    headersGet (forwardHeaders req peer) "x-forwarded-for"
      = some (forwardedForHeader req peer) := by
  refine ⟨?_, ?_, ?_, ?_, ?_, ?_⟩
  · intro h
    simp [forwardedForHeader, getClientIP, h]
  · intro h
    simp [forwardedForHeader, getClientIP, h]
  · intro ff hff hne
    simp [forwardedForHeader, getClientIP, hff, hne]
  · unfold forwardHeaders headersGet
    exact mapGet_mapSet_self _ _ _
  · unfold forwardHeaders headersGet
    rw [mapGet_mapSet_ne _ "x-forwarded-host" "x-forwarded-proto" _ (by decide)]
    exact mapGet_mapSet_self _ _ _
  · unfold forwardHeaders headersGet
    rw [mapGet_mapSet_ne _ "x-forwarded-host" "x-forwarded-for" _ (by decide),
        mapGet_mapSet_ne _ "x-forwarded-proto" "x-forwarded-for" _ (by decide)]
    exact mapGet_mapSet_self _ _ _

/-- Witness for C8: a present two-entry header yields its trimmed head. -/
theorem c8_forwarded_headers_witness :
    forwardedForHeader ⟨"https", "a.test", [("x-forwarded-for", "1.2.3.4, 5.6.7.8")]⟩ none
      = "1.2.3.4" := by
  have h := (c8_forwarded_headers
    ⟨"https", "a.test", [("x-forwarded-for", "1.2.3.4, 5.6.7.8")]⟩ none).2.2.1
    "1.2.3.4, 5.6.7.8" rfl (by decide)
  rw [h]
  decide

/-! ## Key-comparison order theory -/

theorem cmpBytes_succ (n : Nat) (a b : List Nat) :
    cmpBytes (n + 1) a b =
      if (a.headD 0 : Nat) ≠ b.headD 0 then ((a.headD 0 : Int) - b.headD 0)
      else cmpBytes n a.tail b.tail := rfl

theorem cmpBytes_refl (n : Nat) (a : List Nat) : cmpBytes n a a = 0 := by
  induction n generalizing a with
  | zero => rfl
  | succ n ih =>
    rw [cmpBytes_succ, if_neg (by omega)]
    exact ih a.tail

theorem cmpBytes_neg (n : Nat) (a b : List Nat) : cmpBytes n a b = -cmpBytes n b a := by
  induction n generalizing a b with
  | zero => rfl
  | succ n ih =>
    rw [cmpBytes_succ, cmpBytes_succ]
    by_cases h : (a.headD 0 : Nat) = b.headD 0
    · rw [if_neg (by omega), if_neg (by omega)]
      exact ih a.tail b.tail
    · rw [if_pos (by omega), if_pos (by omega)]
      omega

theorem cmpBytes_lt_trans (n : Nat) (a b c : List Nat)
    (hab : cmpBytes n a b < 0) (hbc : cmpBytes n b c < 0) : cmpBytes n a c < 0 := by
  induction n generalizing a b c with
  | zero => simp [cmpBytes] at hab
  | succ n ih =>
    rw [cmpBytes_succ] at hab hbc
    rw [cmpBytes_succ]
    by_cases h1 : (a.headD 0 : Nat) = b.headD 0 <;>
      by_cases h2 : (b.headD 0 : Nat) = c.headD 0
    · rw [if_neg (by omega)] at hab hbc
      rw [if_neg (by omega)]
      exact ih _ _ _ hab hbc
    · rw [if_neg (by omega)] at hab
      rw [if_pos (by omega)] at hbc
      rw [if_pos (by omega)]
      rw [h1]
      omega
    · rw [if_pos (by omega)] at hab
      rw [if_neg (by omega)] at hbc
      rw [if_pos (by omega)]
      rw [← h2]
      omega
    · rw [if_pos (by omega)] at hab
      rw [if_pos (by omega)] at hbc
      rw [if_pos (by omega)]
      omega

theorem cmpBytes_zero_congr (n : Nat) (a b c : List Nat)
    (hab : cmpBytes n a b = 0) : cmpBytes n a c = cmpBytes n b c := by
  induction n generalizing a b c with
  | zero => rfl
  | succ n ih =>
    rw [cmpBytes_succ] at hab
    rw [cmpBytes_succ, cmpBytes_succ]
    by_cases h1 : (a.headD 0 : Nat) = b.headD 0
    · rw [if_neg (by omega)] at hab
      by_cases h2 : (b.headD 0 : Nat) = c.headD 0
      · rw [if_neg (by omega), if_neg (by omega)]
        exact ih _ _ _ hab
      · rw [if_pos (by omega), if_pos (by omega), h1]
    · rw [if_pos (by omega)] at hab
      omega

theorem compareUUID_refl (a : List Nat) : compareUUID a a = 0 := cmpBytes_refl _ _

theorem compareUUID_neg (a b : List Nat) : compareUUID a b = -compareUUID b a :=
  cmpBytes_neg _ _ _

theorem compareUUID_lt_trans {a b c : List Nat}
    (hab : compareUUID a b < 0) (hbc : compareUUID b c < 0) : compareUUID a c < 0 :=
  cmpBytes_lt_trans _ _ _ _ hab hbc

theorem compareUUID_zero_congr {a b : List Nat} (c : List Nat)
    (hab : compareUUID a b = 0) : compareUUID a c = compareUUID b c :=
  cmpBytes_zero_congr _ _ _ _ hab

theorem cmpBytes_eq_of_zero (n : Nat) (a b : List Nat)
    (h : cmpBytes n a b = 0) (ha : a.length = n) (hb : b.length = n) : a = b := by
  induction n generalizing a b with
  | zero =>
    cases a with
    | nil => cases b with
      | nil => rfl
      | cons _ _ => simp at hb
    | cons _ _ => simp at ha
  | succ n ih =>
    cases a with
    | nil => simp at ha
    | cons a0 atl =>
      cases b with
      | nil => simp at hb
      | cons b0 btl =>
        rw [cmpBytes] at h
        by_cases h0 : (List.headD (a0 :: atl) 0 : Nat) = List.headD (b0 :: btl) 0
        · rw [if_neg (by omega)] at h
          simp only [List.headD] at h0
          simp only [List.tail] at h
          rw [h0, ih atl btl h (by simpa using ha) (by simpa using hb)]
        · rw [if_pos (by exact_mod_cast h0)] at h
          simp only [List.headD] at h h0
          omega

/-- Keys of length 16 that compare equal are equal. -/
theorem compareUUID_eq_of_zero {a b : List Nat}
    (h : compareUUID a b = 0) (ha : a.length = 16) (hb : b.length = 16) : a = b :=
  cmpBytes_eq_of_zero 16 a b h ha hb

/-! ## C3 — B-tree laws

The concrete counterexample below exercises an order-3 tree (the
`BTreeIndex` constructor takes the order; the default is 64 and the
duplication is the same at any order): inserting three keys splits the
leaf, which *copies* the promoted key into the parent while keeping it in
the right half.  After that, `entries()` repeats the key, `delete` then
`get` returns the stale copy, and a second `delete` of the same key drives
`size` below the number of live keys. -/

/-- Claim C3 (counterexample): after a leaf split at order 3 with keys
k1 < k2 < k3, (a) `entries()` lists the promoted key k2 twice, (b) after
`delete(k2)`, `get(k2)` still returns the old value instead of nothing,
and (c) deleting k2 twice leaves `size() = 1` although k1 and k3 are both
live. -/
theorem c3_counterexample_split_laws :
    ((((((BTree.empty 3).set (1 :: List.replicate 15 0) 10).set
        (2 :: List.replicate 15 0) 20).set
        (3 :: List.replicate 15 0) 30).entries.map Prod.fst)
      = [1 :: List.replicate 15 0, 2 :: List.replicate 15 0,
         2 :: List.replicate 15 0, 3 :: List.replicate 15 0]) ∧
    ((((((BTree.empty 3).set (1 :: List.replicate 15 0) 10).set
        (2 :: List.replicate 15 0) 20).set
        (3 :: List.replicate 15 0) 30).delete (2 :: List.replicate 15 0)).1.get
        (2 :: List.replicate 15 0) = some 20) ∧
    (some 20 ≠ (none : Option Nat)) ∧
    (((((((BTree.empty 3).set (1 :: List.replicate 15 0) 10).set
        (2 :: List.replicate 15 0) 20).set
        (3 :: List.replicate 15 0) 30).delete (2 :: List.replicate 15 0)).1.delete
        (2 :: List.replicate 15 0)).1.counter = 1) := by
  refine ⟨by decide, by decide, by decide, by decide⟩

theorem searchLeafGo_spec {T : Type} (k : Key) (g : List (Key × T)) :
    searchLeafGo k (g.map Prod.fst) (g.map Prod.snd) = specGet k g := by
  induction g with
  | nil => rfl
  | cons p tl ih => simp only [List.map_cons, searchLeafGo, specGet, ih]

theorem insertLeafGo_spec {T : Type} (k : Key) (v : T) (g : List (Key × T)) :
    insertLeafGo k v (g.map Prod.fst) (g.map Prod.snd) =
      ((specSet k v g).map Prod.fst, (specSet k v g).map Prod.snd,
        (specGet k g).isSome) := by
  induction g with
  | nil => rfl
  | cons p tl ih =>
    simp only [List.map_cons, insertLeafGo, specSet, specGet]
    by_cases h1 : compareUUID k p.1 ≤ 0
    · rw [if_pos h1, if_pos h1]
      by_cases h2 : compareUUID k p.1 = 0
      · rw [if_pos h2, if_pos h2]
        simp [h1, h2]
      · rw [if_neg h2, if_neg h2]
        simp [h1, h2]
    · rw [if_neg h1, if_neg h1, ih]
      simp [h1]

theorem deleteLeafGo_spec {T : Type} (k : Key) (g : List (Key × T)) :
    deleteLeafGo k (g.map Prod.fst) (g.map Prod.snd) =
      ((specDel k g).map Prod.fst, (specDel k g).map Prod.snd,
        (specGet k g).isSome) := by
  induction g with
  | nil => rfl
  | cons p tl ih =>
    simp only [List.map_cons, deleteLeafGo, specDel, specGet]
    by_cases h1 : compareUUID k p.1 ≤ 0
    · rw [if_pos h1, if_pos h1]
      by_cases h2 : compareUUID k p.1 = 0
      · rw [if_pos h2, if_pos h2]
        simp [h1, h2]
      · rw [if_neg h2, if_neg h2]
        simp [h1, h2]
    · rw [if_neg h1, if_neg h1, ih]
      simp [h1]

theorem specSet_length {T : Type} (k : Key) (v : T) (g : List (Key × T)) :
    (specSet k v g).length =
      g.length + (if (specGet k g).isSome then 0 else 1) := by
  induction g with
  | nil => rfl
  | cons p tl ih =>
    simp only [specSet, specGet]
    by_cases h1 : compareUUID k p.1 ≤ 0
    · by_cases h2 : compareUUID k p.1 = 0 <;> simp [h1, h2]
    · simp only [if_neg h1, List.length_cons, ih]
      split <;> omega

theorem specDel_length {T : Type} (k : Key) (g : List (Key × T)) :
    (specDel k g).length =
      g.length - (if (specGet k g).isSome then 1 else 0) := by
  induction g with
  | nil => rfl
  | cons p tl ih =>
    simp only [specDel, specGet]
    by_cases h1 : compareUUID k p.1 ≤ 0
    · by_cases h2 : compareUUID k p.1 = 0 <;> simp [h1, h2]
    · simp only [if_neg h1, List.length_cons, ih]
      rcases htl : specGet k tl with _ | w
      · simp
      · have h1tl : 1 ≤ tl.length := by
          cases tl with
          | nil => simp [specGet] at htl
          | cons _ _ => simp
        simp
        omega

theorem specSet_keys_mem {T : Type} (k a : Key) (v : T) (g : List (Key × T))
    (h : a ∈ (specSet k v g).map Prod.fst) : a = k ∨ a ∈ g.map Prod.fst := by
  induction g with
  | nil =>
    simp [specSet] at h
    exact Or.inl h
  | cons p tl ih =>
    simp only [specSet] at h
    by_cases h1 : compareUUID k p.1 ≤ 0
    · rw [if_pos h1] at h
      by_cases h2 : compareUUID k p.1 = 0
      · rw [if_pos h2] at h
        rw [List.map_cons] at h
        rcases List.mem_cons.mp h with h | h
        · right; rw [List.map_cons]; exact List.mem_cons.mpr (Or.inl h)
        · right; rw [List.map_cons]; exact List.mem_cons.mpr (Or.inr h)
      · rw [if_neg h2] at h
        rw [List.map_cons] at h
        rcases List.mem_cons.mp h with h | h
        · left; exact h
        · right; exact h
    · rw [if_neg h1] at h
      rw [List.map_cons] at h
      rcases List.mem_cons.mp h with h | h
      · right; rw [List.map_cons]; exact List.mem_cons.mpr (Or.inl h)
      · rcases ih h with h' | h'
        · left; exact h'
        · right; rw [List.map_cons]; exact List.mem_cons.mpr (Or.inr h')

theorem specDel_keys_mem {T : Type} (k a : Key) (g : List (Key × T))
    (h : a ∈ (specDel k g).map Prod.fst) : a ∈ g.map Prod.fst := by
  induction g with
  | nil => simp [specDel] at h
  | cons p tl ih =>
    simp only [specDel] at h
    by_cases h1 : compareUUID k p.1 ≤ 0
    · rw [if_pos h1] at h
      by_cases h2 : compareUUID k p.1 = 0
      · rw [if_pos h2] at h
        rw [List.map_cons]
        exact List.mem_cons.mpr (Or.inr h)
      · rw [if_neg h2] at h
        exact h
    · rw [if_neg h1] at h
      rw [List.map_cons] at h
      rw [List.map_cons]
      rcases List.mem_cons.mp h with h | h
      · exact List.mem_cons.mpr (Or.inl h)
      · exact List.mem_cons.mpr (Or.inr (ih h))

theorem specSet_pairwise {T : Type} (k : Key) (v : T) (g : List (Key × T))
    (hpw : (g.map Prod.fst).Pairwise (fun a b => compareUUID a b < 0)) :
    ((specSet k v g).map Prod.fst).Pairwise (fun a b => compareUUID a b < 0) := by
  induction g with
  | nil => simp [specSet]
  | cons p tl ih =>
    rw [List.map_cons, List.pairwise_cons] at hpw
    obtain ⟨hhead, htl⟩ := hpw
    simp only [specSet]
    by_cases h1 : compareUUID k p.1 ≤ 0
    · rw [if_pos h1]
      by_cases h2 : compareUUID k p.1 = 0
      · rw [if_pos h2, List.map_cons, List.pairwise_cons]
        exact ⟨hhead, htl⟩
      · rw [if_neg h2]
        have hklt : compareUUID k p.1 < 0 := by omega
        rw [List.map_cons, List.pairwise_cons]
        constructor
        · intro a ha
          rw [List.map_cons] at ha
          rcases List.mem_cons.mp ha with ha | ha
          · rw [ha]; exact hklt
          · exact compareUUID_lt_trans hklt (hhead a ha)
        · rw [List.map_cons, List.pairwise_cons]
          exact ⟨hhead, htl⟩
    · rw [if_neg h1, List.map_cons, List.pairwise_cons]
      constructor
      · intro a ha
        rcases specSet_keys_mem k a v tl ha with ha' | ha'
        · rw [ha']
          show compareUUID p.1 k < 0
          have := compareUUID_neg k p.1
          omega
        · exact hhead a ha'
      · exact ih htl

theorem specDel_pairwise {T : Type} (k : Key) (g : List (Key × T))
    (hpw : (g.map Prod.fst).Pairwise (fun a b => compareUUID a b < 0)) :
    ((specDel k g).map Prod.fst).Pairwise (fun a b => compareUUID a b < 0) := by
  induction g with
  | nil => simp [specDel]
  | cons p tl ih =>
    rw [List.map_cons, List.pairwise_cons] at hpw
    obtain ⟨hhead, htl⟩ := hpw
    simp only [specDel]
    by_cases h1 : compareUUID k p.1 ≤ 0
    · rw [if_pos h1]
      by_cases h2 : compareUUID k p.1 = 0
      · rw [if_pos h2]
        exact htl
      · rw [if_neg h2, List.map_cons, List.pairwise_cons]
        exact ⟨hhead, htl⟩
    · rw [if_neg h1, List.map_cons, List.pairwise_cons]
      constructor
      · intro a ha
        exact hhead a (specDel_keys_mem k a tl ha)
      · exact ih htl

theorem specGet_specSet_self {T : Type} (k : Key) (v : T) (g : List (Key × T)) :
    specGet k (specSet k v g) = some v := by
  induction g with
  | nil => simp [specSet, specGet, compareUUID_refl]
  | cons p tl ih =>
    simp only [specSet]
    by_cases h1 : compareUUID k p.1 ≤ 0
    · rw [if_pos h1]
      by_cases h2 : compareUUID k p.1 = 0
      · rw [if_pos h2]
        simp [specGet, h1, h2]
      · rw [if_neg h2]
        simp [specGet, compareUUID_refl]
    · rw [if_neg h1]
      simp [specGet, h1, ih]

theorem specGet_specDel_self {T : Type} (k : Key) (g : List (Key × T))
    (hpw : (g.map Prod.fst).Pairwise (fun a b => compareUUID a b < 0)) :
    specGet k (specDel k g) = none := by
  induction g with
  | nil => rfl
  | cons p tl ih =>
    rw [List.map_cons, List.pairwise_cons] at hpw
    obtain ⟨hhead, htl⟩ := hpw
    simp only [specDel]
    by_cases h1 : compareUUID k p.1 ≤ 0
    · rw [if_pos h1]
      by_cases h2 : compareUUID k p.1 = 0
      · rw [if_pos h2]
        cases tl with
        | nil => rfl
        | cons q ttl =>
          have hq : compareUUID p.1 q.1 < 0 := hhead q.1 (by simp)
          have hk : compareUUID k q.1 < 0 := by
            rw [compareUUID_zero_congr q.1 h2]
            exact hq
          show (if compareUUID k q.1 ≤ 0 then
              if compareUUID k q.1 = 0 then some q.2 else none
            else specGet k ttl) = none
          rw [if_pos (show compareUUID k q.1 ≤ 0 by omega),
              if_neg (show ¬ compareUUID k q.1 = 0 by omega)]
      · rw [if_neg h2]
        simp [specGet, h1, h2]
    · rw [if_neg h1]
      simp [specGet, h1, ih htl]

theorem specRun_pairwise {T : Type} (ops : List (TreeOp T)) (g : List (Key × T))
    (hpw : (g.map Prod.fst).Pairwise (fun a b => compareUUID a b < 0)) :
    ((specRun g ops).map Prod.fst).Pairwise (fun a b => compareUUID a b < 0) := by
  induction ops generalizing g with
  | nil => exact hpw
  | cons op rest ih =>
    cases op with
    | set k v => exact ih _ (specSet_pairwise k v g hpw)
    | del k => exact ih _ (specDel_pairwise k g hpw)

theorem BTree_set_leaf {T : Type} (order : Nat) (k : Key) (v : T)
    (ks : List Key) (vs : List T) (c : Int)
    (hno : ¬ order ≤ (insertLeafGo k v ks vs).1.length) :
    BTree.set ⟨.leaf ks vs, order, c⟩ k v
      = ⟨.leaf (insertLeafGo k v ks vs).1 (insertLeafGo k v ks vs).2.1, order,
          c + 1 - (if (insertLeafGo k v ks vs).2.2 then 1 else 0)⟩ := by
  unfold BTree.set
  simp only [insertNode]
  rcases hins : insertLeafGo k v ks vs with ⟨ks', vs', rep⟩
  rw [if_neg (by rw [hins] at hno; exact hno)]

theorem BTree_delete_leaf {T : Type} (k : Key)
    (ks : List Key) (vs : List T) (order : Nat) (c : Int) :
    (BTree.delete ⟨.leaf ks vs, order, c⟩ k).1
      = ⟨.leaf (deleteLeafGo k ks vs).1 (deleteLeafGo k ks vs).2.1, order,
          c - (if (deleteLeafGo k ks vs).2.2 then 1 else 0)⟩ := by
  unfold BTree.delete
  simp only [deleteNode]
  split <;> rfl

/-- While no split is ever triggered, the tree is a single leaf holding the
reference association list, and `size` is its length. -/
theorem runOps_leaf_refines {T : Type} (order : Nat) (ops : List (TreeOp T))
    (g : List (Key × T))
    (hb : belowOrder order g ops = true) :
    runOps ⟨.leaf (g.map Prod.fst) (g.map Prod.snd), order, (g.length : Int)⟩ ops
      = ⟨.leaf ((specRun g ops).map Prod.fst) ((specRun g ops).map Prod.snd), order,
          ((specRun g ops).length : Int)⟩ := by
  induction ops generalizing g with
  | nil => rfl
  | cons op rest ih =>
    cases op with
    | set k v =>
      simp only [belowOrder, Bool.and_eq_true, decide_eq_true_eq] at hb
      obtain ⟨hlt, hb'⟩ := hb
      have hstep := BTree_set_leaf order k v (g.map Prod.fst) (g.map Prod.snd)
        (g.length : Int) (by
          rw [insertLeafGo_spec]
          simp only [List.length_map]
          omega)
      rw [insertLeafGo_spec] at hstep
      simp only at hstep
      have hcnt : (g.length : Int) + 1 - (if (specGet k g).isSome then 1 else 0)
          = ((specSet k v g).length : Int) := by
        rw [specSet_length]
        rcases specGet k g with _ | w <;> simp
      rw [hcnt] at hstep
      show runOps (BTree.set ⟨.leaf (g.map Prod.fst) (g.map Prod.snd), order,
        (g.length : Int)⟩ k v) rest = _
      rw [hstep]
      exact ih _ hb'
    | del k =>
      simp only [belowOrder] at hb
      have hstep := BTree_delete_leaf k (g.map Prod.fst) (g.map Prod.snd) order
        (g.length : Int)
      rw [deleteLeafGo_spec] at hstep
      simp only at hstep
      have hcnt : (g.length : Int) - (if (specGet k g).isSome then 1 else 0)
          = ((specDel k g).length : Int) := by
        rw [specDel_length]
        rcases hg : specGet k g with _ | w
        · simp
        · have h1g : 1 ≤ g.length := by
            cases g with
            | nil => simp [specGet] at hg
            | cons _ _ => simp
          simp
          omega
      rw [hcnt] at hstep
      show runOps (BTree.delete ⟨.leaf (g.map Prod.fst) (g.map Prod.snd), order,
        (g.length : Int)⟩ k).1 rest = _
      rw [hstep]
      exact ih _ hb

/-- Claim C3 (amended): for every call sequence that never reaches `order`
live keys (so no split fires), the tree behaves as the ordered association
of its live keys: `entries()` is exactly the reference list, strictly
ascending in UUID order with each live key once; `size` equals the number
of live keys; `get` is ordered lookup; `get` after `set(k,v)` yields `v`
(while still below order) and `get` after `delete(k)` yields nothing.
Once a split fires these laws break (see the counterexample). -/
theorem c3_no_split_laws {T : Type} (order : Nat) (ops : List (TreeOp T))
    (hb : belowOrder order ([] : List (Key × T)) ops = true) :
    (runOps (BTree.empty order) ops).entries = specRun [] ops ∧
    ((specRun ([] : List (Key × T)) ops).map Prod.fst).Pairwise
      (fun a b => compareUUID a b < 0) ∧
    (runOps (BTree.empty order) ops).getSize = ((specRun [] ops).length : Int) ∧
    (∀ k, (runOps (BTree.empty order) ops).get k = specGet k (specRun [] ops)) ∧
    (∀ k v, (specSet k v (specRun [] ops)).length + 1 ≤ order →
      ((runOps (BTree.empty order) ops).set k v).get k = some v) ∧
    (∀ k, (((runOps (BTree.empty order) ops).delete k).1).get k = none) := by
  have h0 := runOps_leaf_refines order ops [] hb
  have hrun : runOps (BTree.empty order) ops
      = ⟨.leaf ((specRun ([] : List (Key × T)) ops).map Prod.fst)
          ((specRun ([] : List (Key × T)) ops).map Prod.snd), order,
          ((specRun ([] : List (Key × T)) ops).length : Int)⟩ := h0
  have hpw := specRun_pairwise ops ([] : List (Key × T)) (by simp)
  rw [hrun]
  refine ⟨?_, hpw, rfl, ?_, ?_, ?_⟩
  · show flattenNode _ = _
    simp only [flattenNode]
    exact (List.zip_of_prod rfl rfl).symm
  · intro k
    show searchNode k _ = _
    simp only [searchNode]
    exact searchLeafGo_spec k _
  · intro k v hlen
    have hstep := BTree_set_leaf order k v
      ((specRun ([] : List (Key × T)) ops).map Prod.fst)
      ((specRun ([] : List (Key × T)) ops).map Prod.snd)
      ((specRun ([] : List (Key × T)) ops).length : Int) (by
        rw [insertLeafGo_spec]
        simp only [List.length_map]
        omega)
    rw [insertLeafGo_spec] at hstep
    simp only at hstep
    rw [hstep]
    show searchNode k _ = _
    simp only [searchNode]
    rw [searchLeafGo_spec]
    exact specGet_specSet_self k v _
  · intro k
    have hstep := BTree_delete_leaf k
      ((specRun ([] : List (Key × T)) ops).map Prod.fst)
      ((specRun ([] : List (Key × T)) ops).map Prod.snd) order
      ((specRun ([] : List (Key × T)) ops).length : Int)
    rw [deleteLeafGo_spec] at hstep
    simp only at hstep
    rw [hstep]
    show searchNode k _ = _
    simp only [searchNode]
    rw [searchLeafGo_spec]
    exact specGet_specDel_self k _ hpw

/-- Witness for C3 (amended) on a concrete no-split sequence. -/
theorem c3_no_split_laws_witness :
    belowOrder 64 ([] : List (Key × Nat))
      [.set (5 :: List.replicate 15 0) 50, .set (3 :: List.replicate 15 0) 30,
       .del (5 :: List.replicate 15 0)] = true ∧
    (runOps (BTree.empty 64)
        [.set (5 :: List.replicate 15 0) 50, .set (3 :: List.replicate 15 0) 30,
         .del (5 :: List.replicate 15 0)]).entries
      = specRun []
        [.set (5 :: List.replicate 15 0) 50, .set (3 :: List.replicate 15 0) 30,
         .del (5 :: List.replicate 15 0)] ∧
    ((runOps (BTree.empty 64)
        [.set (5 :: List.replicate 15 0) 50, .set (3 :: List.replicate 15 0) 30,
         .del (5 :: List.replicate 15 0)]).delete (3 :: List.replicate 15 0)).1.get
        (3 :: List.replicate 15 0) = none :=
  ⟨by decide,
   (c3_no_split_laws 64 _ (by decide)).1,
   (c3_no_split_laws 64 _ (by decide)).2.2.2.2.2 (3 :: List.replicate 15 0)⟩

/-! ## C4 — domain mutations do not reach the storage records

`Storage.write` keys records by the ids it draws itself and discards them
(`createDomain` ignores the returned handle), while `deleteDomain` and
`updateDomain` call `storage.delete(id)` with the domain-record id.  That
key is never a storage key, so the delete removes nothing: deleted domains
survive a restart, and updates accumulate stale copies. -/

theorem crc32Go_foldl (l : List Nat) (c : Nat) :
    crc32Go c l =
      l.foldl (fun crc b => crc32TableEntry ((crc ^^^ b) &&& 0xff) ^^^ (crc >>> 8)) c := by
  induction l generalizing c with
  | nil => rfl
  | cons b tl ih => simp [crc32Go, ih]

theorem crc32_eq_go (l : List Nat) :
    crc32 l = crc32Go 0xffffffff l ^^^ 0xffffffff := by
  rw [crc32, crc32Go_foldl]

theorem crc32Go_append (a b : List Nat) (c : Nat) :
    crc32Go c (a ++ b) = crc32Go (crc32Go c a) b := by
  induction a generalizing c with
  | nil => rfl
  | cons x tl ih => simp [crc32Go, ih]

set_option maxRecDepth 8000 in
/-- The CRC-32 of the create-domain payload, evaluated chunk by chunk. -/
theorem crc32_c4payload : crc32 c4payload = 368012111 := by
  rw [crc32_eq_go, c4payload]
  rw [crc32Go_append, show crc32Go 0xffffffff c4chunk1 = 4245669297 from by decide]
  rw [crc32Go_append, show crc32Go 4245669297 c4chunk2 = 3131478497 from by decide]
  rw [crc32Go_append, show crc32Go 3131478497 c4chunk3 = 3374625480 from by decide]
  rw [show crc32Go 3374625480 c4chunk4 = 3926955184 from by decide]
  decide

/-- `Storage.write` on a known encoding and checksum, in closed form. -/
theorem writeRecord_some (s : StorageState) (id : Key) (data : Value)
    (enc : List Nat) (c : Nat)
    (henc : encodeValue data = some enc) (hc : crc32 enc = c) :
    writeRecord s id data = some
      ({ file := padTo s.file s.dataOffset ++ (id ++ natToBytesBE 4 enc.length ++ enc),
         tree := s.tree.set id ⟨s.dataOffset, enc.length, c⟩,
         hIndexOffset := s.hIndexOffset,
         hDataOffset := s.dataOffset + (id ++ natToBytesBE 4 enc.length ++ enc).length,
         hRecordCount := s.hRecordCount + 1,
         dataOffset := s.dataOffset + (id ++ natToBytesBE 4 enc.length ++ enc).length },
       s.dataOffset, enc.length) := by
  subst hc
  unfold writeRecord
  rw [henc]
  rfl

/-- `Storage.read` on an indexed record whose checksum matches. -/
theorem readRecord_found (s : StorageState) (idStr : String) (loc : RecordLocation)
    (buf : List Nat) (v : Value) (r : List Nat)
    (hget : s.tree.get (stringToUUID idStr) = some loc)
    (hbuf : (s.file.drop (loc.offset + UUID_SIZE + 4)).take loc.size = buf)
    (hcrc : crc32 buf = loc.checksum)
    (hdec : decode buf = some (v, r)) :
    readRecord s idStr = .ok (some v) := by
  have hread : readRecord s idStr =
      (match s.tree.get (stringToUUID idStr) with
       | none => Except.ok none
       | some loc =>
         if crc32 ((s.file.drop (loc.offset + UUID_SIZE + 4)).take loc.size) ≠ loc.checksum
         then .error .corruption
         else
           match decode ((s.file.drop (loc.offset + UUID_SIZE + 4)).take loc.size) with
           | some (v, _) => .ok (some v)
           | none => .error .malformed) := rfl
  rw [hread, hget]
  simp only [hbuf]
  rw [if_neg (not_not_intro hcrc), hdec]

/-- `createDomain` on a free hostname, given the `writeRecord` result. -/
theorem createDomain_some (st : DomainStore) (hn pid dId : String) (sid : Key) (now : Int)
    (s1 : StorageState) (off sz : Nat)
    (hfree : mapGet st.byHostname hn = none)
    (hw : writeRecord st.storage sid
        (Domain.toValue ⟨dId, hn, pid, false, now, now⟩) = some (s1, off, sz)) :
    createDomain st hn pid dId sid now =
      some { storage := flushStorage s1,
             domains := mapSet st.domains dId ⟨dId, hn, pid, false, now, now⟩,
             byHostname := mapSet st.byHostname hn ⟨dId, hn, pid, false, now, now⟩ } := by
  simp only [createDomain, hfree, Option.isSome_none, Bool.false_eq_true, if_false,
    hw, Option.bind_eq_bind, Option.some_bind]
  rfl

/-- One step of the `loadAllDomains` read loop on a successful read. -/
theorem loadDomainsGo_cons_ok (k : Key) (loc : RecordLocation)
    (rest : List (Key × RecordLocation)) (st : DomainStore) (v : Value) (d : Domain)
    (hr : readRecord st.storage (uuidToString k) = .ok (some v))
    (hd : Domain.ofValue v = some d) :
    loadDomainsGo ((k, loc) :: rest) st =
      loadDomainsGo rest
        { st with domains := mapSet st.domains d.id d,
                  byHostname := mapSet st.byHostname d.hostname d } := by
  simp only [loadDomainsGo, hr, hd]

set_option maxRecDepth 8000 in
/-- Claim C4 (failing input, evaluated): create one domain, delete it,
flush — the delete reports success and empties the in-memory maps, but the
storage index still holds the record (`storage.delete` was keyed by the
external domain id, not the id minted inside `Storage.write`), and
re-initialising from the flushed file resurrects the deleted domain. -/
theorem c4_deleted_domain_resurrected :
    ∃ st1 st3,
      ((initDomainStorage none).bind fun st0 =>
        createDomain st0 "a.test" "p1" "11111111-1111-4111-8111-111111111111"
          c4key 1000) = some st1 ∧
      (deleteDomain st1 "11111111-1111-4111-8111-111111111111").2 = true ∧
      -- after the delete, the collection map is empty …
      (deleteDomain st1 "11111111-1111-4111-8111-111111111111").1.domains = [] ∧
      -- … but the storage record was not removed …
      (deleteDomain st1
        "11111111-1111-4111-8111-111111111111").1.storage.tree.entries.length = 1 ∧
      (deleteDomain st1 "11111111-1111-4111-8111-111111111111").1.storage.file = c4file ∧
      -- … and re-initialising from the flushed file brings the domain back
      initDomainStorage (some c4file) = some st3 ∧
      st3.domains.map Prod.fst = ["11111111-1111-4111-8111-111111111111"] ∧
      st3.domains.map (fun p => p.2.hostname) = ["a.test"] := by
  have henc : encodeValue (Domain.toValue c4domain) = some c4payload := by decide
  have hw := writeRecord_some (createDatabase initialStorage) c4key
    (Domain.toValue c4domain) c4payload 368012111 henc crc32_c4payload
  have hcd := createDomain_some ⟨createDatabase initialStorage, [], []⟩
    "a.test" "p1" "11111111-1111-4111-8111-111111111111" c4key 1000 _ _ _ rfl hw
  have hst0 : initDomainStorage none = some ⟨createDatabase initialStorage, [], []⟩ := rfl
  have hget : c4open.tree.get (stringToUUID (uuidToString c4key)) =
      some ⟨32, 118, 368012111⟩ := rfl
  have hbuf : (c4open.file.drop
      ((⟨32, 118, 368012111⟩ : RecordLocation).offset + UUID_SIZE + 4)).take
      (⟨32, 118, 368012111⟩ : RecordLocation).size = c4payload := by decide
  have hdec : decode c4payload = some (Domain.toValue c4domain, []) := by decide
  have hrr := readRecord_found c4open (uuidToString c4key) ⟨32, 118, 368012111⟩
    c4payload (Domain.toValue c4domain) [] hget hbuf
    (by exact crc32_c4payload) hdec
  have hopen : openStorage { initialStorage with file := c4file } true true
      = some c4open := rfl
  have hsh : initDomainStorage (some c4file) =
      (openStorage { initialStorage with file := c4file } true true).bind
        (fun storage => loadDomainsGo storage.tree.entries ⟨storage, [], []⟩) := rfl
  have hent : (c4open.tree.entries : List (Key × RecordLocation)) =
      [(c4key, ⟨32, 118, 368012111⟩)] := rfl
  have hinit2 : initDomainStorage (some c4file) =
      loadDomainsGo [(c4key, ⟨32, 118, 368012111⟩)] ⟨c4open, [], []⟩ := by
    rw [hsh, hopen, Option.some_bind, hent]
  exact ⟨_, _,
    by rw [hst0, Option.some_bind]; exact hcd,
    by decide, by decide, by decide, by decide,
    by
      rw [hinit2,
        loadDomainsGo_cons_ok c4key ⟨32, 118, 368012111⟩ [] ⟨c4open, [], []⟩
          (Domain.toValue c4domain) c4domain hrr rfl]
      exact rfl,
    by decide, by decide⟩

/-! ## C6 — compaction and the in-memory index -/

/-- Claim C6 (counterexample, evaluated): two records, one deleted, then
`compact()` — the in-memory index still lists the stale pre-compaction id
(which now reads as a checksum mismatch) next to the newly generated one. -/
theorem c6_counterexample_stale_index :
    compactStorage c6pre [c6idC] = some c6result ∧
    c6result.tree.entries.map Prod.fst = [c6idB, c6idC] ∧
    readRecord c6result (uuidToString c6idB) = .error .corruption ∧
    readRecord c6result (uuidToString c6idC) = .ok (some (.vbool true)) := by
  refine ⟨rfl, by decide, rfl, rfl⟩

/-- Claim C6 (amended): `compact()` re-opens the compacted file on top of
the *current* in-memory index — `open()` folds the parsed trailing index
entries into the existing tree, which was never cleared.  The resulting
index is the pre-compaction index plus the new entries, not "exactly the
records of the compacted file". -/
theorem c6_index_not_cleared (s r : StorageState) (ids : List Key)
    (h : compactStorage s ids = some r) :
    ∃ newEntries : List (Key × RecordLocation),
      r.tree = newEntries.foldl (fun t e => t.set e.1 e.2) s.tree := by
  simp only [compactStorage] at h
  rcases hc : compactCopy s.file s.tree.entries ids (createDatabase initialStorage)
    with _ | tmp1
  · rw [hc] at h; exact absurd h (by simp)
  rw [hc] at h
  simp only [Option.bind_eq_bind, Option.some_bind] at h
  simp only [openStorage] at h
  rw [if_pos trivial] at h
  simp only [loadDatabase] at h
  split at h
  · set renamed : StorageState := { s with file := (closeStorage tmp1).file } with hren
    by_cases hidx : 0 < bytesToNatBE ((renamed.file.drop 8).take 8)
    · rw [if_pos hidx] at h
      rcases hp : parseIndexEntries (renamed.file.drop
          (bytesToNatBE ((renamed.file.drop 8).take 8))) with _ | entries2
      · rw [hp] at h; exact absurd h (by simp)
      rw [hp] at h
      simp only [Option.bind_eq_bind, Option.some_bind] at h
      obtain rfl := (Option.some.inj h).symm
      exact ⟨entries2, rfl⟩
    · rw [if_neg hidx] at h
      simp only [Option.bind_eq_bind, Option.some_bind] at h
      obtain rfl := (Option.some.inj h).symm
      exact ⟨[], rfl⟩
  · exact absurd h (by simp)

/-- Witness for C6 (amended) on the concrete compaction pipeline. -/
theorem c6_index_not_cleared_witness :
    ∃ newEntries : List (Key × RecordLocation),
      c6result.tree = newEntries.foldl (fun t e => t.set e.1 e.2) c6pre.tree :=
  c6_index_not_cleared c6pre c6result [c6idC] rfl

/-! ## C10 — the frame effect of `Storage.write` -/

theorem padTo_length (l : List Nat) (n : Nat) : (padTo l n).length = n := by
  simp [padTo]
  omega

theorem padTo_of_le (l : List Nat) (n : Nat) (h : n ≤ l.length) :
    padTo l n = l.take n := by
  simp [padTo, Nat.sub_eq_zero_of_le h]

/-- Claim C10: a write leaves the first `dataOffset` file bytes unchanged
and makes the file end exactly at `dataOffset + 20 + size`: a trailing
index block flushed earlier is truncated away. -/
theorem c10_write_frame (s : StorageState) (id : Key) (v : Value)
    (hid : keyBytesOK id = true)
    (hlen : s.dataOffset ≤ s.file.length) :
    ∀ r ∈ writeRecord s id v,
      r.2.1 = s.dataOffset ∧
      r.1.file.take s.dataOffset = s.file.take s.dataOffset ∧
      r.1.file.length = s.dataOffset + 20 + r.2.2 ∧
      r.1.dataOffset = s.dataOffset + 20 + r.2.2 := by
  have hid16 : id.length = 16 := by
    unfold keyBytesOK at hid
    simp at hid
    exact hid.1
  intro r hr
  rw [Option.mem_def] at hr
  cases henc : encodeValue v with
  | none => rw [writeRecord, henc] at hr; exact absurd hr (by simp)
  | some encoded =>
    rw [writeRecord, henc] at hr
    simp only [Option.bind_eq_bind, Option.some_bind, pure] at hr
    have hrv := Option.some.inj hr
    subst hrv
    refine ⟨rfl, ?_, ?_, ?_⟩
    · rw [padTo_of_le _ _ hlen]
      rw [List.take_append_of_le_length (by simp [List.length_take]; omega)]
      rw [List.take_take, Nat.min_self]
    · simp [padTo_length, natToBytesBE_length, hid16]
      omega
    · simp [natToBytesBE_length, hid16]
      omega

/-- Witness for C10: one write on a fresh database. -/
theorem c10_write_frame_witness :
    ∃ r, writeRecord (createDatabase initialStorage)
        [17, 1, 2, 3, 4, 5, 70, 7, 138, 9, 10, 11, 12, 13, 14, 15] .vnull = some r ∧
      r.2.1 = 32 ∧
      r.1.file.take 32 = (createDatabase initialStorage).file.take 32 ∧
      r.1.file.length = 32 + 20 + r.2.2 ∧
      r.1.dataOffset = 32 + 20 + r.2.2 := by
  refine ⟨_, rfl, ?_⟩
  exact c10_write_frame (createDatabase initialStorage)
    [17, 1, 2, 3, 4, 5, 70, 7, 138, 9, 10, 11, 12, 13, 14, 15] .vnull
    (by decide) (by decide) _ rfl

/-! ## C7 — the read path -/

/-- Claim C7: `read` yields `null` for an unknown id; for a known id it
slices `size` bytes at `offset + 20`, recomputes the CRC-32, raises
`Corruption` exactly when it disagrees with the stored checksum, and
otherwise returns the decoded value. -/
theorem c7_read_contract (s : StorageState) (idStr : String) :
    (s.tree.get (stringToUUID idStr) = none → readRecord s idStr = .ok none) ∧
    (∀ loc, s.tree.get (stringToUUID idStr) = some loc →
      (readRecord s idStr = .error .corruption ↔
        crc32 ((s.file.drop (loc.offset + 20)).take loc.size) ≠ loc.checksum) ∧
      (crc32 ((s.file.drop (loc.offset + 20)).take loc.size) = loc.checksum →
        ∀ v r, decode ((s.file.drop (loc.offset + 20)).take loc.size) = some (v, r) →
          readRecord s idStr = .ok (some v))) := by
  have hread : readRecord s idStr =
      (match s.tree.get (stringToUUID idStr) with
       | none => Except.ok none
       | some loc =>
         if crc32 ((s.file.drop (loc.offset + UUID_SIZE + 4)).take loc.size) ≠ loc.checksum
         then .error .corruption
         else
           match decode ((s.file.drop (loc.offset + UUID_SIZE + 4)).take loc.size) with
           | some (v, _) => .ok (some v)
           | none => .error .malformed) := rfl
  have h20 : ∀ n : Nat, n + UUID_SIZE + 4 = n + 20 := by
    intro n
    simp [UUID_SIZE]
  constructor
  · intro hget
    rw [hread, hget]
  · intro loc hget
    rw [hread, hget]
    simp only [h20]
    constructor
    · constructor
      · intro hr
        by_contra hcrc
        rw [if_neg (not_not_intro hcrc)] at hr
        rcases hd : decode ((s.file.drop (loc.offset + 20)).take loc.size) with _ | ⟨v, r⟩
        · rw [hd] at hr
          exact absurd hr (by simp)
        · rw [hd] at hr
          exact absurd hr (by simp)
      · intro hcrc
        rw [if_pos hcrc]
    · intro hcrc v r hdec
      rw [if_neg (by simpa using hcrc), hdec]

/-- Witness for C7: a one-record storage state built in place. -/
theorem c7_read_contract_witness :
    readRecord
      ⟨List.replicate 20 7 ++ [0],
        (BTree.empty DEFAULT_ORDER).set
          [17, 1, 2, 3, 4, 5, 70, 7, 138, 9, 10, 11, 12, 13, 14, 15]
          ⟨0, 1, crc32 [0]⟩,
        0, 0, 0, 21⟩
      (uuidToString [17, 1, 2, 3, 4, 5, 70, 7, 138, 9, 10, 11, 12, 13, 14, 15])
      = .ok (some .vnull) := by
  exact ((c7_read_contract
    (⟨List.replicate 20 7 ++ [0],
      (BTree.empty DEFAULT_ORDER).set
        [17, 1, 2, 3, 4, 5, 70, 7, 138, 9, 10, 11, 12, 13, 14, 15]
        ⟨0, 1, crc32 [0]⟩,
      0, 0, 0, 21⟩ : StorageState)
    (uuidToString [17, 1, 2, 3, 4, 5, 70, 7, 138, 9, 10, 11, 12, 13, 14, 15])).2
    ⟨0, 1, crc32 [0]⟩ (by decide)).2 (by decide) .vnull [] (by decide)


/-! ## C2 — write / flush / close / reopen / read

The development below proves the storage round trip end to end: the
compareUUID order theory, well-formedness and flatten/search lemmas for the
B-tree (including the left-closed windows forced by the split-duplication
of promoted keys), preservation of the invariant by `insertNode`, the
byte-level header/index round trips, and the `storageInv` induction over
`writeSeq`.  The headline theorem `c2_write_reopen_read` needs the payloads
to be codec-well-formed (`valueWF`): the unqualified claim fails, because a
bigint outside the 64-bit ranges wraps through encode/decode — the storage
pipeline returns the wrapped value after reopen, see the counterexample. -/

/-! ### Order facts for `compareUUID` -/

theorem cmp_right_congr (a b c : Key) (h : compareUUID a b = 0) :
    compareUUID c a = compareUUID c b := by
  rw [compareUUID_neg, compareUUID_zero_congr c h, ← compareUUID_neg]

theorem cmp_le_trans {a b c : Key} (h1 : compareUUID a b ≤ 0) (h2 : compareUUID b c ≤ 0) :
    compareUUID a c ≤ 0 := by
  rcases eq_or_lt_of_le h1 with he | hl
  · rw [compareUUID_zero_congr c he]
    exact h2
  · rcases eq_or_lt_of_le h2 with he2 | hl2
    · rw [← cmp_right_congr b c a he2]
      exact h1
    · exact le_of_lt (compareUUID_lt_trans hl hl2)

theorem cmp_lt_of_le_of_lt {a b c : Key} (h1 : compareUUID a b ≤ 0)
    (h2 : compareUUID b c < 0) : compareUUID a c < 0 := by
  rcases eq_or_lt_of_le h1 with he | hl
  · rw [compareUUID_zero_congr c he]
    exact h2
  · exact compareUUID_lt_trans hl h2

theorem cmp_lt_of_lt_of_le {a b c : Key} (h1 : compareUUID a b < 0)
    (h2 : compareUUID b c ≤ 0) : compareUUID a c < 0 := by
  rcases eq_or_lt_of_le h2 with he | hl
  · rw [← cmp_right_congr b c a he]
    exact h1
  · exact compareUUID_lt_trans h1 hl

/-! ### Sorted-key and window helpers -/

theorem sortedStrictB_cons (a : Key) (tl : List Key)
    (h : sortedStrictB (a :: tl) = true) :
    sortedStrictB tl = true ∧ ∀ b ∈ tl, compareUUID a b < 0 := by
  induction tl generalizing a with
  | nil => exact ⟨rfl, by simp⟩
  | cons b tl ih =>
    rw [sortedStrictB, Bool.and_eq_true] at h
    obtain ⟨hab, htl⟩ := h
    obtain ⟨htl2, hball⟩ := ih b htl
    refine ⟨htl, ?_⟩
    intro c hc
    rcases List.mem_cons.mp hc with rfl | hc2
    · exact of_decide_eq_true hab
    · exact compareUUID_lt_trans (of_decide_eq_true hab) (hball c hc2)

theorem sortedStrictB_cons_of (a : Key) (tl : List Key)
    (h1 : sortedStrictB tl = true) (h2 : ∀ b ∈ tl, compareUUID a b < 0) :
    sortedStrictB (a :: tl) = true := by
  cases tl with
  | nil => rfl
  | cons b tl =>
    rw [sortedStrictB, Bool.and_eq_true]
    exact ⟨decide_eq_true (h2 b (by simp)), h1⟩

theorem keyLE_of_le {lo : Option Key} {a b : Key} (h : keyLE lo a = true)
    (hab : compareUUID a b ≤ 0) : keyLE lo b = true := by
  cases lo with
  | none => rfl
  | some l =>
    simp only [keyLE] at h ⊢
    exact decide_eq_true (cmp_le_trans (of_decide_eq_true h) hab)

theorem keyLT_of_le {hi : Option Key} {a b : Key} (h : keyLT b hi = true)
    (hab : compareUUID a b ≤ 0) : keyLT a hi = true := by
  cases hi with
  | none => rfl
  | some u =>
    simp only [keyLT] at h ⊢
    exact decide_eq_true (cmp_lt_of_le_of_lt hab (of_decide_eq_true h))

theorem keysOK_cons (lo hi : Option Key) (a : Key) (tl : List Key)
    (h : keysOK lo hi (a :: tl) = true) :
    keyBytesOK a = true ∧ keyLE lo a = true ∧ keyLT a hi = true ∧
    keysOK (some a) hi tl = true ∧ keysOK lo hi tl = true := by
  rw [keysOK, Bool.and_eq_true, List.all_cons, Bool.and_eq_true, Bool.and_eq_true,
    Bool.and_eq_true] at h
  obtain ⟨hsorted, ⟨⟨hbytes, hle⟩, hlt⟩, hall⟩ := h
  obtain ⟨hs2, hball⟩ := sortedStrictB_cons a tl hsorted
  refine ⟨hbytes, hle, hlt, ?_, ?_⟩
  · rw [keysOK, Bool.and_eq_true]
    refine ⟨hs2, ?_⟩
    rw [List.all_eq_true] at hall ⊢
    intro b hb
    have := hall b hb
    rw [Bool.and_eq_true, Bool.and_eq_true] at this
    obtain ⟨⟨hb1, _⟩, hb3⟩ := this
    rw [Bool.and_eq_true, Bool.and_eq_true]
    exact ⟨⟨hb1, decide_eq_true (le_of_lt (hball b hb))⟩, hb3⟩
  · rw [keysOK, Bool.and_eq_true]
    exact ⟨hs2, hall⟩

theorem keysOK_weaken_lo (lo : Option Key) (a : Key) (hi : Option Key) (ks : List Key)
    (h : keysOK (some a) hi ks = true) (hlo : keyLE lo a = true) :
    keysOK lo hi ks = true := by
  rw [keysOK, Bool.and_eq_true] at h ⊢
  obtain ⟨hs, hall⟩ := h
  refine ⟨hs, ?_⟩
  rw [List.all_eq_true] at hall ⊢
  intro b hb
  have := hall b hb
  rw [Bool.and_eq_true, Bool.and_eq_true] at this ⊢
  obtain ⟨⟨h1, h2⟩, h3⟩ := this
  exact ⟨⟨h1, keyLE_of_le hlo (of_decide_eq_true h2 : compareUUID a b ≤ 0)⟩, h3⟩

theorem childrenWFB_shape {T : Type} (order : Nat) :
    ∀ (ks : List Key) (cs : BNodes T) (lo hi : Option Key),
    childrenWFB order lo ks cs hi = true → cs.length = ks.length + 1 := by
  intro ks
  induction ks with
  | nil =>
    intro cs lo hi h
    cases cs with
    | nil => simp [childrenWFB] at h
    | cons c tl =>
      cases tl with
      | nil => rfl
      | cons d tl2 => simp [childrenWFB] at h
  | cons k0 ks ih =>
    intro cs lo hi h
    cases cs with
    | nil => simp [childrenWFB] at h
    | cons c tl =>
      rw [childrenWFB, Bool.and_eq_true] at h
      have := ih tl (some k0) hi h.2
      simp [BNodes.length, this, List.length_cons]

theorem zip_take_take {α β : Type} : ∀ (n : Nat) (ks : List α) (vs : List β),
    (ks.take n).zip (vs.take n) = (ks.zip vs).take n := by
  intro n
  induction n with
  | zero => intro ks vs; simp
  | succ n ih =>
    intro ks vs
    cases ks with
    | nil => simp
    | cons k ks =>
      cases vs with
      | nil => simp
      | cons v vs => simp [List.take_succ_cons, ih]

theorem zip_drop_drop {α β : Type} : ∀ (n : Nat) (ks : List α) (vs : List β),
    (ks.drop n).zip (vs.drop n) = (ks.zip vs).drop n := by
  intro n
  induction n with
  | zero => intro ks vs; simp
  | succ n ih =>
    intro ks vs
    cases ks with
    | nil => simp
    | cons k ks =>
      cases vs with
      | nil => simp
      | cons v vs => simp [List.drop_succ_cons, ih]

/-- Interleaving decomposition of `flattenGo` at the promoted middle slot. -/
theorem flattenGo_split_eq {T : Type} :
    ∀ (mid : Nat) (ks : List Key) (vs : List T) (cs : BNodes T) (pk : Key) (pv : T),
    ks.get? mid = some pk → vs.get? mid = some pv → ks.length = vs.length →
    BNodes.length cs = ks.length + 1 →
    flattenGo (ks.take mid) (vs.take mid) (cs.take (mid + 1)) ++
      (pk, pv) :: flattenGo (ks.drop (mid + 1)) (vs.drop (mid + 1)) (cs.drop (mid + 1))
      = flattenGo ks vs cs := by
  intro mid
  induction mid with
  | zero =>
    intro ks vs cs pk pv hk hv hlen hcs
    cases ks with
    | nil => simp at hk
    | cons k0 ks =>
      cases vs with
      | nil => simp at hv
      | cons v0 vs =>
        cases cs with
        | nil => simp [BNodes.length] at hcs
        | cons c0 cs =>
          simp only [List.get?] at hk hv
          obtain rfl := Option.some.inj hk
          obtain rfl := Option.some.inj hv
          cases cs with
          | nil => simp [BNodes.length, List.length_cons] at hcs
          | cons c1 cs2 =>
            simp only [List.take_zero, List.drop_succ_cons, List.drop_zero,
              BNodes.take, BNodes.drop]
            rw [show flattenGo ([] : List Key) ([] : List T)
                (BNodes.cons c0 BNodes.nil) = flattenNode c0 from rfl]
            rw [show flattenGo (k0 :: ks) (v0 :: vs) (BNodes.cons c0 (BNodes.cons c1 cs2))
                = flattenNode c0 ++ (k0, v0) :: flattenGo ks vs (BNodes.cons c1 cs2)
              from rfl]
  | succ mid ih =>
    intro ks vs cs pk pv hk hv hlen hcs
    cases ks with
    | nil => simp at hk
    | cons k0 ks =>
      cases vs with
      | nil => simp at hv
      | cons v0 vs =>
        cases cs with
        | nil => simp [BNodes.length] at hcs
        | cons c0 cs =>
          simp only [List.get?] at hk hv
          simp only [List.length_cons] at hlen
          simp only [BNodes.length, List.length_cons] at hcs
          have hrec := ih ks vs cs pk pv hk hv (by omega) (by omega)
          simp only [List.take_succ_cons, List.drop_succ_cons, BNodes.take, BNodes.drop]
          rw [show flattenGo (k0 :: ks.take mid) (v0 :: vs.take mid)
              (BNodes.cons c0 (cs.take (mid + 1)))
              = flattenNode c0 ++ (k0, v0) :: flattenGo (ks.take mid) (vs.take mid)
                  (cs.take (mid + 1)) from rfl]
          rw [show flattenGo (k0 :: ks) (v0 :: vs) (BNodes.cons c0 cs)
              = flattenNode c0 ++ (k0, v0) :: flattenGo ks vs cs from rfl]
          rw [List.append_assoc, ← hrec]
          simp

theorem keyLE_of_loLT {lo : Option Key} {k : Key} (h : loLT lo k = true) :
    keyLE lo k = true := by
  cases lo with
  | none => rfl
  | some l =>
    simp only [loLT] at h
    simp only [keyLE]
    exact decide_eq_true (le_of_lt (of_decide_eq_true h))

theorem sortedStrictB_append (xs ys : List Key) :
    sortedStrictB (xs ++ ys) = true ↔
    sortedStrictB xs = true ∧ sortedStrictB ys = true ∧
      ∀ a ∈ xs, ∀ b ∈ ys, compareUUID a b < 0 := by
  induction xs with
  | nil => simp [sortedStrictB]
  | cons x xs ih =>
    constructor
    · intro h
      rw [List.cons_append] at h
      obtain ⟨htl, hall⟩ := sortedStrictB_cons x (xs ++ ys) h
      obtain ⟨h1, h2, h3⟩ := ih.mp htl
      refine ⟨sortedStrictB_cons_of x xs h1 (fun b hb => hall b (by simp [hb])), h2, ?_⟩
      intro a ha b hb
      rcases List.mem_cons.mp ha with rfl | ha2
      · exact hall b (by simp [hb])
      · exact h3 a ha2 b hb
    · rintro ⟨h1, h2, h3⟩
      rw [List.cons_append]
      obtain ⟨h1tl, h1all⟩ := sortedStrictB_cons x xs h1
      refine sortedStrictB_cons_of x (xs ++ ys) (ih.mpr ⟨h1tl, h2, fun a ha b hb => h3 a (by simp [ha]) b hb⟩) ?_
      intro b hb
      rcases List.mem_append.mp hb with hb1 | hb2
      · exact h1all b hb1
      · exact h3 x (by simp) b hb2

theorem keysOK_iff (lo hi : Option Key) (ks : List Key) :
    keysOK lo hi ks = true ↔
    sortedStrictB ks = true ∧
      ∀ a ∈ ks, keyBytesOK a = true ∧ keyLE lo a = true ∧ keyLT a hi = true := by
  rw [keysOK, Bool.and_eq_true, List.all_eq_true]
  constructor
  · rintro ⟨h1, h2⟩
    refine ⟨h1, fun a ha => ?_⟩
    have := h2 a ha
    rw [Bool.and_eq_true, Bool.and_eq_true] at this
    exact ⟨this.1.1, this.1.2, this.2⟩
  · rintro ⟨h1, h2⟩
    refine ⟨h1, fun a ha => ?_⟩
    obtain ⟨x, y, z⟩ := h2 a ha
    rw [Bool.and_eq_true, Bool.and_eq_true]
    exact ⟨⟨x, y⟩, z⟩

theorem nodeWFB_leaf_iff {T : Type} (order : Nat) (lo hi : Option Key)
    (ks : List Key) (vs : List T) :
    nodeWFB order lo hi (.leaf ks vs) = true ↔
    ks.length = vs.length ∧ ks.length + 1 ≤ order ∧ keysOK lo hi ks = true := by
  rw [nodeWFB, Bool.and_eq_true, Bool.and_eq_true]
  simp only [decide_eq_true_eq]
  tauto

theorem nodeWFB_internal_iff {T : Type} (order : Nat) (lo hi : Option Key)
    (ks : List Key) (vs : List T) (cs : BNodes T) :
    nodeWFB order lo hi (.internal ks vs cs) = true ↔
    ks.length = vs.length ∧ ks.length + 1 ≤ order ∧ keysOK lo hi ks = true ∧
      childrenWFB order lo ks cs hi = true := by
  rw [nodeWFB, Bool.and_eq_true, Bool.and_eq_true, Bool.and_eq_true]
  simp only [decide_eq_true_eq]
  tauto

theorem flattenGo_non (ks : List Key) {T : Type} (vs : List T) :
    flattenGo ks vs BNodes.nil = [] := by
  cases ks with
  | nil => rfl
  | cons k0 ks => cases vs with
    | nil => rfl
    | cons v0 vs => rfl

theorem flattenGo_mismatch {T : Type} (k0 : Key) (ks : List Key) (c0 : BNode T)
    (cs : BNodes T) : flattenGo (k0 :: ks) [] (BNodes.cons c0 cs) = [] := rfl

mutual

theorem flatten_window {T : Type} (order : Nat) :
    ∀ (n : BNode T) (lo hi : Option Key), nodeWFB order lo hi n = true →
    ∀ e ∈ flattenNode n, keyBytesOK e.1 = true ∧ keyLE lo e.1 = true ∧ keyLT e.1 hi = true
  | .leaf ks vs => by
    intro lo hi h e he
    obtain ⟨k, v⟩ := e
    rw [flattenNode] at he
    have hk : k ∈ ks := (List.of_mem_zip he).1
    obtain ⟨_, _, hall⟩ := (nodeWFB_leaf_iff order lo hi ks vs).mp h
    exact ((keysOK_iff lo hi ks).mp hall).2 k hk
  | .internal ks vs cs => by
    intro lo hi h e he
    obtain ⟨_, _, hks, hcs⟩ := (nodeWFB_internal_iff order lo hi ks vs cs).mp h
    rw [flattenNode] at he
    exact flattenGo_window order cs ks vs lo hi hks hcs e he

theorem flattenGo_window {T : Type} (order : Nat) :
    ∀ (cs : BNodes T) (ks : List Key) (vs : List T) (lo hi : Option Key),
    keysOK lo hi ks = true → childrenWFB order lo ks cs hi = true →
    ∀ e ∈ flattenGo ks vs cs,
      keyBytesOK e.1 = true ∧ keyLE lo e.1 = true ∧ keyLT e.1 hi = true
  | .nil, ks, vs => by
    intro lo hi _ _ e he
    rw [flattenGo_non] at he
    exact absurd he (List.not_mem_nil e)
  | .cons c0 cs, [], vs => by
    intro lo hi _ hc e he
    cases cs with
    | nil =>
      rw [childrenWFB] at hc
      rw [show flattenGo [] vs (BNodes.cons c0 BNodes.nil) = flattenNode c0 from rfl] at he
      exact flatten_window order c0 lo hi hc e he
    | cons c1 cs2 =>
      rw [show childrenWFB order lo [] (BNodes.cons c0 (BNodes.cons c1 cs2)) hi
          = false from rfl] at hc
      exact absurd hc (by simp)
  | .cons c0 cs, k0 :: ks, [] => by
    intro lo hi _ _ e he
    rw [flattenGo_mismatch] at he
    exact absurd he (List.not_mem_nil e)
  | .cons c0 cs, k0 :: ks, v0 :: vs => by
    intro lo hi hks hc e he
    rw [childrenWFB, Bool.and_eq_true] at hc
    obtain ⟨hc0, hcs⟩ := hc
    obtain ⟨hb0, hle0, hlt0, hksTl, _⟩ := keysOK_cons lo hi k0 ks hks
    rw [show flattenGo (k0 :: ks) (v0 :: vs) (BNodes.cons c0 cs)
        = flattenNode c0 ++ (k0, v0) :: flattenGo ks vs cs from rfl] at he
    rcases List.mem_append.mp he with h1 | h2
    · obtain ⟨hbb, hll, hrr⟩ := flatten_window order c0 lo (some k0) hc0 e h1
      refine ⟨hbb, hll, ?_⟩
      simp only [keyLT] at hrr
      exact keyLT_of_le hlt0 (le_of_lt (of_decide_eq_true hrr))
    · rcases List.mem_cons.mp h2 with rfl | h3
      · exact ⟨hb0, hle0, hlt0⟩
      · obtain ⟨hbb, hll, hrr⟩ := flattenGo_window order cs ks vs (some k0) hi hksTl hcs e h3
        refine ⟨hbb, ?_, hrr⟩
        simp only [keyLE] at hll
        exact keyLE_of_le hle0 (of_decide_eq_true hll)

end

theorem get_take_cons_drop {α : Type} :
    ∀ (mid : Nat) (ks : List α) (pk : α), ks.get? mid = some pk →
    ks.take mid ++ pk :: ks.drop (mid + 1) = ks := by
  intro mid
  induction mid with
  | zero =>
    intro ks pk hk
    cases ks with
    | nil => simp at hk
    | cons k0 ks =>
      simp only [List.get?] at hk
      obtain rfl := Option.some.inj hk
      simp
  | succ mid ih =>
    intro ks pk hk
    cases ks with
    | nil => simp at hk
    | cons k0 ks =>
      simp only [List.get?] at hk
      simp only [List.take_succ_cons, List.drop_succ_cons, List.cons_append, ih ks pk hk]

theorem get_drop_cons {α : Type} :
    ∀ (mid : Nat) (ks : List α) (pk : α), ks.get? mid = some pk →
    ks.drop mid = pk :: ks.drop (mid + 1) := by
  intro mid
  induction mid with
  | zero =>
    intro ks pk hk
    cases ks with
    | nil => simp at hk
    | cons k0 ks =>
      simp only [List.get?] at hk
      obtain rfl := Option.some.inj hk
      simp
  | succ mid ih =>
    intro ks pk hk
    cases ks with
    | nil => simp at hk
    | cons k0 ks =>
      simp only [List.get?] at hk
      simp only [List.drop_succ_cons, ih ks pk hk]

theorem get_of_lt_length {α : Type} (mid : Nat) (ks : List α) (h : mid < ks.length) :
    ∃ pk, ks.get? mid = some pk := by
  cases hq : ks.get? mid with
  | none => exact absurd (List.get?_eq_none.mp hq) (by omega)
  | some pk => exact ⟨pk, rfl⟩

theorem keysOK_split (lo hi : Option Key) (A B : List Key) (pk : Key)
    (h : keysOK lo hi (A ++ pk :: B) = true) :
    keysOK lo (some pk) A = true ∧ keysOK (some pk) hi (pk :: B) = true ∧
    keysOK (some pk) hi B = true ∧
    keyBytesOK pk = true ∧ keyLE lo pk = true ∧ keyLT pk hi = true ∧
    (A ≠ [] → loLT lo pk = true) := by
  obtain ⟨hsorted, hall⟩ := (keysOK_iff lo hi (A ++ pk :: B)).mp h
  obtain ⟨hsA, hsPB, hcross⟩ := (sortedStrictB_append A (pk :: B)).mp hsorted
  obtain ⟨hsB, hpkB⟩ := sortedStrictB_cons pk B hsPB
  obtain ⟨hbpk, hlepk, hltpk⟩ := hall pk (by simp)
  refine ⟨?_, ?_, ?_, hbpk, hlepk, hltpk, ?_⟩
  · rw [keysOK_iff]
    refine ⟨hsA, fun a ha => ?_⟩
    obtain ⟨hb, hle, _⟩ := hall a (by simp [ha])
    exact ⟨hb, hle, decide_eq_true (hcross a ha pk (by simp))⟩
  · rw [keysOK_iff]
    refine ⟨hsPB, fun a ha => ?_⟩
    obtain ⟨hb, _, hlt⟩ := hall a (by simp [ha])
    refine ⟨hb, ?_, hlt⟩
    rcases List.mem_cons.mp ha with rfl | ha2
    · simp only [keyLE]
      exact decide_eq_true (le_of_eq (compareUUID_refl a))
    · simp only [keyLE]
      exact decide_eq_true (le_of_lt (hpkB a ha2))
  · rw [keysOK_iff]
    refine ⟨hsB, fun a ha => ?_⟩
    obtain ⟨hb, _, hlt⟩ := hall a (by simp [ha])
    exact ⟨hb, by simp only [keyLE]; exact decide_eq_true (le_of_lt (hpkB a ha)), hlt⟩
  · intro hne
    cases A with
    | nil => exact absurd rfl hne
    | cons a0 A =>
      obtain ⟨_, hle0, _⟩ := hall a0 (by simp)
      have h0pk : compareUUID a0 pk < 0 := hcross a0 (by simp) pk (by simp)
      cases lo with
      | none => rfl
      | some l =>
        simp only [keyLE] at hle0
        simp only [loLT]
        exact decide_eq_true (cmp_lt_of_le_of_lt (of_decide_eq_true hle0) h0pk)

theorem childrenWFB_split {T : Type} (order : Nat) :
    ∀ (mid : Nat) (ks : List Key) (cs : BNodes T) (lo hi : Option Key) (pk : Key),
    childrenWFB order lo ks cs hi = true → ks.get? mid = some pk →
    childrenWFB order lo (ks.take mid) (cs.take (mid + 1)) (some pk) = true ∧
    childrenWFB order (some pk) (ks.drop (mid + 1)) (cs.drop (mid + 1)) hi = true := by
  intro mid
  induction mid with
  | zero =>
    intro ks cs lo hi pk h hk
    cases ks with
    | nil => simp at hk
    | cons k0 ks =>
      simp only [List.get?] at hk
      obtain rfl := Option.some.inj hk
      cases cs with
      | nil => simp [childrenWFB] at h
      | cons c0 cs =>
        rw [childrenWFB, Bool.and_eq_true] at h
        simp only [List.take_zero, List.drop_succ_cons, List.drop_zero,
          BNodes.take, BNodes.drop]
        exact ⟨h.1, h.2⟩
  | succ mid ih =>
    intro ks cs lo hi pk h hk
    cases ks with
    | nil => simp at hk
    | cons k0 ks =>
      simp only [List.get?] at hk
      cases cs with
      | nil => simp [childrenWFB] at h
      | cons c0 cs =>
        rw [childrenWFB, Bool.and_eq_true] at h
        obtain ⟨hsplit1, hsplit2⟩ := ih ks cs (some k0) hi pk h.2 hk
        simp only [List.take_succ_cons, List.drop_succ_cons, BNodes.take, BNodes.drop]
        refine ⟨?_, hsplit2⟩
        rw [childrenWFB, Bool.and_eq_true]
        exact ⟨h.1, hsplit1⟩

theorem splitLeaf_main {T : Type} (order : Nat) (lo hi : Option Key)
    (ks : List Key) (vs : List T)
    (horder : 2 ≤ order) (hlen : ks.length = vs.length) (hcnt : ks.length = order)
    (hks : keysOK lo hi ks = true) :
    ∃ left pk pv right, splitLeaf ks vs = some (left, pk, pv, right) ∧
      nodeWFB order lo (some pk) left = true ∧
      nodeWFB order (some pk) hi right = true ∧
      keyBytesOK pk = true ∧ loLT lo pk = true ∧ keyLT pk hi = true ∧
      (∀ e ∈ flattenNode left ++ (pk, pv) :: flattenNode right, e ∈ ks.zip vs) ∧
      (∀ k2 ∈ ks, k2 ∈ (flattenNode left ++ (pk, pv) :: flattenNode right).map Prod.fst) := by
  have hmid1 : 1 ≤ ks.length / 2 := by omega
  have hmidlt : ks.length / 2 < ks.length := by omega
  obtain ⟨pk, hpk⟩ := get_of_lt_length (ks.length / 2) ks (by omega)
  obtain ⟨pv, hpv⟩ := get_of_lt_length (ks.length / 2) vs (by omega)
  have hdk := get_drop_cons (ks.length / 2) ks pk hpk
  have hdv := get_drop_cons (ks.length / 2) vs pv hpv
  have hA := get_take_cons_drop (ks.length / 2) ks pk hpk
  have hsplit : splitLeaf ks vs =
      some (.leaf (ks.take (ks.length / 2)) (vs.take (ks.length / 2)), pk, pv,
        .leaf (pk :: ks.drop (ks.length / 2 + 1)) (pv :: vs.drop (ks.length / 2 + 1))) := by
    simp only [splitLeaf]
    rw [hdk, hdv]
  obtain ⟨hOK1, hOK2, _, hbpk, _, hltpk, hloLT⟩ :=
    keysOK_split lo hi (ks.take (ks.length / 2)) (ks.drop (ks.length / 2 + 1)) pk
      (by rw [hA]; exact hks)
  have hlenTk : (ks.take (ks.length / 2)).length = ks.length / 2 := by
    simp [List.length_take]; omega
  have hlenTv : (vs.take (ks.length / 2)).length = ks.length / 2 := by
    simp [List.length_take]; omega
  have hlenDk : (ks.drop (ks.length / 2 + 1)).length = ks.length - (ks.length / 2 + 1) := by
    simp [List.length_drop]
  have hlenDv : (vs.drop (ks.length / 2 + 1)).length = ks.length - (ks.length / 2 + 1) := by
    simp [List.length_drop]; omega
  have hfL : flattenNode (BNode.leaf (ks.take (ks.length / 2)) (vs.take (ks.length / 2)))
      = (ks.take (ks.length / 2)).zip (vs.take (ks.length / 2)) := rfl
  have hfR : flattenNode (BNode.leaf (pk :: ks.drop (ks.length / 2 + 1))
        (pv :: vs.drop (ks.length / 2 + 1)))
      = (pk, pv) :: (ks.drop (ks.length / 2 + 1)).zip (vs.drop (ks.length / 2 + 1)) := rfl
  have hpkpvmem : (pk, pv) ∈ ks.zip vs := by
    have : (pk, pv) ∈ (ks.drop (ks.length / 2)).zip (vs.drop (ks.length / 2)) := by
      rw [hdk, hdv]; exact List.mem_cons_self _ _
    rw [zip_drop_drop] at this
    exact List.drop_subset _ _ this
  refine ⟨_, pk, pv, _, hsplit, ?_, ?_, hbpk, ?_, hltpk, ?_, ?_⟩
  · rw [nodeWFB_leaf_iff]
    exact ⟨by omega, by omega, hOK1⟩
  · rw [nodeWFB_leaf_iff]
    refine ⟨by simp only [List.length_cons]; omega, by simp only [List.length_cons]; omega, hOK2⟩
  · refine hloLT ?_
    intro hnil
    rw [hnil] at hlenTk
    simp at hlenTk
    omega
  · intro e he
    rw [hfL, hfR] at he
    rcases List.mem_append.mp he with h1 | h2
    · rw [zip_take_take] at h1
      exact List.take_subset _ _ h1
    · rcases List.mem_cons.mp h2 with rfl | h3
      · exact hpkpvmem
      · rcases List.mem_cons.mp h3 with rfl | h4
        · exact hpkpvmem
        · rw [zip_drop_drop] at h4
          exact List.drop_subset _ _ h4
  · intro k2 hk2
    have hmapL : ((ks.take (ks.length / 2)).zip (vs.take (ks.length / 2))).map Prod.fst
        = ks.take (ks.length / 2) := List.map_fst_zip _ _ (by omega)
    have hmapR : ((ks.drop (ks.length / 2 + 1)).zip
          (vs.drop (ks.length / 2 + 1))).map Prod.fst
        = ks.drop (ks.length / 2 + 1) := List.map_fst_zip _ _ (by omega)
    rw [hfL, hfR, List.map_append, List.map_cons, hmapL, List.map_cons, hmapR]
    have : k2 ∈ ks.take (ks.length / 2) ++ pk :: ks.drop (ks.length / 2 + 1) := by
      rw [hA]; exact hk2
    rcases List.mem_append.mp this with h1 | h2
    · exact List.mem_append.mpr (Or.inl h1)
    · rcases List.mem_cons.mp h2 with rfl | h3
      · exact List.mem_append.mpr (Or.inr (by simp))
      · exact List.mem_append.mpr (Or.inr (by simp [h3]))

theorem splitInternal_main {T : Type} (order : Nat) (lo hi : Option Key)
    (ks : List Key) (vs : List T) (cs : BNodes T)
    (horder : 2 ≤ order) (hlen : ks.length = vs.length) (hcnt : ks.length = order)
    (hks : keysOK lo hi ks = true) (hcs : childrenWFB order lo ks cs hi = true) :
    ∃ left pk pv right, splitInternal ks vs cs = some (left, pk, pv, right) ∧
      nodeWFB order lo (some pk) left = true ∧
      nodeWFB order (some pk) hi right = true ∧
      keyBytesOK pk = true ∧ loLT lo pk = true ∧ keyLT pk hi = true ∧
      flattenNode left ++ (pk, pv) :: flattenNode right = flattenGo ks vs cs := by
  have hmid1 : 1 ≤ ks.length / 2 := by omega
  have hmidlt : ks.length / 2 < ks.length := by omega
  obtain ⟨pk, hpk⟩ := get_of_lt_length (ks.length / 2) ks (by omega)
  obtain ⟨pv, hpv⟩ := get_of_lt_length (ks.length / 2) vs (by omega)
  have hA := get_take_cons_drop (ks.length / 2) ks pk hpk
  have hshape := childrenWFB_shape order ks cs lo hi hcs
  have hsplit : splitInternal ks vs cs =
      some (.internal (ks.take (ks.length / 2)) (vs.take (ks.length / 2))
              (cs.take (ks.length / 2 + 1)), pk, pv,
            .internal (ks.drop (ks.length / 2 + 1)) (vs.drop (ks.length / 2 + 1))
              (cs.drop (ks.length / 2 + 1))) := by
    simp only [splitInternal]
    rw [hpk, hpv]
  obtain ⟨hOK1, _, hOK3, hbpk, _, hltpk, hloLT⟩ :=
    keysOK_split lo hi (ks.take (ks.length / 2)) (ks.drop (ks.length / 2 + 1)) pk
      (by rw [hA]; exact hks)
  obtain ⟨hcsL, hcsR⟩ := childrenWFB_split order (ks.length / 2) ks cs lo hi pk hcs hpk
  have hlenTk : (ks.take (ks.length / 2)).length = ks.length / 2 := by
    simp [List.length_take]; omega
  refine ⟨_, pk, pv, _, hsplit, ?_, ?_, hbpk, ?_, hltpk, ?_⟩
  · rw [nodeWFB_internal_iff]
    refine ⟨?_, by omega, hOK1, hcsL⟩
    simp [List.length_take]; omega
  · rw [nodeWFB_internal_iff]
    refine ⟨?_, ?_, hOK3, hcsR⟩
    · simp [List.length_drop]; omega
    · simp [List.length_drop]; omega
  · refine hloLT ?_
    intro hnil
    rw [hnil] at hlenTk
    simp at hlenTk
    omega
  · exact flattenGo_split_eq (ks.length / 2) ks vs cs pk pv hpk hpv hlen hshape

theorem insertLeafGo_main {T : Type} (k : Key) (v : T) :
    ∀ (ks : List Key) (vs : List T) (lo hi : Option Key),
    ks.length = vs.length → keysOK lo hi ks = true →
    keyBytesOK k = true → keyLE lo k = true → keyLT k hi = true →
    ∀ ks' vs' rep, insertLeafGo k v ks vs = (ks', vs', rep) →
    ks'.length = vs'.length ∧ ks.length ≤ ks'.length ∧ ks'.length ≤ ks.length + 1 ∧
    keysOK lo hi ks' = true ∧
    (∀ e ∈ ks'.zip vs', e ∈ ks.zip vs ∨ e = (k, v)) ∧
    k ∈ ks' ∧ (∀ k2 ∈ ks, k2 ∈ ks') ∧
    (∀ b ∈ ks', b ∈ ks ∨ b = k) := by
  intro ks
  induction ks with
  | nil =>
    intro vs lo hi hlen hks hkb hkle hklt ks' vs' rep heq
    have heq2 : insertLeafGo k v [] vs = ([k], [v], false) := by cases vs <;> rfl
    rw [heq2] at heq
    injection heq with h1 h23
    injection h23 with h2 h3
    subst h1; subst h2; subst h3
    refine ⟨rfl, by simp, by simp, ?_, ?_, by simp, by simp, ?_⟩
    · rw [keysOK_iff]
      exact ⟨rfl, fun a ha => by rw [List.mem_singleton] at ha; subst ha; exact ⟨hkb, hkle, hklt⟩⟩
    · intro e he
      rw [show ([k] : List Key).zip [v] = [(k, v)] from rfl, List.mem_singleton] at he
      exact Or.inr he
    · intro b hb
      rw [List.mem_singleton] at hb
      exact Or.inr hb
  | cons k0 ks ih =>
    intro vs lo hi hlen hks hkb hkle hklt ks' vs' rep heq
    cases vs with
    | nil => simp at hlen
    | cons v0 vs =>
      simp only [List.length_cons] at hlen
      have hlen2 : ks.length = vs.length := by omega
      obtain ⟨hb0, hle0, hlt0, hksTl, _⟩ := keysOK_cons lo hi k0 ks hks
      obtain ⟨hsorted0, _⟩ := (keysOK_iff lo hi (k0 :: ks)).mp hks
      obtain ⟨hsTl, hballTl⟩ := sortedStrictB_cons k0 ks hsorted0
      by_cases hle : compareUUID k k0 ≤ 0
      · by_cases hz : compareUUID k k0 = 0
        · have hkk0 : k = k0 := compareUUID_eq_of_zero hz
            (by rw [keyBytesOK, Bool.and_eq_true, decide_eq_true_eq] at hkb; exact hkb.1)
            (by rw [keyBytesOK, Bool.and_eq_true, decide_eq_true_eq] at hb0; exact hb0.1)
          have heq2 : insertLeafGo k v (k0 :: ks) (v0 :: vs) = (k0 :: ks, v :: vs, true) := by
            simp only [insertLeafGo]
            rw [if_pos hle, if_pos hz]
          rw [heq2] at heq
          injection heq with h1 h23
          injection h23 with h2 h3
          subst h1; subst h2; subst h3
          refine ⟨by simp [hlen2], by simp, by simp, hks, ?_, by simp [hkk0], fun k2 h => h, fun b hb => Or.inl hb⟩
          intro e he
          rw [show (k0 :: ks).zip (v :: vs) = (k0, v) :: ks.zip vs from rfl, List.mem_cons] at he
          rcases he with rfl | he2
          · exact Or.inr (by rw [hkk0])
          · exact Or.inl (by rw [show (k0 :: ks).zip (v0 :: vs) = (k0, v0) :: ks.zip vs from rfl]; exact List.mem_cons_of_mem _ he2)
        · have hlt : compareUUID k k0 < 0 := lt_of_le_of_ne hle hz
          have heq2 : insertLeafGo k v (k0 :: ks) (v0 :: vs)
              = (k :: k0 :: ks, v :: v0 :: vs, false) := by
            simp only [insertLeafGo]
            rw [if_pos hle, if_neg hz]
          rw [heq2] at heq
          injection heq with h1 h23
          injection h23 with h2 h3
          subst h1; subst h2; subst h3
          refine ⟨by simp [hlen2], by simp, by simp, ?_, ?_, by simp, ?_, ?_⟩
          · rw [keysOK_iff]
            refine ⟨?_, ?_⟩
            · refine sortedStrictB_cons_of k (k0 :: ks) hsorted0 ?_
              intro b hb
              rcases List.mem_cons.mp hb with rfl | hb2
              · exact hlt
              · exact compareUUID_lt_trans hlt (hballTl b hb2)
            · intro a ha
              rcases List.mem_cons.mp ha with rfl | ha2
              · exact ⟨hkb, hkle, hklt⟩
              · exact ((keysOK_iff lo hi (k0 :: ks)).mp hks).2 a ha2
          · intro e he
            rw [show (k :: k0 :: ks).zip (v :: v0 :: vs)
                = (k, v) :: (k0 :: ks).zip (v0 :: vs) from rfl, List.mem_cons] at he
            rcases he with rfl | he2
            · exact Or.inr rfl
            · exact Or.inl he2
          · intro k2 h2
            exact List.mem_cons_of_mem _ h2
          · intro b hb
            rcases List.mem_cons.mp hb with rfl | hb2
            · exact Or.inr rfl
            · exact Or.inl hb2
      · rcases h0 : insertLeafGo k v ks vs with ⟨ks0, vs0, rep0⟩
        have heq2 : insertLeafGo k v (k0 :: ks) (v0 :: vs)
            = (k0 :: ks0, v0 :: vs0, rep0) := by
          simp only [insertLeafGo]
          rw [if_neg hle, h0]
        rw [heq2] at heq
        injection heq with h1 h23
        injection h23 with h2 h3
        subst h1; subst h2; subst h3
        have hk0k : compareUUID k0 k ≤ 0 := by
          have := compareUUID_neg k0 k
          omega
        obtain ⟨ihlen, ihlo, ihhi, ihks, ihzip, ihmem, ihcomp, ihprov⟩ :=
          ih vs (some k0) hi hlen2 hksTl hkb
            (by simp only [keyLE]; exact decide_eq_true hk0k) hklt ks0 vs0 rep0 h0
        obtain ⟨ihsorted, ihall⟩ := (keysOK_iff (some k0) hi ks0).mp ihks
        refine ⟨by simp [ihlen], by simp; omega, by simp; omega, ?_, ?_, List.mem_cons_of_mem _ ihmem, ?_, ?_⟩
        · rw [keysOK_iff]
          refine ⟨?_, ?_⟩
          · refine sortedStrictB_cons_of k0 ks0 ihsorted ?_
            intro b hb
            rcases ihprov b hb with hb1 | rfl
            · exact hballTl b hb1
            · have := compareUUID_neg k0 b
              omega
          · intro a ha
            rcases List.mem_cons.mp ha with rfl | ha2
            · exact ⟨hb0, hle0, hlt0⟩
            · obtain ⟨x, y, z⟩ := ihall a ha2
              refine ⟨x, ?_, z⟩
              simp only [keyLE] at y
              exact keyLE_of_le hle0 (of_decide_eq_true y)
        · intro e he
          rw [show (k0 :: ks0).zip (v0 :: vs0) = (k0, v0) :: ks0.zip vs0 from rfl,
            List.mem_cons] at he
          rcases he with rfl | he2
          · exact Or.inl (by rw [show (k0 :: ks).zip (v0 :: vs) = (k0, v0) :: ks.zip vs from rfl]; simp)
          · rcases ihzip e he2 with h | h
            · exact Or.inl (by rw [show (k0 :: ks).zip (v0 :: vs) = (k0, v0) :: ks.zip vs from rfl]; exact List.mem_cons_of_mem _ h)
            · exact Or.inr h
        · intro k2 hk2
          rcases List.mem_cons.mp hk2 with rfl | hk22
          · simp
          · exact List.mem_cons_of_mem _ (ihcomp k2 hk22)
        · intro b hb
          rcases List.mem_cons.mp hb with rfl | hb2
          · exact Or.inl (by simp)
          · rcases ihprov b hb2 with h | h
            · exact Or.inl (List.mem_cons_of_mem _ h)
            · exact Or.inr h

theorem keyLT_some_iff (a b : Key) : keyLT a (some b) = true ↔ compareUUID a b < 0 := by
  simp [keyLT]

theorem keyLE_some_iff (a b : Key) : keyLE (some a) b = true ↔ compareUUID a b ≤ 0 := by
  simp [keyLE]

theorem loLT_some_iff (a b : Key) : loLT (some a) b = true ↔ compareUUID a b < 0 := by
  simp [loLT]

theorem loLT_of_keyLE_lt {lo : Option Key} {a b : Key} (h : keyLE lo a = true)
    (hab : compareUUID a b < 0) : loLT lo b = true := by
  cases lo with
  | none => rfl
  | some l =>
    rw [keyLE_some_iff] at h
    rw [loLT_some_iff]
    exact cmp_lt_of_le_of_lt h hab

theorem keyBytesOK_length {k : Key} (h : keyBytesOK k = true) : k.length = 16 := by
  rw [keyBytesOK, Bool.and_eq_true, decide_eq_true_eq] at h
  exact h.1

mutual

theorem insertNode_main {T : Type} (order : Nat) (k : Key) (v : T) (horder : 2 ≤ order)
    (hkb : keyBytesOK k = true) :
    ∀ (n : BNode T) (lo hi : Option Key),
    nodeWFB order lo hi n = true → keyLE lo k = true → keyLT k hi = true →
    ∀ n' promo rep, insertNode order k v n = (n', promo, rep) →
    (promo = none →
      nodeWFB order lo hi n' = true ∧
      (∀ e ∈ flattenNode n', e ∈ flattenNode n ∨ e = (k, v)) ∧
      k ∈ (flattenNode n').map Prod.fst ∧
      (∀ k2 ∈ (flattenNode n).map Prod.fst, k2 ∈ (flattenNode n').map Prod.fst)) ∧
    (∀ pk pv r, promo = some (pk, pv, r) →
      nodeWFB order lo (some pk) n' = true ∧
      nodeWFB order (some pk) hi r = true ∧
      keyBytesOK pk = true ∧ loLT lo pk = true ∧ keyLT pk hi = true ∧
      (∀ e ∈ flattenNode n' ++ (pk, pv) :: flattenNode r,
        e ∈ flattenNode n ∨ e = (k, v)) ∧
      k ∈ (flattenNode n' ++ (pk, pv) :: flattenNode r).map Prod.fst ∧
      (∀ k2 ∈ (flattenNode n).map Prod.fst,
        k2 ∈ (flattenNode n' ++ (pk, pv) :: flattenNode r).map Prod.fst))
  | .leaf ks vs => by
    intro lo hi hwf hle hlt n' promo rep heq
    obtain ⟨hlen, hcnt, hks⟩ := (nodeWFB_leaf_iff order lo hi ks vs).mp hwf
    rcases h0 : insertLeafGo k v ks vs with ⟨ks0, vs0, rep0⟩
    obtain ⟨ilen, ilo, ihi, iks, izip, imem, icomp, iprov⟩ :=
      insertLeafGo_main k v ks vs lo hi hlen hks hkb hle hlt ks0 vs0 rep0 h0
    have hfL : flattenNode (BNode.leaf ks vs) = ks.zip vs := rfl
    have hmapOld : (ks.zip vs).map Prod.fst = ks := List.map_fst_zip _ _ (le_of_eq hlen)
    have hmapNew : (ks0.zip vs0).map Prod.fst = ks0 := List.map_fst_zip _ _ (le_of_eq ilen)
    by_cases hfull : order ≤ ks0.length
    · have hcnt0 : ks0.length = order := by omega
      obtain ⟨left, pk, pv, right, hsp, hwfL, hwfR, hbpk, hlopk, hhipk, hprovS, hcompS⟩ :=
        splitLeaf_main order lo hi ks0 vs0 horder ilen hcnt0 iks
      have heq2 : insertNode order k v (.leaf ks vs) = (left, some (pk, pv, right), rep0) := by
        simp only [insertNode]
        rw [h0, if_pos hfull, hsp]
      rw [heq2] at heq
      injection heq with h1 h23
      injection h23 with h2 h3
      subst h1; subst h2; subst h3
      constructor
      · intro hno
        exact absurd hno (by simp)
      · intro pk2 pv2 r2 hsome
        injection hsome with hs
        injection hs with e1 e23
        injection e23 with e2 e3
        subst e1; subst e2; subst e3
        refine ⟨hwfL, hwfR, hbpk, hlopk, hhipk, ?_, ?_, ?_⟩
        · intro e he
          rcases izip e (hprovS e he) with h | h
          · exact Or.inl (by rw [hfL]; exact h)
          · exact Or.inr h
        · exact hcompS k imem
        · intro k2 hk2
          rw [hfL, hmapOld] at hk2
          exact hcompS k2 (icomp k2 hk2)
    · have heq2 : insertNode order k v (.leaf ks vs) = (.leaf ks0 vs0, none, rep0) := by
        simp only [insertNode]
        rw [h0, if_neg hfull]
      rw [heq2] at heq
      injection heq with h1 h23
      injection h23 with h2 h3
      subst h1; subst h2; subst h3
      constructor
      · intro _
        refine ⟨?_, ?_, ?_, ?_⟩
        · rw [nodeWFB_leaf_iff]
          exact ⟨ilen, by omega, iks⟩
        · intro e he
          rcases izip e he with h | h
          · exact Or.inl (by rw [hfL]; exact h)
          · exact Or.inr h
        · rw [show flattenNode (BNode.leaf ks0 vs0) = ks0.zip vs0 from rfl, hmapNew]
          exact imem
        · intro k2 hk2
          rw [hfL, hmapOld] at hk2
          rw [show flattenNode (BNode.leaf ks0 vs0) = ks0.zip vs0 from rfl, hmapNew]
          exact icomp k2 hk2
      · intro pk pv r hsome
        exact absurd hsome (by simp)
  | .internal ks vs cs => by
    intro lo hi hwf hle hlt n' promo rep heq
    obtain ⟨hlen, hcnt, hks, hcs⟩ := (nodeWFB_internal_iff order lo hi ks vs cs).mp hwf
    rcases h0 : insertIntGo order k v ks vs cs with ⟨ks0, vs0, cs0, rep0⟩
    obtain ⟨ilen, icslen, ilo, ihi, iks, ics, ibprov, izip, imem, icomp⟩ :=
      insertIntGo_main order k v horder hkb ks vs cs lo hi hlen hks hcs hle hlt
        ks0 vs0 cs0 rep0 h0
    have hfI : flattenNode (BNode.internal ks vs cs) = flattenGo ks vs cs := rfl
    by_cases hfull : order ≤ ks0.length
    · have hcnt0 : ks0.length = order := by omega
      obtain ⟨left, pk, pv, right, hsp, hwfL, hwfR, hbpk, hlopk, hhipk, hflatEq⟩ :=
        splitInternal_main order lo hi ks0 vs0 cs0 horder ilen hcnt0 iks ics
      have heq2 : insertNode order k v (.internal ks vs cs)
          = (left, some (pk, pv, right), rep0) := by
        simp only [insertNode]
        rw [h0, if_pos hfull, hsp]
      rw [heq2] at heq
      injection heq with h1 h23
      injection h23 with h2 h3
      subst h1; subst h2; subst h3
      constructor
      · intro hno
        exact absurd hno (by simp)
      · intro pk2 pv2 r2 hsome
        injection hsome with hs
        injection hs with e1 e23
        injection e23 with e2 e3
        subst e1; subst e2; subst e3
        refine ⟨hwfL, hwfR, hbpk, hlopk, hhipk, ?_, ?_, ?_⟩
        · intro e he
          rw [hflatEq] at he
          rcases izip e he with h | h
          · exact Or.inl (by rw [hfI]; exact h)
          · exact Or.inr h
        · rw [hflatEq]
          exact imem
        · intro k2 hk2
          rw [hfI] at hk2
          rw [hflatEq]
          exact icomp k2 hk2
    · have heq2 : insertNode order k v (.internal ks vs cs)
          = (.internal ks0 vs0 cs0, none, rep0) := by
        simp only [insertNode]
        rw [h0, if_neg hfull]
      rw [heq2] at heq
      injection heq with h1 h23
      injection h23 with h2 h3
      subst h1; subst h2; subst h3
      constructor
      · intro _
        refine ⟨?_, ?_, ?_, ?_⟩
        · rw [nodeWFB_internal_iff]
          exact ⟨ilen, by omega, iks, ics⟩
        · intro e he
          rcases izip e he with h | h
          · exact Or.inl (by rw [hfI]; exact h)
          · exact Or.inr h
        · exact imem
        · intro k2 hk2
          rw [hfI] at hk2
          exact icomp k2 hk2
      · intro pk pv r hsome
        exact absurd hsome (by simp)

theorem insertIntGo_main {T : Type} (order : Nat) (k : Key) (v : T) (horder : 2 ≤ order)
    (hkb : keyBytesOK k = true) :
    ∀ (ks : List Key) (vs : List T) (cs : BNodes T) (lo hi : Option Key),
    ks.length = vs.length → keysOK lo hi ks = true →
    childrenWFB order lo ks cs hi = true →
    keyLE lo k = true → keyLT k hi = true →
    ∀ ks' vs' cs' rep, insertIntGo order k v ks vs cs = (ks', vs', cs', rep) →
    ks'.length = vs'.length ∧ BNodes.length cs' = ks'.length + 1 ∧
    ks.length ≤ ks'.length ∧ ks'.length ≤ ks.length + 1 ∧
    keysOK lo hi ks' = true ∧ childrenWFB order lo ks' cs' hi = true ∧
    (∀ b ∈ ks', b ∈ ks ∨ b = k ∨ loLT lo b = true) ∧
    (∀ e ∈ flattenGo ks' vs' cs', e ∈ flattenGo ks vs cs ∨ e = (k, v)) ∧
    k ∈ (flattenGo ks' vs' cs').map Prod.fst ∧
    (∀ k2 ∈ (flattenGo ks vs cs).map Prod.fst, k2 ∈ (flattenGo ks' vs' cs').map Prod.fst)
  | k0 :: ks, v0 :: vs, .cons c0 cs => by
    intro lo hi hlen hks hcs hle hlt ks' vs' cs' rep heq
    simp only [List.length_cons] at hlen
    have hlen2 : ks.length = vs.length := by omega
    rw [childrenWFB, Bool.and_eq_true] at hcs
    obtain ⟨hc0, hcsTl⟩ := hcs
    obtain ⟨hb0, hle0, hlt0, hksTl, _⟩ := keysOK_cons lo hi k0 ks hks
    obtain ⟨hsorted0, hall0⟩ := (keysOK_iff lo hi (k0 :: ks)).mp hks
    obtain ⟨hsTl, hballTl⟩ := sortedStrictB_cons k0 ks hsorted0
    have hshapeTl := childrenWFB_shape order ks cs (some k0) hi hcsTl
    have hfgo : flattenGo (k0 :: ks) (v0 :: vs) (BNodes.cons c0 cs)
        = flattenNode c0 ++ (k0, v0) :: flattenGo ks vs cs := rfl
    by_cases h1 : compareUUID k k0 ≤ 0
    · by_cases hz : compareUUID k k0 = 0
      · have hkk0 : k = k0 := compareUUID_eq_of_zero hz
          (keyBytesOK_length hkb) (keyBytesOK_length hb0)
        have heq2 : insertIntGo order k v (k0 :: ks) (v0 :: vs) (.cons c0 cs)
            = (k0 :: ks, v :: vs, .cons c0 cs, true) := by
          simp only [insertIntGo]
          rw [if_pos h1, if_pos hz]
        rw [heq2] at heq
        injection heq with e1 e234
        injection e234 with e2 e34
        injection e34 with e3 e4
        subst e1; subst e2; subst e3; subst e4
        have hfgo2 : flattenGo (k0 :: ks) (v :: vs) (BNodes.cons c0 cs)
            = flattenNode c0 ++ (k0, v) :: flattenGo ks vs cs := rfl
        refine ⟨by simp; omega, ?_, le_refl _, by omega, hks, ?_, ?_, ?_, ?_, ?_⟩
        · simp [BNodes.length, hshapeTl]
        · rw [childrenWFB, Bool.and_eq_true]
          exact ⟨hc0, hcsTl⟩
        · intro b hb
          exact Or.inl hb
        · intro e he
          rw [hfgo2] at he
          rcases List.mem_append.mp he with h | h
          · exact Or.inl (by rw [hfgo]; exact List.mem_append.mpr (Or.inl h))
          · rcases List.mem_cons.mp h with rfl | h2
            · exact Or.inr (by rw [hkk0])
            · exact Or.inl (by rw [hfgo]; exact List.mem_append.mpr (Or.inr (List.mem_cons_of_mem _ h2)))
        · rw [hfgo2, List.map_append, List.map_cons]
          exact List.mem_append.mpr (Or.inr (by rw [hkk0]; simp))
        · intro k2 hk2
          rw [hfgo, List.map_append, List.map_cons] at hk2
          rw [hfgo2, List.map_append, List.map_cons]
          exact hk2
      · have hltk0 : compareUUID k k0 < 0 := lt_of_le_of_ne h1 hz
        rcases hrec : insertNode order k v c0 with ⟨c0', promo, rep1⟩
        obtain ⟨hnone, hsome⟩ := insertNode_main order k v horder hkb c0 lo (some k0)
          hc0 hle (by rw [keyLT_some_iff]; exact hltk0) c0' promo rep1 hrec
        cases promo with
        | none =>
          obtain ⟨jwf, jprov, jmem, jcomp⟩ := hnone rfl
          have heq2 : insertIntGo order k v (k0 :: ks) (v0 :: vs) (.cons c0 cs)
              = (k0 :: ks, v0 :: vs, .cons c0' cs, rep1) := by
            simp only [insertIntGo]
            rw [if_pos h1, if_neg hz, hrec]
          rw [heq2] at heq
          injection heq with e1 e234
          injection e234 with e2 e34
          injection e34 with e3 e4
          subst e1; subst e2; subst e3; subst e4
          have hfgo2 : flattenGo (k0 :: ks) (v0 :: vs) (BNodes.cons c0' cs)
              = flattenNode c0' ++ (k0, v0) :: flattenGo ks vs cs := rfl
          refine ⟨by simp; omega, ?_, le_refl _, by omega, hks, ?_, ?_, ?_, ?_, ?_⟩
          · simp [BNodes.length, hshapeTl]
          · rw [childrenWFB, Bool.and_eq_true]
            exact ⟨jwf, hcsTl⟩
          · intro b hb
            exact Or.inl hb
          · intro e he
            rw [hfgo2] at he
            rcases List.mem_append.mp he with h | h
            · rcases jprov e h with h2 | h2
              · exact Or.inl (by rw [hfgo]; exact List.mem_append.mpr (Or.inl h2))
              · exact Or.inr h2
            · exact Or.inl (by rw [hfgo]; exact List.mem_append.mpr (Or.inr h))
          · rw [hfgo2, List.map_append]
            exact List.mem_append.mpr (Or.inl jmem)
          · intro k2 hk2
            rw [hfgo, List.map_append] at hk2
            rw [hfgo2, List.map_append]
            rcases List.mem_append.mp hk2 with h | h
            · exact List.mem_append.mpr (Or.inl (jcomp k2 h))
            · exact List.mem_append.mpr (Or.inr h)
        | some pr =>
          rcases pr with ⟨pk, pv, r⟩
          obtain ⟨jwfL, jwfR, jbpk, jlopk, jhipk, jprov, jmem, jcomp⟩ :=
            hsome pk pv r rfl
          have hpkk0 : compareUUID pk k0 < 0 := (keyLT_some_iff pk k0).mp jhipk
          have heq2 : insertIntGo order k v (k0 :: ks) (v0 :: vs) (.cons c0 cs)
              = (pk :: k0 :: ks, pv :: v0 :: vs, .cons c0' (.cons r cs), rep1) := by
            simp only [insertIntGo]
            rw [if_pos h1, if_neg hz, hrec]
          rw [heq2] at heq
          injection heq with e1 e234
          injection e234 with e2 e34
          injection e34 with e3 e4
          subst e1; subst e2; subst e3; subst e4
          have hfgo2 : flattenGo (pk :: k0 :: ks) (pv :: v0 :: vs)
                (BNodes.cons c0' (BNodes.cons r cs))
              = flattenNode c0' ++ (pk, pv) ::
                  (flattenNode r ++ (k0, v0) :: flattenGo ks vs cs) := rfl
          refine ⟨by simp; omega, ?_, by simp, by simp, ?_, ?_, ?_, ?_, ?_, ?_⟩
          · simp [BNodes.length, hshapeTl]
          · rw [keysOK_iff]
            constructor
            · refine sortedStrictB_cons_of pk (k0 :: ks) hsorted0 ?_
              intro b hb
              rcases List.mem_cons.mp hb with rfl | hb2
              · exact hpkk0
              · exact compareUUID_lt_trans hpkk0 (hballTl b hb2)
            · intro a ha
              rcases List.mem_cons.mp ha with rfl | ha2
              · exact ⟨jbpk, keyLE_of_loLT jlopk, keyLT_of_le hlt0 (le_of_lt hpkk0)⟩
              · exact hall0 a ha2
          · rw [childrenWFB, Bool.and_eq_true, childrenWFB, Bool.and_eq_true]
            exact ⟨jwfL, jwfR, hcsTl⟩
          · intro b hb
            rcases List.mem_cons.mp hb with rfl | hb2
            · exact Or.inr (Or.inr jlopk)
            · exact Or.inl hb2
          · intro e he
            rw [hfgo2] at he
            have hre : e ∈ flattenNode c0' ++ (pk, pv) :: flattenNode r ∨
                e = (k0, v0) ∨ e ∈ flattenGo ks vs cs := by
              rcases List.mem_append.mp he with h | h
              · exact Or.inl (List.mem_append.mpr (Or.inl h))
              · rcases List.mem_cons.mp h with rfl | h2
                · exact Or.inl (List.mem_append.mpr (Or.inr (by simp)))
                · rcases List.mem_append.mp h2 with h3 | h3
                  · exact Or.inl (List.mem_append.mpr (Or.inr (List.mem_cons_of_mem _ h3)))
                  · rcases List.mem_cons.mp h3 with rfl | h4
                    · exact Or.inr (Or.inl rfl)
                    · exact Or.inr (Or.inr h4)
            rcases hre with h | h | h
            · rcases jprov e h with h2 | h2
              · exact Or.inl (by rw [hfgo]; exact List.mem_append.mpr (Or.inl h2))
              · exact Or.inr h2
            · exact Or.inl (by rw [hfgo, h]; exact List.mem_append.mpr (Or.inr (by simp)))
            · exact Or.inl (by rw [hfgo]; exact List.mem_append.mpr (Or.inr (List.mem_cons_of_mem _ h)))
          · rw [hfgo2, List.map_append, List.map_cons, List.map_append, List.map_cons]
            rw [List.map_append, List.map_cons] at jmem
            rcases List.mem_append.mp jmem with h | h
            · exact List.mem_append.mpr (Or.inl h)
            · rcases List.mem_cons.mp h with rfl | h2
              · exact List.mem_append.mpr (Or.inr (by simp))
              · exact List.mem_append.mpr (Or.inr (List.mem_cons_of_mem _
                  (List.mem_append.mpr (Or.inl h2))))
          · intro k2 hk2
            rw [hfgo, List.map_append, List.map_cons] at hk2
            rw [hfgo2, List.map_append, List.map_cons, List.map_append, List.map_cons]
            rcases List.mem_append.mp hk2 with h | h
            · have := jcomp k2 h
              rw [List.map_append, List.map_cons] at this
              rcases List.mem_append.mp this with h2 | h2
              · exact List.mem_append.mpr (Or.inl h2)
              · rcases List.mem_cons.mp h2 with rfl | h3
                · exact List.mem_append.mpr (Or.inr (by simp))
                · exact List.mem_append.mpr (Or.inr (List.mem_cons_of_mem _
                    (List.mem_append.mpr (Or.inl h3))))
            · rcases List.mem_cons.mp h with rfl | h2
              · exact List.mem_append.mpr (Or.inr (List.mem_cons_of_mem _
                  (List.mem_append.mpr (Or.inr (by simp)))))
              · exact List.mem_append.mpr (Or.inr (List.mem_cons_of_mem _
                  (List.mem_append.mpr (Or.inr (List.mem_cons_of_mem _ h2)))))
    · have hk0k : compareUUID k0 k < 0 := by
        have := compareUUID_neg k0 k
        omega
      rcases hrec : insertIntGo order k v ks vs cs with ⟨ks0, vs0, cs0, rep1⟩
      obtain ⟨ilen, icslen, ilo, ihi, iks, ics, ibprov, izip, imem, icomp⟩ :=
        insertIntGo_main order k v horder hkb ks vs cs (some k0) hi hlen2 hksTl hcsTl
          (by rw [keyLE_some_iff]; exact le_of_lt hk0k) hlt ks0 vs0 cs0 rep1 hrec
      have heq2 : insertIntGo order k v (k0 :: ks) (v0 :: vs) (.cons c0 cs)
          = (k0 :: ks0, v0 :: vs0, .cons c0 cs0, rep1) := by
        simp only [insertIntGo]
        rw [if_neg h1, hrec]
      rw [heq2] at heq
      injection heq with e1 e234
      injection e234 with e2 e34
      injection e34 with e3 e4
      subst e1; subst e2; subst e3; subst e4
      obtain ⟨isorted, iall⟩ := (keysOK_iff (some k0) hi ks0).mp iks
      have hfgo2 : flattenGo (k0 :: ks0) (v0 :: vs0) (BNodes.cons c0 cs0)
          = flattenNode c0 ++ (k0, v0) :: flattenGo ks0 vs0 cs0 := rfl
      refine ⟨by simp [ilen], ?_, by simp; omega, by simp; omega, ?_, ?_, ?_, ?_, ?_, ?_⟩
      · simp [BNodes.length, icslen]
      · rw [keysOK_iff]
        constructor
        · refine sortedStrictB_cons_of k0 ks0 isorted ?_
          intro b hb
          rcases ibprov b hb with h | h | h
          · exact hballTl b h
          · subst h; exact hk0k
          · exact (loLT_some_iff k0 b).mp h
        · intro a ha
          rcases List.mem_cons.mp ha with rfl | ha2
          · exact ⟨hb0, hle0, hlt0⟩
          · obtain ⟨x, y, z⟩ := iall a ha2
            exact ⟨x, keyLE_of_le hle0 ((keyLE_some_iff k0 a).mp y), z⟩
      · rw [childrenWFB, Bool.and_eq_true]
        exact ⟨hc0, ics⟩
      · intro b hb
        rcases List.mem_cons.mp hb with rfl | hb2
        · exact Or.inl (by simp)
        · rcases ibprov b hb2 with h | h | h
          · exact Or.inl (List.mem_cons_of_mem _ h)
          · exact Or.inr (Or.inl h)
          · exact Or.inr (Or.inr (loLT_of_keyLE_lt hle0 ((loLT_some_iff k0 b).mp h)))
      · intro e he
        rw [hfgo2] at he
        rcases List.mem_append.mp he with h | h
        · exact Or.inl (by rw [hfgo]; exact List.mem_append.mpr (Or.inl h))
        · rcases List.mem_cons.mp h with rfl | h2
          · exact Or.inl (by rw [hfgo]; exact List.mem_append.mpr (Or.inr (by simp)))
          · rcases izip e h2 with h3 | h3
            · exact Or.inl (by rw [hfgo]; exact List.mem_append.mpr (Or.inr (List.mem_cons_of_mem _ h3)))
            · exact Or.inr h3
      · rw [hfgo2, List.map_append, List.map_cons]
        exact List.mem_append.mpr (Or.inr (List.mem_cons_of_mem _ imem))
      · intro k2 hk2
        rw [hfgo, List.map_append, List.map_cons] at hk2
        rw [hfgo2, List.map_append, List.map_cons]
        rcases List.mem_append.mp hk2 with h | h
        · exact List.mem_append.mpr (Or.inl h)
        · rcases List.mem_cons.mp h with rfl | h2
          · exact List.mem_append.mpr (Or.inr (by simp))
          · exact List.mem_append.mpr (Or.inr (List.mem_cons_of_mem _ (icomp k2 h2)))
  | [], vs, .cons c0 cs => by
    intro lo hi hlen hks hcs hle hlt ks' vs' cs' rep heq
    cases vs with
    | cons a b => simp at hlen
    | nil =>
    cases cs with
    | cons c1 cs2 =>
      rw [show childrenWFB order lo [] (BNodes.cons c0 (BNodes.cons c1 cs2)) hi
          = false from rfl] at hcs
      exact absurd hcs (by simp)
    | nil =>
      rw [childrenWFB] at hcs
      rcases hrec : insertNode order k v c0 with ⟨c0', promo, rep1⟩
      obtain ⟨hnone, hsome⟩ := insertNode_main order k v horder hkb c0 lo hi
        hcs hle hlt c0' promo rep1 hrec
      cases promo with
      | none =>
        obtain ⟨jwf, jprov, jmem, jcomp⟩ := hnone rfl
        have heq2 : insertIntGo order k v [] [] (.cons c0 .nil)
            = ([], [], .cons c0' .nil, rep1) := by
          simp only [insertIntGo]
          rw [hrec]
        rw [heq2] at heq
        injection heq with e1 e234
        injection e234 with e2 e34
        injection e34 with e3 e4
        subst e1; subst e2; subst e3; subst e4
        have hfg1 : flattenGo ([] : List Key) ([] : List T) (BNodes.cons c0 BNodes.nil)
            = flattenNode c0 := rfl
        have hfg2 : flattenGo ([] : List Key) ([] : List T) (BNodes.cons c0' BNodes.nil)
            = flattenNode c0' := rfl
        refine ⟨rfl, rfl, le_refl _, by omega, hks, ?_, by simp, ?_, ?_, ?_⟩
        · rw [childrenWFB]
          exact jwf
        · intro e he
          rw [hfg2] at he
          rcases jprov e he with h | h
          · exact Or.inl (by rw [hfg1]; exact h)
          · exact Or.inr h
        · rw [hfg2]
          exact jmem
        · intro k2 hk2
          rw [hfg1] at hk2
          rw [hfg2]
          exact jcomp k2 hk2
      | some pr =>
        rcases pr with ⟨pk, pv, r⟩
        obtain ⟨jwfL, jwfR, jbpk, jlopk, jhipk, jprov, jmem, jcomp⟩ := hsome pk pv r rfl
        have heq2 : insertIntGo order k v [] [] (.cons c0 .nil)
            = ([pk], [pv], .cons c0' (.cons r .nil), rep1) := by
          simp only [insertIntGo]
          rw [hrec]
        rw [heq2] at heq
        injection heq with e1 e234
        injection e234 with e2 e34
        injection e34 with e3 e4
        subst e1; subst e2; subst e3; subst e4
        have hfg1 : flattenGo ([] : List Key) ([] : List T) (BNodes.cons c0 BNodes.nil)
            = flattenNode c0 := rfl
        have hfg2 : flattenGo [pk] [pv] (BNodes.cons c0' (BNodes.cons r BNodes.nil))
            = flattenNode c0' ++ (pk, pv) :: flattenNode r := rfl
        refine ⟨rfl, rfl, by simp, by simp, ?_, ?_, ?_, ?_, ?_, ?_⟩
        · rw [keysOK_iff]
          refine ⟨rfl, fun a ha => ?_⟩
          rw [List.mem_singleton] at ha
          subst ha
          exact ⟨jbpk, keyLE_of_loLT jlopk, jhipk⟩
        · rw [childrenWFB, Bool.and_eq_true, childrenWFB]
          exact ⟨jwfL, jwfR⟩
        · intro b hb
          rw [List.mem_singleton] at hb
          subst hb
          exact Or.inr (Or.inr jlopk)
        · intro e he
          rw [hfg2] at he
          rcases jprov e he with h | h
          · exact Or.inl (by rw [hfg1]; exact h)
          · exact Or.inr h
        · rw [hfg2]
          exact jmem
        · intro k2 hk2
          rw [hfg1] at hk2
          rw [hfg2]
          exact jcomp k2 hk2
  | k0 :: ks, [], .cons c0 cs => by
    intro lo hi hlen _ _ _ _ ks' vs' cs' rep heq
    simp at hlen
  | ks, vs, .nil => by
    intro lo hi hlen hks hcs hle hlt ks' vs' cs' rep heq
    have hfalse : childrenWFB order lo ks (BNodes.nil : BNodes T) hi = false := by
      cases ks <;> rfl
    rw [hfalse] at hcs
    exact absurd hcs (by simp)

end

theorem searchLeafGo_sound {T : Type} (k : Key) (hkb : keyBytesOK k = true) :
    ∀ (ks : List Key) (vs : List T) (lo hi : Option Key), keysOK lo hi ks = true →
    ∀ v, searchLeafGo k ks vs = some v → (k, v) ∈ ks.zip vs := by
  intro ks
  induction ks with
  | nil =>
    intro vs lo hi hks v hv
    cases vs <;> simp [searchLeafGo] at hv
  | cons k0 ks ih =>
    intro vs lo hi hks v hv
    cases vs with
    | nil => simp [searchLeafGo] at hv
    | cons v0 vs =>
      obtain ⟨hb0, _, _, hksTl, _⟩ := keysOK_cons lo hi k0 ks hks
      rw [searchLeafGo] at hv
      by_cases h1 : compareUUID k k0 ≤ 0
      · rw [if_pos h1] at hv
        by_cases hz : compareUUID k k0 = 0
        · rw [if_pos hz] at hv
          obtain rfl := Option.some.inj hv
          have hkk0 : k = k0 := compareUUID_eq_of_zero hz
            (keyBytesOK_length hkb) (keyBytesOK_length hb0)
          subst hkk0
          exact List.mem_cons_self _ _
        · rw [if_neg hz] at hv
          exact absurd hv (by simp)
      · rw [if_neg h1] at hv
        exact List.mem_cons_of_mem _ (ih vs (some k0) hi hksTl v hv)

theorem searchLeafGo_complete {T : Type} (k : Key) :
    ∀ (ks : List Key) (vs : List T) (lo hi : Option Key), keysOK lo hi ks = true →
    ∀ v0, (k, v0) ∈ ks.zip vs → ∃ v, searchLeafGo k ks vs = some v := by
  intro ks
  induction ks with
  | nil =>
    intro vs lo hi _ v0 hmem
    cases vs <;> simp at hmem
  | cons k0 ks ih =>
    intro vs lo hi hks v0 hmem
    cases vs with
    | nil => simp at hmem
    | cons w0 vs =>
      obtain ⟨hsorted, _⟩ := (keysOK_iff lo hi (k0 :: ks)).mp hks
      obtain ⟨hsTl, hballTl⟩ := sortedStrictB_cons k0 ks hsorted
      obtain ⟨_, _, _, hksTl, _⟩ := keysOK_cons lo hi k0 ks hks
      rw [show (k0 :: ks).zip (w0 :: vs) = (k0, w0) :: ks.zip vs from rfl,
        List.mem_cons] at hmem
      rcases hmem with hhead | htail
      · have hk : k = k0 := congrArg Prod.fst hhead
        subst hk
        refine ⟨w0, ?_⟩
        rw [searchLeafGo, if_pos (le_of_eq (compareUUID_refl k)),
          if_pos (compareUUID_refl k)]
      · have hkmem : k ∈ ks := (List.of_mem_zip htail).1
        have hgt : compareUUID k0 k < 0 := hballTl k hkmem
        have hnle : ¬ compareUUID k k0 ≤ 0 := by
          have := compareUUID_neg k k0
          omega
        obtain ⟨v, hv⟩ := ih vs (some k0) hi hksTl v0 htail
        refine ⟨v, ?_⟩
        rw [searchLeafGo, if_neg hnle]
        exact hv

mutual

theorem searchNode_sound {T : Type} (order : Nat) (k : Key) (hkb : keyBytesOK k = true) :
    ∀ (n : BNode T) (lo hi : Option Key), nodeWFB order lo hi n = true →
    ∀ v, searchNode k n = some v → (k, v) ∈ flattenNode n
  | .leaf ks vs => by
    intro lo hi hwf v hv
    obtain ⟨_, _, hks⟩ := (nodeWFB_leaf_iff order lo hi ks vs).mp hwf
    rw [show searchNode k (BNode.leaf ks vs) = searchLeafGo k ks vs from rfl] at hv
    exact searchLeafGo_sound k hkb ks vs lo hi hks v hv
  | .internal ks vs cs => by
    intro lo hi hwf v hv
    obtain ⟨_, _, hks, hcs⟩ := (nodeWFB_internal_iff order lo hi ks vs cs).mp hwf
    rw [show searchNode k (BNode.internal ks vs cs) = searchIntGo k ks vs cs from rfl] at hv
    exact searchIntGo_sound order k hkb cs ks vs lo hi hks hcs v hv

theorem searchIntGo_sound {T : Type} (order : Nat) (k : Key) (hkb : keyBytesOK k = true) :
    ∀ (cs : BNodes T) (ks : List Key) (vs : List T) (lo hi : Option Key),
    keysOK lo hi ks = true → childrenWFB order lo ks cs hi = true →
    ∀ v, searchIntGo k ks vs cs = some v → (k, v) ∈ flattenGo ks vs cs
  | .nil => by
    intro ks vs lo hi _ hcs v hv
    have hfalse : childrenWFB order lo ks (BNodes.nil : BNodes T) hi = false := by
      cases ks <;> rfl
    rw [hfalse] at hcs
    exact absurd hcs (by simp)
  | .cons c0 cs => by
    intro ks vs lo hi hks hcs v hv
    cases ks with
    | nil =>
      cases cs with
      | cons c1 cs2 =>
        rw [show childrenWFB order lo [] (BNodes.cons c0 (BNodes.cons c1 cs2)) hi
            = false from rfl] at hcs
        exact absurd hcs (by simp)
      | nil =>
        rw [childrenWFB] at hcs
        rw [show searchIntGo k ([] : List Key) vs (BNodes.cons c0 BNodes.nil)
            = searchNode k c0 from rfl] at hv
        rw [show flattenGo ([] : List Key) vs (BNodes.cons c0 BNodes.nil)
            = flattenNode c0 from rfl]
        exact searchNode_sound order k hkb c0 lo hi hcs v hv
    | cons k0 ks =>
      cases vs with
      | nil => simp [searchIntGo] at hv
      | cons v0 vs =>
        rw [childrenWFB, Bool.and_eq_true] at hcs
        obtain ⟨hc0, hcsTl⟩ := hcs
        obtain ⟨hb0, _, _, hksTl, _⟩ := keysOK_cons lo hi k0 ks hks
        rw [show searchIntGo k (k0 :: ks) (v0 :: vs) (BNodes.cons c0 cs)
            = if compareUUID k k0 ≤ 0 then
                (if compareUUID k k0 = 0 then some v0 else searchNode k c0)
              else searchIntGo k ks vs cs from rfl] at hv
        rw [show flattenGo (k0 :: ks) (v0 :: vs) (BNodes.cons c0 cs)
            = flattenNode c0 ++ (k0, v0) :: flattenGo ks vs cs from rfl]
        by_cases h1 : compareUUID k k0 ≤ 0
        · rw [if_pos h1] at hv
          by_cases hz : compareUUID k k0 = 0
          · rw [if_pos hz] at hv
            obtain rfl := Option.some.inj hv
            have hkk0 : k = k0 := compareUUID_eq_of_zero hz
              (keyBytesOK_length hkb) (keyBytesOK_length hb0)
            subst hkk0
            exact List.mem_append.mpr (Or.inr (by simp))
          · rw [if_neg hz] at hv
            exact List.mem_append.mpr
              (Or.inl (searchNode_sound order k hkb c0 lo (some k0) hc0 v hv))
        · rw [if_neg h1] at hv
          exact List.mem_append.mpr (Or.inr (List.mem_cons_of_mem _
            (searchIntGo_sound order k hkb cs ks vs (some k0) hi hksTl hcsTl v hv)))

end

mutual

theorem searchNode_complete {T : Type} (order : Nat) (k : Key) :
    ∀ (n : BNode T) (lo hi : Option Key), nodeWFB order lo hi n = true →
    ∀ v0, (k, v0) ∈ flattenNode n → ∃ v, searchNode k n = some v
  | .leaf ks vs => by
    intro lo hi hwf v0 hmem
    obtain ⟨_, _, hks⟩ := (nodeWFB_leaf_iff order lo hi ks vs).mp hwf
    rw [show flattenNode (BNode.leaf ks vs) = ks.zip vs from rfl] at hmem
    rw [show searchNode k (BNode.leaf ks vs) = searchLeafGo k ks vs from rfl]
    exact searchLeafGo_complete k ks vs lo hi hks v0 hmem
  | .internal ks vs cs => by
    intro lo hi hwf v0 hmem
    obtain ⟨_, _, hks, hcs⟩ := (nodeWFB_internal_iff order lo hi ks vs cs).mp hwf
    rw [show flattenNode (BNode.internal ks vs cs) = flattenGo ks vs cs from rfl] at hmem
    rw [show searchNode k (BNode.internal ks vs cs) = searchIntGo k ks vs cs from rfl]
    exact searchIntGo_complete order k cs ks vs lo hi hks hcs v0 hmem

theorem searchIntGo_complete {T : Type} (order : Nat) (k : Key) :
    ∀ (cs : BNodes T) (ks : List Key) (vs : List T) (lo hi : Option Key),
    keysOK lo hi ks = true → childrenWFB order lo ks cs hi = true →
    ∀ v0, (k, v0) ∈ flattenGo ks vs cs → ∃ v, searchIntGo k ks vs cs = some v
  | .nil => by
    intro ks vs lo hi _ _ v0 hmem
    rw [flattenGo_non] at hmem
    exact absurd hmem (List.not_mem_nil _)
  | .cons c0 cs => by
    intro ks vs lo hi hks hcs v0 hmem
    cases ks with
    | nil =>
      cases cs with
      | cons c1 cs2 =>
        rw [show childrenWFB order lo [] (BNodes.cons c0 (BNodes.cons c1 cs2)) hi
            = false from rfl] at hcs
        exact absurd hcs (by simp)
      | nil =>
        rw [childrenWFB] at hcs
        rw [show flattenGo ([] : List Key) vs (BNodes.cons c0 BNodes.nil)
            = flattenNode c0 from rfl] at hmem
        rw [show searchIntGo k ([] : List Key) vs (BNodes.cons c0 BNodes.nil)
            = searchNode k c0 from rfl]
        exact searchNode_complete order k c0 lo hi hcs v0 hmem
    | cons k0 ks =>
      cases vs with
      | nil =>
        rw [flattenGo_mismatch] at hmem
        exact absurd hmem (List.not_mem_nil _)
      | cons w0 vs =>
        rw [childrenWFB, Bool.and_eq_true] at hcs
        obtain ⟨hc0, hcsTl⟩ := hcs
        obtain ⟨hb0, _, _, hksTl, _⟩ := keysOK_cons lo hi k0 ks hks
        rw [show flattenGo (k0 :: ks) (w0 :: vs) (BNodes.cons c0 cs)
            = flattenNode c0 ++ (k0, w0) :: flattenGo ks vs cs from rfl] at hmem
        rw [show searchIntGo k (k0 :: ks) (w0 :: vs) (BNodes.cons c0 cs)
            = if compareUUID k k0 ≤ 0 then
                (if compareUUID k k0 = 0 then some w0 else searchNode k c0)
              else searchIntGo k ks vs cs from rfl]
        by_cases hz : compareUUID k k0 = 0
        · exact ⟨w0, by rw [if_pos (le_of_eq hz), if_pos hz]⟩
        · by_cases h1 : compareUUID k k0 ≤ 0
          · have hlt : compareUUID k k0 < 0 := lt_of_le_of_ne h1 hz
            have hinc0 : (k, v0) ∈ flattenNode c0 := by
              rcases List.mem_append.mp hmem with h | h
              · exact h
              · rcases List.mem_cons.mp h with hh | hh
                · have : k = k0 := congrArg Prod.fst hh
                  subst this
                  exact absurd (compareUUID_refl k) hz
                · obtain ⟨_, hle, _⟩ := flattenGo_window order cs ks vs (some k0) hi
                    hksTl hcsTl (k, v0) hh
                  rw [keyLE_some_iff] at hle
                  have hle2 : compareUUID k0 k ≤ 0 := hle
                  have := compareUUID_neg k0 k
                  omega
            obtain ⟨v, hv⟩ := searchNode_complete order k c0 lo (some k0) hc0 v0 hinc0
            exact ⟨v, by rw [if_pos h1, if_neg hz]; exact hv⟩
          · have hintail : (k, v0) ∈ flattenGo ks vs cs := by
              rcases List.mem_append.mp hmem with h | h
              · obtain ⟨_, _, hltw⟩ := flatten_window order c0 lo (some k0) hc0 (k, v0) h
                rw [keyLT_some_iff] at hltw
                have hltw2 : compareUUID k k0 < 0 := hltw
                omega
              · rcases List.mem_cons.mp h with hh | hh
                · have : k = k0 := congrArg Prod.fst hh
                  subst this
                  exact absurd (le_of_eq (compareUUID_refl k)) h1
                · exact hh
            obtain ⟨v, hv⟩ := searchIntGo_complete order k cs ks vs (some k0) hi
              hksTl hcsTl v0 hintail
            exact ⟨v, by rw [if_neg h1]; exact hv⟩

end

theorem coh_set {T : Type} (old new : List (Key × T)) (m : Key → Option T)
    (k : Key) (v : T)
    (hcoh : ∀ e ∈ old, m e.1 = some e.2)
    (hcons : ∀ vold, m k = some vold → vold = v)
    (hprov : ∀ e ∈ new, e ∈ old ∨ e = (k, v)) :
    ∀ e ∈ new, (if e.1 = k then some v else m e.1) = some e.2 := by
  intro e he
  rcases hprov e he with h | h
  · by_cases hek : e.1 = k
    · rw [if_pos hek]
      have := hcoh e h
      rw [hek] at this
      rw [hcons e.2 this]
    · rw [if_neg hek]
      exact hcoh e h
  · subst h
    rw [if_pos rfl]

theorem BTree_set_main {T : Type} (t : BTree T) (k : Key) (v : T)
    (horder : 2 ≤ t.order) (hwf : nodeWFB t.order none none t.root = true)
    (hkb : keyBytesOK k = true) :
    (t.set k v).order = t.order ∧
    nodeWFB t.order none none (t.set k v).root = true ∧
    (∀ e ∈ (t.set k v).entries, e ∈ t.entries ∨ e = (k, v)) ∧
    k ∈ ((t.set k v).entries).map Prod.fst ∧
    (∀ k2 ∈ (t.entries).map Prod.fst, k2 ∈ ((t.set k v).entries).map Prod.fst) := by
  rcases hrec : insertNode t.order k v t.root with ⟨root', promo, rep⟩
  obtain ⟨hnone, hsome⟩ := insertNode_main t.order k v horder hkb t.root none none
    hwf rfl rfl root' promo rep hrec
  cases promo with
  | none =>
    obtain ⟨jwf, jprov, jmem, jcomp⟩ := hnone rfl
    have hset : t.set k v = ⟨root', t.order, t.counter + 1 - (if rep then 1 else 0)⟩ := by
      rw [BTree.set, hrec]
    rw [hset]
    exact ⟨rfl, jwf, jprov, jmem, jcomp⟩
  | some pr =>
    rcases pr with ⟨pk, pv, r⟩
    obtain ⟨jwfL, jwfR, jbpk, jlopk, jhipk, jprov, jmem, jcomp⟩ := hsome pk pv r rfl
    have hset : t.set k v = ⟨.internal [pk] [pv] (.cons root' (.cons r .nil)), t.order,
        t.counter + 1 - (if rep then 1 else 0)⟩ := by
      rw [BTree.set, hrec]
    have hent : (BTree.entries ⟨BNode.internal [pk] [pv]
          (BNodes.cons root' (BNodes.cons r BNodes.nil)), t.order,
          t.counter + 1 - (if rep then 1 else 0)⟩ : List (Key × T))
        = flattenNode root' ++ (pk, pv) :: flattenNode r := rfl
    rw [hset]
    refine ⟨rfl, ?_, ?_, ?_, ?_⟩
    · rw [show (⟨BNode.internal [pk] [pv] (BNodes.cons root' (BNodes.cons r BNodes.nil)),
          t.order, t.counter + 1 - (if rep then 1 else 0)⟩ : BTree T).root
          = BNode.internal [pk] [pv] (BNodes.cons root' (BNodes.cons r BNodes.nil))
          from rfl]
      rw [nodeWFB_internal_iff]
      refine ⟨rfl, by simp only [List.length_cons, List.length_nil]; omega, ?_, ?_⟩
      · rw [keysOK_iff]
        refine ⟨rfl, fun a ha => ?_⟩
        rw [List.mem_singleton] at ha
        subst ha
        exact ⟨jbpk, rfl, rfl⟩
      · rw [childrenWFB, Bool.and_eq_true, childrenWFB]
        exact ⟨jwfL, jwfR⟩
    · rw [hent]
      exact jprov
    · rw [hent]
      exact jmem
    · rw [hent]
      exact jcomp

theorem BTree_get_main {T : Type} (t : BTree T) (k : Key) (m : Key → Option T)
    (horder : 2 ≤ t.order) (hwf : nodeWFB t.order none none t.root = true)
    (hcoh : ∀ e ∈ t.entries, m e.1 = some e.2)
    (hkb : keyBytesOK k = true) (hmem : k ∈ (t.entries).map Prod.fst) :
    t.get k = m k := by
  obtain ⟨e, he, hfst⟩ := List.mem_map.mp hmem
  have hmem2 : (k, e.2) ∈ t.entries := by
    have : e = (k, e.2) := by
      rw [← hfst]
    rw [← this]
    exact he
  obtain ⟨v, hv⟩ := searchNode_complete t.order k t.root none none hwf e.2 hmem2
  have hsound : (k, v) ∈ t.entries :=
    searchNode_sound t.order k hkb t.root none none hwf v hv
  have : m k = some v := hcoh (k, v) hsound
  rw [show t.get k = searchNode k t.root from rfl, hv, this]

theorem fold_set_main {T : Type} (m : Key → Option T) :
    ∀ (E : List (Key × T)) (t : BTree T),
    2 ≤ t.order → nodeWFB t.order none none t.root = true →
    (∀ e ∈ t.entries, m e.1 = some e.2) →
    (∀ e ∈ E, keyBytesOK e.1 = true ∧ m e.1 = some e.2) →
    ∀ t', E.foldl (fun t e => t.set e.1 e.2) t = t' →
    t'.order = t.order ∧ nodeWFB t'.order none none t'.root = true ∧
    (∀ e ∈ t'.entries, m e.1 = some e.2) ∧
    (∀ k2 ∈ (t.entries).map Prod.fst, k2 ∈ (t'.entries).map Prod.fst) ∧
    (∀ e ∈ E, e.1 ∈ (t'.entries).map Prod.fst) := by
  intro E
  induction E with
  | nil =>
    intro t horder hwf hcoh _ t' heq
    rw [List.foldl_nil] at heq
    subst heq
    exact ⟨rfl, hwf, hcoh, fun _ h => h, by simp⟩
  | cons e0 E ih =>
    intro t horder hwf hcoh hE t' heq
    rw [List.foldl_cons] at heq
    obtain ⟨hkb0, hm0⟩ := hE e0 (by simp)
    obtain ⟨sord, swf, sprov, smem, scomp⟩ :=
      BTree_set_main t e0.1 e0.2 horder hwf hkb0
    have hcons : ∀ vold, m e0.1 = some vold → vold = e0.2 := by
      intro vold hv
      rw [hm0] at hv
      exact (Option.some.inj hv).symm
    have hcoh1 : ∀ e ∈ (t.set e0.1 e0.2).entries, m e.1 = some e.2 := by
      intro e he
      have := coh_set t.entries (t.set e0.1 e0.2).entries m e0.1 e0.2 hcoh hcons sprov e he
      by_cases hek : e.1 = e0.1
      · rw [if_pos hek] at this
        rw [hek, hm0]
        exact this
      · rw [if_neg hek] at this
        exact this
    obtain ⟨iord, iwf, icoh, icomp, imem⟩ := ih (t.set e0.1 e0.2)
      (by rw [sord]; exact horder) (by rw [sord]; exact swf) hcoh1
      (fun e he => hE e (by simp [he])) t' heq
    refine ⟨by rw [iord, sord], iwf, icoh, ?_, ?_⟩
    · intro k2 hk2
      exact icomp k2 (scomp k2 hk2)
    · intro e he
      rcases List.mem_cons.mp he with rfl | he2
      · exact icomp e.1 smem
      · exact imem e he2

theorem padTo_self (l : List Nat) : padTo l l.length = l := by
  simp [padTo]

theorem take_app_le {α : Type} (a b : List α) (n : Nat) (h : n ≤ a.length) :
    (a ++ b).take n = a.take n := by
  rw [List.take_append_eq_append_take, Nat.sub_eq_zero_of_le h, List.take_zero,
    List.append_nil]

theorem drop_app_le {α : Type} (a b : List α) (n : Nat) (h : n ≤ a.length) :
    (a ++ b).drop n = a.drop n ++ b := by
  rw [List.drop_append_eq_append_drop, Nat.sub_eq_zero_of_le h, List.drop_zero]

theorem drop_app_ge {α : Type} (a b : List α) (n : Nat) (h : a.length ≤ n) :
    (a ++ b).drop n = b.drop (n - a.length) := by
  rw [List.drop_append_eq_append_drop, List.drop_eq_nil_of_le h, List.nil_append]

theorem slice_append (a b : List Nat) (o n : Nat) (h : o + n ≤ a.length) :
    ((a ++ b).drop o).take n = (a.drop o).take n := by
  rw [drop_app_le a b o (by omega), List.take_append_eq_append_take,
    Nat.sub_eq_zero_of_le (by simp [List.length_drop]; omega), List.take_zero,
    List.append_nil]

theorem crcRounds_lt (l : List Nat) :
    ∀ i : Nat, i < 2 ^ 32 →
    l.foldl (fun crc _ => if crc % 2 = 1 then 0xedb88320 ^^^ (crc >>> 1) else crc >>> 1) i
      < 2 ^ 32 := by
  induction l with
  | nil => intro i h; exact h
  | cons x l ih =>
    intro i h
    rw [List.foldl_cons]
    refine ih _ ?_
    have hs : i >>> 1 < 2 ^ 32 := by
      rw [Nat.shiftRight_eq_div_pow]
      omega
    by_cases hp : i % 2 = 1
    · rw [if_pos hp]
      exact Nat.xor_lt_two_pow (by norm_num) hs
    · rw [if_neg hp]
      exact hs

theorem crc32TableEntry_lt (i : Nat) (h : i < 2 ^ 32) : crc32TableEntry i < 2 ^ 32 :=
  crcRounds_lt (List.range 8) i h

theorem crc32Go_lt (l : List Nat) : ∀ c : Nat, c < 2 ^ 32 → crc32Go c l < 2 ^ 32 := by
  induction l with
  | nil => intro c h; exact h
  | cons b l ih =>
    intro c h
    rw [crc32Go]
    refine ih _ ?_
    refine Nat.xor_lt_two_pow (crc32TableEntry_lt _ ?_) ?_
    · calc (c ^^^ b) &&& 0xff < 2 ^ 8 := Nat.and_lt_two_pow _ (by norm_num)
        _ ≤ 2 ^ 32 := by norm_num
    · rw [Nat.shiftRight_eq_div_pow]
      omega

theorem crc32_lt (l : List Nat) : crc32 l < 2 ^ 32 := by
  rw [crc32_eq_go]
  exact Nat.xor_lt_two_pow (crc32Go_lt l 0xffffffff (by norm_num)) (by norm_num)

theorem serializeHeader_length (io d : Nat) (rc : Int) :
    (serializeHeader io d rc).length = 32 := by
  simp [serializeHeader, natToBytesBE_length, MAGIC]

theorem serializeHeader_assoc (io d : Nat) (rc : Int) :
    serializeHeader io d rc =
    (MAGIC ++ [1, 0] ++ natToBytesBE 2 0) ++
      (natToBytesBE 8 io ++ (natToBytesBE 8 d ++
        natToBytesBE 8 ((rc % ((2 : Int) ^ 64)).toNat))) := by
  simp [serializeHeader, List.append_assoc]

theorem serializeHeader_take4 (io d : Nat) (rc : Int) :
    (serializeHeader io d rc).take 4 = MAGIC := by
  rw [serializeHeader_assoc]
  rw [take_app_le _ _ 4 (by simp [natToBytesBE_length, MAGIC])]
  rw [take_app_le _ _ 4 (by simp [MAGIC])]
  rw [take_app_le _ _ 4 (by simp [MAGIC])]
  rfl

theorem serializeHeader_idx (io d : Nat) (rc : Int) :
    ((serializeHeader io d rc).drop 8).take 8 = natToBytesBE 8 io := by
  rw [serializeHeader_assoc]
  rw [drop_app_ge _ _ 8 (by simp [natToBytesBE_length, MAGIC])]
  have h8 : (MAGIC ++ [1, 0] ++ natToBytesBE 2 0).length = 8 := by
    simp [natToBytesBE_length, MAGIC]
  rw [h8]
  rw [show (8 : Nat) - 8 = 0 from rfl, List.drop_zero]
  rw [take_app_le _ _ 8 (by simp [natToBytesBE_length])]
  simp [List.take_of_length_le, natToBytesBE_length]

theorem serializeHeader_data (io d : Nat) (rc : Int) :
    ((serializeHeader io d rc).drop 16).take 8 = natToBytesBE 8 d := by
  rw [serializeHeader_assoc]
  rw [drop_app_ge _ _ 16 (by simp [natToBytesBE_length, MAGIC])]
  have h8 : (MAGIC ++ [1, 0] ++ natToBytesBE 2 0).length = 8 := by
    simp [natToBytesBE_length, MAGIC]
  rw [h8]
  rw [drop_app_ge _ _ (16 - 8) (by simp [natToBytesBE_length])]
  rw [natToBytesBE_length]
  rw [show (16 : Nat) - 8 - 8 = 0 from rfl, List.drop_zero]
  rw [take_app_le _ _ 8 (by simp [natToBytesBE_length])]
  simp [List.take_of_length_le, natToBytesBE_length]

theorem indexEntryBytes_length (e : Key × RecordLocation) :
    (indexEntryBytes e).length = 32 := by
  simp [indexEntryBytes, padTo_length, natToBytesBE_length]

theorem indexEntryBytes_assoc (e : Key × RecordLocation) (hid : e.1.length = 16)
    (rest : List Nat) :
    indexEntryBytes e ++ rest =
    e.1 ++ (natToBytesBE 8 e.2.offset ++ (natToBytesBE 4 e.2.size ++
      (natToBytesBE 4 e.2.checksum ++ rest))) := by
  have hp : padTo e.1 16 = e.1 := by
    rw [show (16 : Nat) = e.1.length from hid.symm]
    exact padTo_self e.1
  simp [indexEntryBytes, hp, List.append_assoc]

theorem parseIndex_roundtrip :
    ∀ (E : List (Key × RecordLocation)) (f : Nat),
    E.length ≤ f →
    (∀ e ∈ E, e.1.length = 16 ∧ e.2.offset < 2 ^ 64 ∧ e.2.size < 2 ^ 32 ∧
      e.2.checksum < 2 ^ 32) →
    parseIndexEntriesF f ((E.map indexEntryBytes).flatten) = some E := by
  intro E
  induction E with
  | nil =>
    intro f _ _
    rw [show ((([] : List (Key × RecordLocation)).map indexEntryBytes).flatten)
        = [] from rfl]
    cases f <;> rfl
  | cons e E ih =>
    intro f hlen hcond
    cases f with
    | zero => simp at hlen
    | succ f =>
      obtain ⟨hid, hoff, hsz, hck⟩ := hcond e (by simp)
      have hbs : (((e :: E).map indexEntryBytes).flatten)
          = indexEntryBytes e ++ (E.map indexEntryBytes).flatten := by
        simp
      have hsplit := indexEntryBytes_assoc e hid ((E.map indexEntryBytes).flatten)
      have hlenbs : (indexEntryBytes e ++ (E.map indexEntryBytes).flatten).length
          = 32 + ((E.map indexEntryBytes).flatten).length := by
        simp [indexEntryBytes_length]
      have htk16 : (indexEntryBytes e ++ (E.map indexEntryBytes).flatten).take 16
          = e.1 := by
        rw [hsplit]
        exact List.take_left' hid
      have hdp16 : (indexEntryBytes e ++ (E.map indexEntryBytes).flatten).drop 16
          = natToBytesBE 8 e.2.offset ++ (natToBytesBE 4 e.2.size ++
              (natToBytesBE 4 e.2.checksum ++ (E.map indexEntryBytes).flatten)) := by
        rw [hsplit]
        exact List.drop_left' hid
      have htk8 : ((indexEntryBytes e ++ (E.map indexEntryBytes).flatten).drop 16).take 8
          = natToBytesBE 8 e.2.offset := by
        rw [hdp16]
        exact List.take_left' (natToBytesBE_length 8 _)
      have hdp24 : (indexEntryBytes e ++ (E.map indexEntryBytes).flatten).drop 24
          = natToBytesBE 4 e.2.size ++
              (natToBytesBE 4 e.2.checksum ++ (E.map indexEntryBytes).flatten) := by
        rw [show (24 : Nat) = 16 + 8 from rfl, ← List.drop_drop, hdp16]
        exact List.drop_left' (natToBytesBE_length 8 _)
      have htk4s : ((indexEntryBytes e ++ (E.map indexEntryBytes).flatten).drop 24).take 4
          = natToBytesBE 4 e.2.size := by
        rw [hdp24]
        exact List.take_left' (natToBytesBE_length 4 _)
      have hdp28 : (indexEntryBytes e ++ (E.map indexEntryBytes).flatten).drop 28
          = natToBytesBE 4 e.2.checksum ++ (E.map indexEntryBytes).flatten := by
        rw [show (28 : Nat) = 24 + 4 from rfl, ← List.drop_drop, hdp24]
        exact List.drop_left' (natToBytesBE_length 4 _)
      have htk4c : ((indexEntryBytes e ++ (E.map indexEntryBytes).flatten).drop 28).take 4
          = natToBytesBE 4 e.2.checksum := by
        rw [hdp28]
        exact List.take_left' (natToBytesBE_length 4 _)
      have hdp32 : (indexEntryBytes e ++ (E.map indexEntryBytes).flatten).drop 32
          = (E.map indexEntryBytes).flatten := by
        rw [show (32 : Nat) = 28 + 4 from rfl, ← List.drop_drop, hdp28]
        exact List.drop_left' (natToBytesBE_length 4 _)
      have hIH := ih f (by simp at hlen; omega) (fun x hx => hcond x (by simp [hx]))
      have hne : (indexEntryBytes e ++ (E.map indexEntryBytes).flatten) ≠ [] := by
        intro hzero
        have := congrArg List.length hzero
        rw [hlenbs] at this
        simp at this
      obtain ⟨b0, tl, hcons⟩ := List.exists_cons_of_ne_nil hne
      rw [hbs, hcons]
      rw [show parseIndexEntriesF (f + 1) (b0 :: tl)
          = (if 32 ≤ (b0 :: tl).length then do
              let rest ← parseIndexEntriesF f ((b0 :: tl).drop 32)
              pure (((b0 :: tl).take 16,
                (⟨bytesToNatBE (((b0 :: tl).drop 16).take 8),
                  bytesToNatBE (((b0 :: tl).drop 24).take 4),
                  bytesToNatBE (((b0 :: tl).drop 28).take 4)⟩ : RecordLocation)) :: rest)
            else none) from rfl]
      rw [← hcons]
      rw [if_pos (by rw [hlenbs]; omega)]
      rw [hdp32, hIH, htk16, htk8, htk4s, htk4c]
      rw [bytesToNatBE_natToBytesBE, bytesToNatBE_natToBytesBE, bytesToNatBE_natToBytesBE]
      rw [Nat.mod_eq_of_lt (by norm_num at hoff ⊢; omega),
        Nat.mod_eq_of_lt (by norm_num at hsz ⊢; omega),
        Nat.mod_eq_of_lt (by norm_num at hck ⊢; omega)]
      rfl

theorem concatIndex_length (E : List (Key × RecordLocation)) :
    ((E.map indexEntryBytes).flatten).length = 32 * E.length := by
  induction E with
  | nil => rfl
  | cons e E ih =>
    rw [show (((e :: E).map indexEntryBytes).flatten)
        = indexEntryBytes e ++ (E.map indexEntryBytes).flatten from by simp]
    simp [indexEntryBytes_length, ih]
    ring

theorem parseHexBytes_dash (rest : List Char) (fuel : Nat) :
    parseHexBytes ('-' :: rest) (fuel + 1) = parseHexBytes rest (fuel + 1) := by
  simp only [parseHexBytes]

theorem parseHexBytes_cons2 (c1 c2 : Char) (rest : List Char) (fuel : Nat)
    (h1 : c1 ≠ '-') :
    parseHexBytes (c1 :: c2 :: rest) (fuel + 1)
      = ((hexVal c1 <<< 4) ||| hexVal c2) :: parseHexBytes rest fuel := by
  simp only [parseHexBytes]

theorem hexNotDash : ∀ i : Nat, i < 16 → hexChar i ≠ '-' := by decide

set_option maxHeartbeats 1000000 in
theorem hexPair : ∀ b : Nat, b < 256 →
    ((hexVal (hexChar (b >>> 4)) <<< 4) ||| hexVal (hexChar (b &&& 0x0f))) = b := by
  decide

theorem parseHex_uuidChars :
    ∀ (bs : List Nat) (i : Nat), (∀ b ∈ bs, b < 256) →
    parseHexBytes (uuidCharsFrom i bs) bs.length = bs := by
  intro bs
  induction bs with
  | nil => intro i _; rfl
  | cons b bs ih =>
    intro i hall
    have hb : b < 256 := hall b (by simp)
    have hcommon : parseHexBytes
        (hexChar (b >>> 4) :: hexChar (b &&& 0x0f) :: uuidCharsFrom (i + 1) bs)
        (bs.length + 1) = b :: bs := by
      have hlt4 : b >>> 4 < 16 := by
        rw [Nat.shiftRight_eq_div_pow]
        omega
      rw [parseHexBytes_cons2 _ _ _ _ (hexNotDash _ hlt4), hexPair b hb,
        ih (i + 1) (fun x hx => hall x (by simp [hx]))]
    rw [show uuidCharsFrom i (b :: bs)
        = (if i = 4 ∨ i = 6 ∨ i = 8 ∨ i = 10 then ['-'] else []) ++
          hexChar (b >>> 4) :: hexChar (b &&& 0x0f) :: uuidCharsFrom (i + 1) bs from rfl]
    simp only [List.length_cons]
    split
    · rw [show (['-'] : List Char) ++
          hexChar (b >>> 4) :: hexChar (b &&& 0x0f) :: uuidCharsFrom (i + 1) bs
          = '-' :: hexChar (b >>> 4) :: hexChar (b &&& 0x0f) :: uuidCharsFrom (i + 1) bs
          from rfl]
      rw [parseHexBytes_dash]
      exact hcommon
    · rw [List.nil_append]
      exact hcommon

theorem stringToUUID_uuidToString (k : Key) (hkb : keyBytesOK k = true) :
    stringToUUID (uuidToString k) = k := by
  have hlen := keyBytesOK_length hkb
  have hall : ∀ b ∈ k, b < 256 := by
    rw [keyBytesOK, Bool.and_eq_true, List.all_eq_true] at hkb
    intro b hb
    exact of_decide_eq_true (hkb.2 b hb)
  rw [stringToUUID, uuidToString]
  rw [show (String.mk (uuidCharsFrom 0 (k.take UUID_SIZE))).toList
      = uuidCharsFrom 0 (k.take UUID_SIZE) from rfl]
  rw [show k.take UUID_SIZE = k from by
    rw [show (UUID_SIZE : Nat) = 16 from rfl, ← hlen]
    exact List.take_length k]
  rw [show (UUID_SIZE : Nat) = 16 from rfl, ← hlen]
  exact parseHex_uuidChars k 0 hall

theorem locFind_cons (id : Key) (lv : RecordLocation × Value)
    (log : List (Key × RecordLocation × Value)) (k : Key) :
    locFind ((id, lv) :: log) k = if id = k then some lv else locFind log k := by
  by_cases h : id = k
  · rw [if_pos h, locFind, List.find?_cons_of_pos _ (by simp [h])]
    rfl
  · rw [if_neg h, locFind, locFind,
      List.find?_cons_of_neg _ (by simp only [decide_eq_true_eq]; exact h)]

theorem locFind_some_mem (log : List (Key × RecordLocation × Value)) (k : Key)
    (p : RecordLocation × Value) (h : locFind log k = some p) : (k, p) ∈ log := by
  rw [locFind] at h
  cases hf : log.find? fun d => decide (d.1 = k) with
  | none => rw [hf] at h; simp at h
  | some d0 =>
    rw [hf] at h
    obtain rfl : d0.2 = p := Option.some.inj h
    have hm := List.mem_of_find?_eq_some hf
    have hp := List.find?_some hf
    rw [decide_eq_true_eq] at hp
    have : d0 = (k, d0.2) := by
      rw [← hp]
    rw [← this]
    exact hm

theorem locFind_of_mem_nodup :
    ∀ (log : List (Key × RecordLocation × Value)),
    (log.map (fun d => d.1)).Nodup →
    ∀ d ∈ log, locFind log d.1 = some d.2 := by
  intro log
  induction log with
  | nil => intro _ d hd; exact absurd hd (List.not_mem_nil d)
  | cons d0 log ih =>
    intro hnd d hd
    rw [List.map_cons, List.nodup_cons] at hnd
    obtain ⟨hnotin, hndTl⟩ := hnd
    rcases List.mem_cons.mp hd with rfl | hd2
    · rw [show d = (d.1, d.2) from rfl, locFind_cons, if_pos rfl]
    · rw [show d0 = (d0.1, d0.2) from rfl, locFind_cons]
      rw [if_neg ?_]
      · exact ih hndTl d hd2
      · intro hcontra
        refine hnotin ?_
        rw [hcontra]
        exact List.mem_map.mpr ⟨d, hd2, rfl⟩

theorem locFind_none_of_not_mem (log : List (Key × RecordLocation × Value)) (k : Key)
    (h : k ∉ log.map (fun d => d.1)) : locFind log k = none := by
  have hf : (log.find? fun d => decide (d.1 = k)) = none := by
    refine List.find?_eq_none.mpr ?_
    intro d hd
    simp only [decide_eq_true_eq]
    intro hcontra
    exact h (List.mem_map.mpr ⟨d, hd, hcontra⟩)
  rw [locFind, hf]
  rfl

theorem storageInv_base : storageInv [] (createDatabase initialStorage) := by
  refine ⟨by decide, by decide, by decide, ?_, by decide, List.nodup_nil, ?_, ?_, ?_⟩
  · rw [show (createDatabase initialStorage).file
        = serializeHeader 0 HEADER_SIZE 0 from rfl, serializeHeader_length]
    rfl
  · intro e he
    rw [show (createDatabase initialStorage).tree.entries
        = ([] : List (Key × RecordLocation)) from rfl] at he
    exact absurd he (List.not_mem_nil e)
  · intro d hd
    exact absurd hd (List.not_mem_nil d)
  · intro d hd
    exact absurd hd (List.not_mem_nil d)

theorem writeRecord_inv_ex (s : StorageState) (id : Key) (v : Value) (s1 : StorageState)
    (off sz : Nat) (hw : writeRecord s id v = some (s1, off, sz)) :
    ∃ enc, encodeValue v = some enc ∧
      s1 = { file := padTo s.file s.dataOffset ++ (id ++ natToBytesBE 4 enc.length ++ enc),
             tree := s.tree.set id ⟨s.dataOffset, enc.length, crc32 enc⟩,
             hIndexOffset := s.hIndexOffset,
             hDataOffset := s.dataOffset + (id ++ natToBytesBE 4 enc.length ++ enc).length,
             hRecordCount := s.hRecordCount + 1,
             dataOffset := s.dataOffset + (id ++ natToBytesBE 4 enc.length ++ enc).length } ∧
      off = s.dataOffset ∧ sz = enc.length := by
  cases henc : encodeValue v with
  | none =>
    rw [writeRecord, henc] at hw
    exact absurd hw (by simp)
  | some enc =>
    rw [writeRecord_some s id v enc (crc32 enc) henc rfl] at hw
    injection hw with h
    injection h with h1 h23
    injection h23 with h2 h3
    exact ⟨enc, rfl, h1.symm, h2.symm, h3.symm⟩

theorem writeRecord_step (log : List (Key × RecordLocation × Value)) (s : StorageState)
    (id : Key) (v : Value) (s1 : StorageState) (off sz : Nat)
    (hinv : storageInv log s) (hkb : keyBytesOK id = true)
    (hfresh : id ∉ log.map (fun d => d.1))
    (hw : writeRecord s id v = some (s1, off, sz)) :
    ∃ loc, storageInv ((id, loc, v) :: log) s1 ∧ s.dataOffset ≤ s1.dataOffset := by
  obtain ⟨horder, hwf, hhead, hflen, hhdata, hnodup, hcoh, hlogmem, hlogdata⟩ := hinv
  obtain ⟨enc, henc, hs1, hoff, hsz⟩ := writeRecord_inv_ex s id v s1 off sz hw
  have hidlen : id.length = 16 := keyBytesOK_length hkb
  have hreclen : (id ++ natToBytesBE 4 enc.length ++ enc).length = 20 + enc.length := by
    rw [List.length_append, List.length_append, hidlen, natToBytesBE_length]
  have hpad : padTo s.file s.dataOffset = s.file := by
    rw [← hflen]
    exact padTo_self s.file
  have hfile1 : s1.file = s.file ++ (id ++ natToBytesBE 4 enc.length ++ enc) := by
    rw [hs1, hpad]
  have htree1 : s1.tree = s.tree.set id ⟨s.dataOffset, enc.length, crc32 enc⟩ := by
    rw [hs1]
  have hdo1 : s1.dataOffset = s.dataOffset + (20 + enc.length) := by
    rw [hs1]
    show s.dataOffset + (id ++ natToBytesBE 4 enc.length ++ enc).length
        = s.dataOffset + (20 + enc.length)
    rw [hreclen]
  obtain ⟨sord, swf, sprov, smem, scomp⟩ :=
    BTree_set_main s.tree id (⟨s.dataOffset, enc.length, crc32 enc⟩ : RecordLocation)
      horder hwf hkb
  refine ⟨⟨s.dataOffset, enc.length, crc32 enc⟩, ⟨?_, ?_, ?_, ?_, ?_, ?_, ?_, ?_, ?_⟩, ?_⟩
  · rw [htree1, sord]
    exact horder
  · rw [htree1, sord]
    exact swf
  · rw [hdo1]
    omega
  · rw [hfile1, hdo1, List.length_append, hflen, hreclen]
  · rw [hs1]
  · rw [List.map_cons, List.nodup_cons]
    exact ⟨hfresh, hnodup⟩
  · intro e he
    rw [htree1] at he
    rcases sprov e he with hold | hnew
    · obtain ⟨v0, hfind⟩ := hcoh e hold
      have hne : id ≠ e.1 := by
        intro hcontra
        refine hfresh ?_
        have := locFind_some_mem log e.1 (e.2, v0) hfind
        rw [← hcontra] at this
        exact List.mem_map.mpr ⟨(id, e.2, v0), this, rfl⟩
      refine ⟨v0, ?_⟩
      rw [locFind_cons, if_neg hne]
      exact hfind
    · refine ⟨v, ?_⟩
      have he1 : e.1 = id := by rw [hnew]
      have he2 : e.2 = (⟨s.dataOffset, enc.length, crc32 enc⟩ : RecordLocation) := by
        rw [hnew]
      rw [he1, he2, locFind_cons, if_pos rfl]
  · intro d hd
    rw [htree1]
    rcases List.mem_cons.mp hd with rfl | hd2
    · exact smem
    · exact scomp d.1 (hlogmem d hd2)
  · intro d hd
    rcases List.mem_cons.mp hd with rfl | hd2
    · refine ⟨hkb, enc, henc, rfl, rfl, ?_, ?_, ?_⟩
      · show HEADER_SIZE ≤ s.dataOffset
        exact hhead
      · show s.dataOffset + 20 + enc.length ≤ s1.dataOffset
        rw [hdo1]
        omega
      · show (s1.file.drop (s.dataOffset + 20)).take enc.length = enc
        rw [hfile1]
        rw [drop_app_ge _ _ _ (by rw [hflen]; omega)]
        rw [hflen, show s.dataOffset + 20 - s.dataOffset = 20 from by omega]
        rw [show id ++ natToBytesBE 4 enc.length ++ enc
            = (id ++ natToBytesBE 4 enc.length) ++ enc from by simp [List.append_assoc]]
        rw [List.drop_left' (by simp [natToBytesBE_length, hidlen]), List.take_length]
    · obtain ⟨hkbd, encd, hencd, hszd, hckd, hoffd, hboundd, hsliced⟩ := hlogdata d hd2
      refine ⟨hkbd, encd, hencd, hszd, hckd, hoffd, by rw [hdo1]; omega, ?_⟩
      rw [hfile1, slice_append _ _ _ _ (by rw [hflen]; omega)]
      exact hsliced
  · rw [hdo1]
    omega

theorem writeSeq_inv :
    ∀ (ws : List (Key × Value)) (s : StorageState)
      (log : List (Key × RecordLocation × Value)) (s' : StorageState),
    storageInv log s →
    (∀ w ∈ ws, keyBytesOK w.1 = true) →
    (ws.map Prod.fst).Nodup →
    (∀ w ∈ ws, w.1 ∉ log.map (fun d => d.1)) →
    writeSeq s ws = some s' →
    ∃ log', storageInv log' s' ∧
      (∀ w ∈ ws, ∃ loc, (w.1, loc, w.2) ∈ log') ∧
      (∀ d ∈ log, d ∈ log') := by
  intro ws
  induction ws with
  | nil =>
    intro s log s' hinv _ _ _ hw
    rw [writeSeq] at hw
    obtain rfl := Option.some.inj hw
    exact ⟨log, hinv, by simp, fun d hd => hd⟩
  | cons w ws ih =>
    intro s log s' hinv hkbs hnd hfresh hw
    rcases w with ⟨id, v⟩
    rw [writeSeq] at hw
    cases hw1 : writeRecord s id v with
    | none => rw [hw1] at hw; exact absurd hw (by simp)
    | some r =>
      rcases r with ⟨s1, o, z⟩
      simp only [hw1, Option.bind_eq_bind, Option.some_bind] at hw
      obtain ⟨loc, hinv1, _⟩ := writeRecord_step log s id v s1 o z hinv
        (hkbs (id, v) (by simp)) (hfresh (id, v) (by simp)) hw1
      rw [List.map_cons, List.nodup_cons] at hnd
      obtain ⟨hidnotin, hndTl⟩ := hnd
      have hfreshTl : ∀ x ∈ ws, x.1 ∉ ((id, loc, v) :: log).map (fun d => d.1) := by
        intro x hx
        rw [List.map_cons]
        intro hcontra
        rcases List.mem_cons.mp hcontra with hh | hh
        · exact hidnotin (by rw [← hh]; exact List.mem_map.mpr ⟨x, hx, rfl⟩)
        · exact hfresh x (by simp [hx]) hh
      obtain ⟨log', hinv', hcover, hsub⟩ := ih s1 ((id, loc, v) :: log) s' hinv1
        (fun x hx => hkbs x (by simp [hx])) hndTl hfreshTl hw
      refine ⟨log', hinv', ?_, ?_⟩
      · intro x hx
        rcases List.mem_cons.mp hx with rfl | hx2
        · exact ⟨loc, hsub (id, loc, v) (by simp)⟩
        · exact hcover x hx2
      · intro d hd
        exact hsub d (by simp [hd])

set_option maxHeartbeats 2000000 in
theorem reopened_main (s : StorageState) (log : List (Key × RecordLocation × Value))
    (hinv : storageInv log s) (hbound : s.dataOffset < 2 ^ 32) :
    ∃ s2, reopened s = some s2 ∧
      2 ≤ s2.tree.order ∧ nodeWFB s2.tree.order none none s2.tree.root = true ∧
      (∀ e ∈ s2.tree.entries, ∃ v, locFind log e.1 = some (e.2, v)) ∧
      (∀ d ∈ log, d.1 ∈ (s2.tree.entries).map Prod.fst) ∧
      (∀ o n : Nat, HEADER_SIZE ≤ o → o + n ≤ s.dataOffset →
        (s2.file.drop o).take n = (s.file.drop o).take n) := by
  obtain ⟨horder, hwf, hhead, hflen, hhdata, hnodup, hcoh, hlogmem, hlogdata⟩ := hinv
  have hhsz : (HEADER_SIZE : Nat) = 32 := rfl
  have hEwin := flatten_window s.tree.order s.tree.root none none hwf
  have hEcond : ∀ e ∈ s.tree.entries, e.1.length = 16 ∧ e.2.offset < 2 ^ 64 ∧
      e.2.size < 2 ^ 32 ∧ e.2.checksum < 2 ^ 32 := by
    intro e he
    obtain ⟨v0, hfind⟩ := hcoh e he
    have hmem := locFind_some_mem log e.1 (e.2, v0) hfind
    obtain ⟨hkbd, enc, henc, hsize, hck, hoffd, hbd, hslice⟩ := hlogdata (e.1, e.2, v0) hmem
    refine ⟨keyBytesOK_length hkbd, ?_, ?_, ?_⟩
    · have : e.2.offset ≤ s.dataOffset := by
        have : (e.1, e.2, v0).2.1.offset + 20 + (e.1, e.2, v0).2.1.size ≤ s.dataOffset := hbd
        simp only at this
        omega
      calc e.2.offset ≤ s.dataOffset := this
        _ < 2 ^ 32 := hbound
        _ < 2 ^ 64 := by norm_num
    · have : (e.1, e.2, v0).2.1.offset + 20 + (e.1, e.2, v0).2.1.size ≤ s.dataOffset := hbd
      simp only at this
      omega
    · rw [show (e.1, e.2, v0).2.1.checksum = crc32 enc from hck]
      exact crc32_lt enc
  have hIBlen : ((s.tree.entries.map indexEntryBytes).flatten).length
      = 32 * s.tree.entries.length := concatIndex_length s.tree.entries
  have hparse : parseIndexEntries ((s.tree.entries.map indexEntryBytes).flatten)
      = some s.tree.entries := by
    rw [parseIndexEntries]
    exact parseIndex_roundtrip s.tree.entries _ (by rw [hIBlen]; omega) hEcond
  have hpad : padTo s.file s.dataOffset = s.file := by
    rw [← hflen]
    exact padTo_self s.file
  have hclose : (closeStorage s).file
      = serializeHeader s.dataOffset s.dataOffset s.hRecordCount ++
        (s.file.drop 32 ++ (s.tree.entries.map indexEntryBytes).flatten) := by
    have h1 : (closeStorage s).file
        = serializeHeader s.dataOffset s.hDataOffset s.hRecordCount ++
          ((padTo s.file s.dataOffset ++
            (s.tree.entries.map indexEntryBytes).flatten).drop HEADER_SIZE) := rfl
    rw [h1, hhdata, hpad, hhsz, drop_app_le _ _ 32 (by omega)]
  have hHlen : (serializeHeader s.dataOffset s.dataOffset s.hRecordCount).length = 32 :=
    serializeHeader_length _ _ _
  have hmagic : ((closeStorage s).file).take 4 = MAGIC := by
    rw [hclose, take_app_le _ _ 4 (by omega)]
    exact serializeHeader_take4 _ _ _
  have hidx : bytesToNatBE (((closeStorage s).file.drop 8).take 8) = s.dataOffset := by
    rw [hclose, drop_app_le _ _ 8 (by omega), take_app_le _ _ 8
      (by simp [List.length_drop, hHlen])]
    rw [serializeHeader_idx, bytesToNatBE_natToBytesBE]
    refine Nat.mod_eq_of_lt ?_
    calc s.dataOffset < 2 ^ 32 := hbound
      _ < 2 ^ (8 * 8) := by norm_num
  have hdata : bytesToNatBE (((closeStorage s).file.drop 16).take 8) = s.dataOffset := by
    rw [hclose, drop_app_le _ _ 16 (by omega), take_app_le _ _ 8
      (by simp [List.length_drop, hHlen])]
    rw [serializeHeader_data, bytesToNatBE_natToBytesBE]
    refine Nat.mod_eq_of_lt ?_
    calc s.dataOffset < 2 ^ 32 := hbound
      _ < 2 ^ (8 * 8) := by norm_num
  have hdropIdx : (closeStorage s).file.drop s.dataOffset
      = (s.tree.entries.map indexEntryBytes).flatten := by
    rw [hclose, drop_app_ge _ _ _ (by omega)]
    rw [hHlen]
    refine List.drop_left' ?_
    simp [List.length_drop, hflen]
  have hslicepres : ∀ o n : Nat, HEADER_SIZE ≤ o → o + n ≤ s.dataOffset →
      ((closeStorage s).file.drop o).take n = (s.file.drop o).take n := by
    intro o n ho hbnd
    rw [hhsz] at ho
    rw [hclose, drop_app_ge _ _ _ (by omega), hHlen]
    rw [slice_append _ _ _ _ (by simp [List.length_drop, hflen]; omega)]
    have hdd : (s.file.drop 32).drop (o - 32) = s.file.drop o := by
      rw [List.drop_drop]
      rw [show 32 + (o - 32) = o from by omega]
    rw [hdd]
  have hro : reopened s = loadDatabase { initialStorage with file := (closeStorage s).file } := rfl
  have hload : loadDatabase { initialStorage with file := (closeStorage s).file } = some
      { file := (closeStorage s).file
        tree := s.tree.entries.foldl (fun t e => t.set e.1 e.2) initialStorage.tree
        hIndexOffset := s.dataOffset
        hDataOffset := s.dataOffset
        hRecordCount := (bytesToNatBE (((closeStorage s).file.drop 24).take 8) : Int)
        dataOffset := s.dataOffset } := by
    simp only [loadDatabase]
    rw [show ({ initialStorage with file := (closeStorage s).file } : StorageState).file
        = (closeStorage s).file from rfl]
    rw [if_pos hmagic, hidx, hdata]
    rw [if_pos (show 0 < s.dataOffset from by omega)]
    rw [hdropIdx, hparse]
    simp only [Option.bind_eq_bind, Option.some_bind]
    rfl
  obtain ⟨iord, iwf, icoh, icomp, imem⟩ := fold_set_main
    (fun k => (locFind log k).map (fun p => p.1)) s.tree.entries initialStorage.tree
    (by decide) (by decide)
    (by
      intro e he
      rw [show (initialStorage.tree.entries : List (Key × RecordLocation)) = [] from rfl] at he
      exact absurd he (List.not_mem_nil e))
    (by
      intro e he
      obtain ⟨v0, hfind⟩ := hcoh e he
      refine ⟨(hEwin e he).1, ?_⟩
      show (locFind log e.1).map (fun p => p.1) = some e.2
      rw [hfind]
      rfl)
    (s.tree.entries.foldl (fun t e => t.set e.1 e.2) initialStorage.tree) rfl
  refine ⟨{ file := (closeStorage s).file
            tree := s.tree.entries.foldl (fun t e => t.set e.1 e.2) initialStorage.tree
            hIndexOffset := s.dataOffset
            hDataOffset := s.dataOffset
            hRecordCount := (bytesToNatBE (((closeStorage s).file.drop 24).take 8) : Int)
            dataOffset := s.dataOffset }, by rw [hro, hload], ?_, ?_, ?_, ?_, ?_⟩
  · show 2 ≤ (s.tree.entries.foldl (fun t e => t.set e.1 e.2) initialStorage.tree).order
    rw [iord]
    decide
  · exact iwf
  · intro e2 he2
    have hm : (locFind log e2.1).map (fun p => p.1) = some e2.2 := icoh e2 he2
    cases hf : locFind log e2.1 with
    | none =>
      rw [hf] at hm
      exact absurd hm (by simp)
    | some p =>
      rw [hf] at hm
      have hp1 : p.1 = e2.2 := Option.some.inj hm
      refine ⟨p.2, ?_⟩
      exact congrArg some (show p = (e2.2, p.2) from by rw [← hp1])
  · intro d hd
    obtain ⟨e, he, hfst⟩ := List.mem_map.mp (hlogmem d hd)
    have := imem e he
    rw [hfst] at this
    exact this
  · exact hslicepres

theorem c2_main
    (ws : List (Key × Value)) (s' : StorageState)
    (hkeys : ∀ w ∈ ws, keyBytesOK w.1 = true ∧ valueWF w.2 = true)
    (hdist : (ws.map Prod.fst).Nodup)
    (hw : writeSeq (createDatabase initialStorage) ws = some s')
    (hsize : s'.dataOffset < 2 ^ 32) :
    ∃ s2, reopened s' = some s2 ∧
      ∀ w ∈ ws, readRecord s2 (uuidToString w.1) = Except.ok (some w.2) := by
  obtain ⟨log, hinv, hcover, _⟩ := writeSeq_inv ws (createDatabase initialStorage) [] s'
    storageInv_base (fun w hw2 => (hkeys w hw2).1) hdist
    (fun w _ => List.not_mem_nil _) hw
  obtain ⟨s2, hro, h2ord, h2wf, h2coh, h2mem, h2slice⟩ := reopened_main s' log hinv hsize
  refine ⟨s2, hro, ?_⟩
  intro w hwmem
  obtain ⟨hkb, hvwf⟩ := hkeys w hwmem
  obtain ⟨loc, hlogentry⟩ := hcover w hwmem
  obtain ⟨_, _, _, _, _, hnodup, _, _, hlogdata⟩ := hinv
  obtain ⟨_, enc, henc, hsizee, hck, hoffb, hbound2, hslice0⟩ :=
    hlogdata (w.1, loc, w.2) hlogentry
  have hoffb2 : HEADER_SIZE ≤ loc.offset := hoffb
  have hbound3 : loc.offset + 20 + loc.size ≤ s'.dataOffset := hbound2
  have hslice1 : (s'.file.drop (loc.offset + 20)).take loc.size = enc := hslice0
  have hck2 : loc.checksum = crc32 enc := hck
  have hfind : locFind log w.1 = some (loc, w.2) :=
    locFind_of_mem_nodup log hnodup (w.1, loc, w.2) hlogentry
  have hmem2 : w.1 ∈ (s2.tree.entries).map Prod.fst := h2mem (w.1, loc, w.2) hlogentry
  have hcoh2 : ∀ e ∈ s2.tree.entries,
      (fun k => (locFind log k).map (fun p => p.1)) e.1 = some e.2 := by
    intro e he
    obtain ⟨v, hf⟩ := h2coh e he
    show (locFind log e.1).map (fun p => p.1) = some e.2
    rw [hf]
    rfl
  have hget0 := BTree_get_main s2.tree w.1 (fun k => (locFind log k).map (fun p => p.1))
    h2ord h2wf hcoh2 hkb hmem2
  have hget : s2.tree.get w.1 = some loc := by
    rw [hget0]
    show (locFind log w.1).map (fun p => p.1) = some loc
    rw [hfind]
    rfl
  have hgetS : s2.tree.get (stringToUUID (uuidToString w.1)) = some loc := by
    rw [stringToUUID_uuidToString w.1 hkb]
    exact hget
  have heq20 : loc.offset + UUID_SIZE + 4 = loc.offset + 20 := by
    rw [show (UUID_SIZE : Nat) = 16 from rfl]
  have hbuf : (s2.file.drop (loc.offset + UUID_SIZE + 4)).take loc.size = enc := by
    rw [heq20]
    rw [h2slice (loc.offset + 20) loc.size (by rw [show (HEADER_SIZE : Nat) = 32 from rfl] at hoffb2 ⊢; omega) (by omega)]
    exact hslice1
  have hdec : decode enc = some (w.2, []) := by
    rw [decode]
    have := encodeValue_roundtrip w.2 (enc.length + 1) enc [] hvwf henc (by omega)
    rw [List.append_nil] at this
    exact this
  exact readRecord_found s2 (uuidToString w.1) loc enc w.2 [] hgetS hbuf hck2.symm hdec

/-- Claim C2 (counterexample): writing the single payload `2^64` as a
bigint, flushing, closing and reopening the file, then reading the record
back under its id returns bigint `0` — the 64-bit wrap of the payload —
not the originally written value, because `encodeBigInt` stores the value
with `setBigUint64`, which wraps modulo `2^64`. -/
theorem c2_counterexample_bigint_payload :
    ∃ s1 s2,
      writeSeq (createDatabase initialStorage)
        [([1, 2, 3, 4, 5, 6, 7, 8, 9, 10, 11, 12, 13, 14, 15, 16],
          Value.vbigint (2 ^ 64))] = some s1 ∧
      reopened s1 = some s2 ∧
      readRecord s2 (uuidToString [1, 2, 3, 4, 5, 6, 7, 8, 9, 10, 11, 12, 13, 14, 15, 16])
        = Except.ok (some (Value.vbigint 0)) ∧
      Value.vbigint 0 ≠ Value.vbigint (2 ^ 64) := by
  refine ⟨_, _, rfl, rfl, rfl, ?_⟩
  intro h
  injection h with h2
  exact absurd h2 (by norm_num)

/-- Claim C2 (corrected): for every sequence of `Storage.write` calls on a
fresh database whose generated ids are distinct 16-byte UUIDs, whose
payloads are codec-well-formed values, and whose final data offset fits the
32-bit size fields of the index, re-opening the flushed and closed file
succeeds and reading each written id returns exactly the payload that was
written for it. -/
theorem c2_write_reopen_read
    (ws : List (Key × Value)) (s1 : StorageState)
    (hkeys : ∀ w ∈ ws, keyBytesOK w.1 = true ∧ valueWF w.2 = true)
    (hdist : (ws.map Prod.fst).Nodup)
    (hw : writeSeq (createDatabase initialStorage) ws = some s1)
    (hsize : s1.dataOffset < 2 ^ 32) :
    ∃ s2, reopened s1 = some s2 ∧
      ∀ w ∈ ws, readRecord s2 (uuidToString w.1) = Except.ok (some w.2) :=
  c2_main ws s1 hkeys hdist hw hsize

/-- Claim C2 (witness): the corrected theorem applied to a concrete
two-write sequence. -/
theorem c2_write_reopen_read_witness :
    ∃ s2, reopened ((writeSeq (createDatabase initialStorage)
        [([1, 2, 3, 4, 5, 6, 7, 8, 9, 10, 11, 12, 13, 14, 15, 16], Value.vnull),
         ([17, 18, 19, 20, 21, 22, 23, 24, 25, 26, 27, 28, 29, 30, 31, 32],
          Value.vbool true)]).getD initialStorage) = some s2 ∧
      ∀ w ∈ [([1, 2, 3, 4, 5, 6, 7, 8, 9, 10, 11, 12, 13, 14, 15, 16], Value.vnull),
             ([17, 18, 19, 20, 21, 22, 23, 24, 25, 26, 27, 28, 29, 30, 31, 32],
              Value.vbool true)],
        readRecord s2 (uuidToString w.1) = Except.ok (some w.2) :=
  c2_write_reopen_read _ _ (by decide) (by decide) (by rfl) (by decide)

end Dowe
